import Mathlib

/-!
Shallow embedding of the `entropy-map` crate (MPHF, RankedBits, MapWithDict,
bit-packed values) and verification of the specification claims.

Machine integers are modelled as `Nat` with explicit `% 2^w` where the Rust
code relies on wrapping; `u64` words of bit vectors are `Nat` values carrying
the side condition `< 2^64` where popcounts matter.  Fallible construction is
modelled with `Except`.  All definitions are executable.
-/

namespace EntropyMap

/-- Popcount of a 64-bit word (`u64::count_ones`): the number of set bits
among positions `0..64`.  Agrees with the full popcount for words `< 2^64`. -/
def popW (w : Nat) : Nat := (List.range 64).countP (fun i => w.testBit i)

/-- Sum of popcounts of a list of 64-bit words. -/
def popSum (ws : List Nat) : Nat := (ws.map popW).sum

/-- Bit `i` of a bit vector laid out as 64-bit words, little-endian within
each word (bit `i` lives in word `i/64` at position `i%64`). -/
def bitGet (ws : List Nat) (i : Nat) : Bool := (ws.getD (i / 64) 0).testBit (i % 64)

/-- Number of set bits strictly before position `i` (brute-force reference). -/
def bitsBefore (ws : List Nat) (i : Nat) : Nat :=
  (List.range i).countP (fun t => bitGet ws t)

/-- Split a list into chunks of `k` elements; the final chunk may be shorter
(mirrors Rust's `chunks(k)`; the full chunks alone mirror `chunks_exact(k)`). -/
def chunks (k : Nat) (l : List α) : List (List α) :=
  (List.range ((l.length + k - 1) / k)).map (fun j => (l.drop (j * k)).take k)

/-! ## RankedBits (src/rank.rs) -/

/-- Cumulative 12-bit popcount fields of one L1 chunk (at most 64 words),
mirroring the inner loop of `RankedBits::new`: after each 8-word sub-chunk
`i`, the running popcount `sum` is added at bit offset `12*i`. -/
def l12Fields (c : List Nat) : Nat :=
  ((List.range ((c.length + 7) / 8)).map
    (fun i => popSum (c.take (8 * (i + 1))) <<< (12 * i))).sum

/-- One 128-bit `l12_ranks` entry: fields shifted left by 44 (wrapping in
`u128`), OR-ed with the cumulative rank `l1` of all earlier chunks. -/
def l12Entry (c : List Nat) (l1 : Nat) : Nat :=
  (l12Fields c <<< 44) % 2 ^ 128 ||| l1

/-- Builds the `l12_ranks` entries for a list of L1 chunks, threading the
cumulative popcount through (mirrors the two loops of `RankedBits::new`). -/
def l12Build : List (List Nat) → Nat → List Nat
  | [], _ => []
  | c :: cs, l1 => l12Entry c l1 :: l12Build cs (l1 + popSum c)

/-- The `l12_ranks` index built by `RankedBits::new` from the word vector. -/
def l12Ranks (bits : List Nat) : List Nat := l12Build (chunks 64 bits) 0

/-- Faithful translation of `RankedBitsAccess::rank_impl` (src/rank.rs):
returns `none` when the bit at `idx` is clear, otherwise the L1 rank plus the
L2 rank plus the popcounts of the whole words and the partial word before
`idx` inside its L2 block. -/
def rank_impl (bits l12 : List Nat) (idx : Nat) : Option Nat :=
  let word := bits.getD (idx / 64) 0
  if word &&& (1 <<< (idx % 64)) = 0 then none
  else
    let l12r := l12.getD (idx / 4096) 0
    let l1Rank := l12r &&& 0xFFFFFFFFFFF
    let l2Rank := (l12r >>> (32 + 12 * (idx % 4096 / 512))) &&& 0xFFF
    let idxWithinL2 := idx % 512
    let blocksNum := idxWithinL2 / 64
    let offset := idx / 512 * 8
    let blockRank := popSum ((bits.drop offset).take blocksNum)
    let w := bits.getD (offset + blocksNum) 0
    let wordMask := ((1 <<< (idxWithinL2 % 64)) - 1) * (if 0 < idxWithinL2 then 1 else 0)
    let wordRank := popW (w &&& wordMask)
    some (l1Rank + l2Rank + blockRank + wordRank)

/-- The rank structure of src/rank.rs: the bit vector and its L1/L2 index. -/
structure RankedBits where
  bits : List Nat
  l12_ranks : List Nat
  deriving DecidableEq

/-- `RankedBits::new`: wraps the bit vector together with its freshly built
`l12_ranks` index. -/
def RankedBits.new (bits : List Nat) : RankedBits :=
  ⟨bits, l12Ranks bits⟩

/-- `RankedBits::rank` (the `rank`-if-set variant present in src/rank.rs). -/
def RankedBits.rank (r : RankedBits) (idx : Nat) : Option Nat :=
  rank_impl r.bits r.l12_ranks idx

/-- Modelled from the spec: `RankedBits::get` is called by `Mphf::get` but its
definition is absent from src/ (src/rank.rs is from a revision without it).
Per §4.1 "`get(i) → bool` — returns the bit at position `i`". -/
def RankedBits.get (r : RankedBits) (i : Nat) : Bool := bitGet r.bits i

/-- Modelled from the spec: the raw `rank` variant returning a plain count is
called by `Mphf::get` but absent from src/.  Per §4.1 "rank(i) — returns the
number of set bits strictly before position `i`" (the raw variant "returning
just the count (used by MPHF after confirming the bit is set)"). -/
def RankedBits.rankRaw (r : RankedBits) (i : Nat) : Nat := bitsBefore r.bits i

/-! ## Mphf (src/src/mphf.rs) -/

/-- Maximum number of levels to build for MPHF. -/
def MAX_LEVELS : Nat := 32

/-- Errors that can occur when initializing `Mphf` (src/mphf.rs). -/
inductive Error where
  | MaxLevelsExceeded
  | InvalidBParameter
  | InvalidSParameter
  | InvalidSeedType
  | InvalidGammaParameter
  deriving DecidableEq

/-- The fast alternative to modulo reduction: `((x as u64) * (n as u64)) >> 32`
for 32-bit `x` and `n`. -/
def fastmod32 (x n : Nat) : Nat := (x * n) >>> 32

/-- Combines a 64-bit hash with a 32-bit seed: XOR, multiply by a prime in
`u128` (wrapping), and fold the two 64-bit halves with XOR. -/
def hash_with_seed (hash seed : Nat) : Nat :=
  let x := (hash ^^^ seed) * 0x5851f42d4c957f2d % 2 ^ 128
  x % 2 ^ 64 ^^^ x / 2 ^ 64

/-- MurmurHash3's 32-bit finalizer (all arithmetic wrapping in `u32`). -/
def murmur32 (x0 : Nat) : Nat :=
  let x1 := (x0 ^^^ x0 >>> 16) * 0x85ebca6b % 2 ^ 32
  let x2 := (x1 ^^^ x1 >>> 13) * 0xc2b2ae35 % 2 ^ 32
  x2 ^^^ x2 >>> 16

/-- `Mphf::bit_index_for_seed`: avalanche the low 32 hash bits XOR-ed with the
group seed and place the result inside the group's `B`-bit window. -/
def bit_index_for_seed (B : Nat) (hash group_seed groups_before : Nat) : Nat :=
  groups_before * B + fastmod32 (murmur32 (hash % 2 ^ 32 ^^^ group_seed)) B

/-- `Mphf::level_size_groups_segments`: round `size` up to a multiple of
`lcm(B, 64)` and return the number of `B`-bit groups and 64-bit segments. -/
def level_size_groups_segments (B size : Nat) : Nat × Nat :=
  let lcmV := Nat.lcm B 64
  let adjusted := (size + lcmV - 1) / lcmV * lcmV
  (adjusted / B, adjusted / 64)

/-- Group index of a level hash: `fastmod32(level_hash as u32, groups as u32)`
(both casts truncate). -/
def groupOf (groups level_hash : Nat) : Nat :=
  fastmod32 (level_hash % 2 ^ 32) (groups % 2 ^ 32)

/-- One step of the per-hash loop of `Mphf::update_group_bits_with_seed`:
record the hash's bit in plane 0 of its segment and any collision in plane 1
(`bits[1] |= bits[0] & mask; bits[0] |= mask`). -/
def updateHashBits (B level groups group_seed : Nat) (gb : List Nat) (hash : Nat) : List Nat :=
  let level_hash := hash_with_seed hash level
  let group_idx := groupOf groups level_hash
  let bit_idx := bit_index_for_seed B level_hash group_seed group_idx
  let mask := 1 <<< (bit_idx % 64)
  let idx := bit_idx / 64 * 3
  let b0 := gb.getD idx 0
  let b1 := gb.getD (idx + 1) 0
  (gb.set (idx + 1) (b1 ||| b0 &&& mask)).set idx (b0 ||| mask)

/-- Reset planes 0 and 1 of every segment, keeping plane 2 (the
`chunks_exact_mut(3)` loop that zeroes `bits[0]` and `bits[1]`). -/
def resetPlanes (gb : List Nat) : List Nat :=
  gb.mapIdx (fun i w => if i % 3 = 2 then w else 0)

/-- Clear collided bits from plane 0 (`bits[0] &= !bits[1]`). -/
def filterCollisions (gb : List Nat) : List Nat :=
  gb.mapIdx (fun i w => if i % 3 = 0 then w &&& ((2 ^ 64 - 1) ^^^ gb.getD (i + 1) 0) else w)

/-- The per-group tournament step of `Mphf::update_group_bits_with_seed`: read
the `B`-bit window of plane 0 and of plane 2 (spanning at most two segments),
count their one-bits, and on strict improvement overwrite plane 2's window and
record the seed. -/
def updateBestGroup (B group_seed : Nat) (st : List Nat × List Nat) (group_idx : Nat) :
    List Nat × List Nat :=
  let gb := st.1
  let bgs := st.2
  let bit_idx := group_idx * B
  let bit_pos := bit_idx % 64
  let idx := bit_idx / 64 * 3
  let bits1 := min B (64 - bit_pos)
  let bits2 := B - bits1
  let mask1 := (2 ^ 64 - 1) >>> (64 - bits1)
  let mask2 := (1 <<< bits2) - 1
  let newBits1 := gb.getD idx 0 >>> bit_pos &&& mask1
  let newBits2 := gb.getD (idx + 3) 0 &&& mask2
  let newOnes := popW newBits1 + popW newBits2
  let bestBits1 := gb.getD (idx + 2) 0 >>> bit_pos &&& mask1
  let bestBits2 := gb.getD (idx + 5) 0 &&& mask2
  let bestOnes := popW bestBits1 + popW bestBits2
  if newOnes > bestOnes then
    let w2 := gb.getD (idx + 2) 0 &&& ((2 ^ 64 - 1) ^^^ mask1 <<< bit_pos) ||| newBits1 <<< bit_pos
    let w5 := gb.getD (idx + 5) 0 &&& ((2 ^ 64 - 1) ^^^ mask2) ||| newBits2
    ((gb.set (idx + 2) w2).set (idx + 5) w5, bgs.set group_idx group_seed)
  else (gb, bgs)

/-- `Mphf::update_group_bits_with_seed`: reset planes, record every hash and
its collisions, clear collided bits, and run the per-group tournament. -/
def update_group_bits_with_seed (B level groups group_seed : Nat) (hashes : List Nat)
    (gb bgs : List Nat) : List Nat × List Nat :=
  let gb1 := resetPlanes gb
  let gb2 := hashes.foldl (updateHashBits B level groups group_seed) gb1
  let gb3 := filterCollisions gb2
  (List.range groups).foldl (updateBestGroup B group_seed) (gb3, bgs)

/-- `Mphf::build_level`: try every seed in `[0, 2^S)`, extract plane 2 as the
level's bit vector, and keep the hashes whose bit is clear.  Returns
`(best_group_bits, best_group_seeds, retained hashes)`.  The `f32` expression
`((hashes.len() as f32) * gamma).ceil() as usize` is abstracted by the
function `lsize`. -/
def build_level (B S : Nat) (lsize : Nat → Nat) (level : Nat) (hashes : List Nat) :
    List Nat × List Nat × List Nat :=
  let gs := level_size_groups_segments B (lsize hashes.length)
  let groups := gs.1
  let segments := gs.2
  let res := (List.range (2 ^ S)).foldl
    (fun st seed => update_group_bits_with_seed B level groups seed hashes st.1 st.2)
    (List.replicate (3 * segments) 0, List.replicate groups 0)
  let bestBits := (List.range segments).map (fun k => res.1.getD (3 * k + 2) 0)
  let retained := hashes.filter (fun hash =>
    let level_hash := hash_with_seed hash level
    let group_idx := groupOf groups level_hash
    let bit_idx := bit_index_for_seed B level_hash (res.2.getD group_idx 0) group_idx
    bestBits.getD (bit_idx / 64) 0 &&& (1 <<< (bit_idx % 64)) = 0)
  (bestBits, res.2, retained)

/-- The `while !hashes.is_empty()` loop of `Mphf::from_slice`, with the fuel
`MAX_LEVELS - level` making the `MaxLevelsExceeded` cutoff structural. -/
def buildLevels (B S : Nat) (lsize : Nat → Nat) :
    Nat → Nat → List Nat → Except Error (List (List Nat × List Nat))
  | _, _, [] => .ok []
  | 0, _, _ :: _ => .error .MaxLevelsExceeded
  | fuel + 1, level, h :: hs =>
    let r := build_level B S lsize level (h :: hs)
    (buildLevels B S lsize fuel (level + 1) r.2.2).map (fun rest => (r.1, r.2.1) :: rest)

/-- A Minimal Perfect Hash Function (the struct `Mphf` of src/mphf.rs).  The
const generics `B`, `S`, the seed type `ST` and the hasher `H` are passed to
the operations as explicit arguments (`stMax` is `ST`'s maximal value,
`hashKey` the 64-bit hash function). -/
structure Mphf where
  ranked_bits : RankedBits
  level_groups : List Nat
  group_seeds : List Nat
  deriving DecidableEq

/-- Wrap the per-level `(bits, seeds)` outputs into the `Mphf` struct: the
concatenated bits in a fresh `RankedBits`, the per-level group counts
(`level_group_seeds.len()`), and the concatenated seeds. -/
def mphfOfLevels (levels : List (List Nat × List Nat)) : Mphf :=
  { ranked_bits := RankedBits.new (levels.map Prod.fst).flatten
    level_groups := levels.map (fun l => l.2.length)
    group_seeds := (levels.map Prod.snd).flatten }

/-- `Mphf::from_slice`: validate `B`, `S`, `gamma` and the seed type, hash the
keys, build levels until no hash remains (or 32 levels are exhausted), and
wrap the concatenated level bits in a `RankedBits`. -/
def from_slice (B S stMax : Nat) (gamma : ℚ) (lsize : Nat → Nat)
    {K : Type} (hashKey : K → Nat) (keys : List K) : Except Error Mphf :=
  if B < 1 ∨ B > 64 then .error .InvalidBParameter
  else if S > 16 then .error .InvalidSParameter
  else if gamma < 1 then .error .InvalidGammaParameter
  else if 2 ^ S - 1 > stMax then .error .InvalidSeedType
  else (buildLevels B S lsize MAX_LEVELS 0 (keys.map hashKey)).map mphfOfLevels

/-- The per-level probe loop of `Mphf::get`, walking `level_groups` while
accumulating `groups_before`. -/
def getLoop (B : Nat) (rb : RankedBits) (seeds : List Nat) (keyHash : Nat) :
    List Nat → Nat → Nat → Option Nat
  | [], _, _ => none
  | groups :: rest, level, groups_before =>
    let level_hash := hash_with_seed keyHash level
    let group_idx := groups_before + groupOf groups level_hash
    let bit_idx := bit_index_for_seed B level_hash (seeds.getD group_idx 0) group_idx
    if rb.get bit_idx then some (rb.rankRaw bit_idx)
    else getLoop B rb seeds keyHash rest (level + 1) (groups_before + groups)

/-- `Mphf::get`: the index associated with `key`, or `none` when no level
claims its probe bit. -/
def Mphf.get (B : Nat) (m : Mphf) {K : Type} (hashKey : K → Nat) (key : K) : Option Nat :=
  getLoop B m.ranked_bits m.group_seeds (hashKey key) m.level_groups 0 0

/-! ## MapWithDict (src/src/map_with_dict.rs) -/

/-- The dictionary-packed map: an MPHF, the keys permuted into MPHF order, the
per-key offsets into the dictionary, and the deduplicated values. -/
structure MapWithDict (K V : Type) where
  mphf : Mphf
  keys : List K
  values_index : List Nat
  values_dict : List V

/-- The value-deduplication loop of `MapWithDict::from_iter_with_params`.  The
`offsets_cache` hash table maps each distinct value to the dictionary length
at its insertion, i.e. to its (first) position in `values_dict`; looking a
value up in the cache is therefore `List.findIdx` on the dictionary built so
far (which also returns the pushed position `dict.length` on a miss). -/
def dedupValues {K V : Type} [DecidableEq V] (pairs : List (K × V)) :
    List K × List Nat × List V :=
  pairs.foldl (fun st kv =>
    (st.1 ++ [kv.1],
     st.2.1 ++ [st.2.2.findIdx (fun x => decide (x = kv.2))],
     if kv.2 ∈ st.2.2 then st.2.2 else st.2.2 ++ [kv.2]))
    ([], [], [])

/-- `Vec::swap` on a list (identity when either index is out of range; the
in-range case is the only one reached). -/
def listSwap (l : List α) (i j : Nat) : List α :=
  match l[i]?, l[j]? with
  | some a, some b => (l.set i b).set j a
  | _, _ => l

/-- The inner `loop` of the in-place reordering in
`MapWithDict::from_iter_with_params`: repeatedly swap position `i` with
`mphf.get(keys[i])` until they coincide.  The Rust loop is unbounded and
unwraps `mphf.get`; the fuel and the `none` early exits model the panic and
divergence paths, which the verification shows are never reached after a
successful construction. -/
def cycleInner (B : Nat) (m : Mphf) {K : Type} (hashKey : K → Nat) (i : Nat) :
    Nat → List K × List Nat → List K × List Nat
  | 0, st => st
  | fuel + 1, st =>
    match st.1[i]? with
    | none => st
    | some k =>
      match m.get B hashKey k with
      | none => st
      | some idx =>
        if idx = i then st
        else cycleInner B m hashKey i fuel (listSwap st.1 i idx, listSwap st.2 i idx)

/-- The outer reordering loop: for each `i`, run the inner loop.  A fuel of
`n + 1` per inner loop suffices (the total number of swaps is at most `n`). -/
def cycleSort (B : Nat) (m : Mphf) {K : Type} (hashKey : K → Nat)
    (ks : List K) (vi : List Nat) : List K × List Nat :=
  (List.range ks.length).foldl
    (fun st i => cycleInner B m hashKey i (ks.length + 1) st) (ks, vi)

/-- Position `t` of the key array is settled: it holds a key that the MPHF
maps back to `t`.  The cycle sort's goal is to settle every position. -/
def posFixed (B : Nat) (m : Mphf) {K : Type} (hashKey : K → Nat) (ks : List K)
    (t : Nat) : Bool :=
  match ks[t]? with
  | some k => decide (m.get B hashKey k = some t)
  | none => false

/-- Number of unsettled positions below `n`; the termination measure of the
cycle sort (each swap settles a new position for good). -/
def unfixedCount (B : Nat) (m : Mphf) {K : Type} (hashKey : K → Nat) (ks : List K)
    (n : Nat) : Nat :=
  (List.range n).countP (fun t => ! posFixed B m hashKey ks t)

/-- `MapWithDict::from_iter_with_params`: deduplicate values, build the MPHF
over the keys, and reorder `keys`/`values_index` by the MPHF permutation. -/
def MapWithDict.from_iter_with_params {K V : Type} [DecidableEq V]
    (B S stMax : Nat) (gamma : ℚ) (lsize : Nat → Nat) (hashKey : K → Nat)
    (pairs : List (K × V)) : Except Error (MapWithDict K V) :=
  let d := dedupValues pairs
  (from_slice B S stMax gamma lsize hashKey d.1).map (fun mphf =>
    let st := cycleSort B mphf hashKey d.1 d.2.1
    ⟨mphf, st.1, st.2, d.2.2⟩)

/-- `MapWithDict::get`: look the key up through the MPHF, compare the stored
key, and on equality decode the dictionary value.  The `get_unchecked`
accesses are modelled with checked lookups; the verification shows they are
in bounds. -/
def MapWithDict.get {K V : Type} [DecidableEq K] (B : Nat) (mp : MapWithDict K V)
    (hashKey : K → Nat) (key : K) : Option V :=
  match mp.mphf.get B hashKey key with
  | none => none
  | some idx =>
    match mp.keys[idx]? with
    | some k => if k = key then mp.values_dict[mp.values_index.getD idx 0]? else none
    | none => none

/-- `MapWithDict::contains_key`. -/
def MapWithDict.contains_key {K V : Type} [DecidableEq K] (B : Nat) (mp : MapWithDict K V)
    (hashKey : K → Nat) (key : K) : Bool :=
  match mp.mphf.get B hashKey key with
  | some idx => mp.keys[idx]? = some key
  | none => false

/-! ## Bit-packed values (src/src/map_with_dict_bitpacked.rs) -/

/-- Number of values bit-packed in one batch (`BitPacker1x::BLOCK_LEN`). -/
def VALUES_BLOCK_LEN : Nat := 32

/-- Bit length of a value below `2^fuel` (structural; `bitWidthGo v 32` is
`32 - v.leading_zeros()` for a `u32` value `v`). -/
def bitWidthGo (v : Nat) : Nat → Nat
  | 0 => 0
  | f + 1 => if v = 0 then 0 else bitWidthGo (v / 2) f + 1

/-- Modelled from the spec: `BitPacker1x::num_bits` comes from the external
`bitpacking` crate; per §4.3 it is "the minimum bit width `w ∈ [0, 32]`
needed to represent the maximum value in the block", i.e. the bit length of
the block's maximum. -/
def num_bits (block : List Nat) : Nat := bitWidthGo (block.foldr max 0) 32

/-- Modelled from the spec: the LSB-first contiguous bitstream of a block of
values at width `w` (§4.3: the values are "packed LSB-first contiguously"),
as a natural number whose bits `[w*i, w*(i+1))` hold value `i`. -/
def packedNat (w : Nat) (vals : List Nat) : Nat :=
  vals.foldr (fun v acc => v % 2 ^ w + acc * 2 ^ w) 0

/-- First `count` bytes of the little-endian byte stream of `x` (the output
buffer of `BitPacker1x::compress`). -/
def bytesOfNat (x count : Nat) : List Nat :=
  (List.range count).map (fun j => x >>> (8 * j) &&& 255)

/-- Little-endian value of the first `count` bytes of a byte list (the input
of `BitPacker1x::decompress`); out-of-range reads yield 0, matching the
zero tail padding in every reachable use. -/
def natOfBytes (bs : List Nat) (count : Nat) : Nat :=
  ((List.range count).map (fun j => bs.getD j 0 * 2 ^ (8 * j))).sum

/-- `pack_values`: bit-pack every 32-value block (the final block zero-padded)
and emit one width byte followed by `ceil(block.len * w / 8)` packed bytes. -/
def pack_values (values : List Nat) : List Nat :=
  ((chunks 32 values).map (fun block =>
    let vb := block ++ List.replicate (32 - block.length) 0
    let w := num_bits vb
    w :: bytesOfNat (packedNat w vb) ((block.length * w + 7) / 8))).flatten

/-- The block loop of `unpack_values`, with the number of blocks
(`res.chunks_mut(32)` yields `ceil(n/32)` of them) made structural. -/
def unpackGo (dict : List Nat) (n : Nat) : Nat → List Nat
  | 0 => []
  | nb + 1 =>
    let len := min 32 n
    let w := dict.getD 0 0
    let big := natOfBytes (dict.drop 1) (4 * w)
    let vals := (List.range 32).map (fun i => big >>> (w * i) &&& (2 ^ w - 1))
    vals.take len ++ unpackGo (dict.drop (1 + (len * w + 7) / 8)) (n - len) nb

/-- `unpack_values`: for each block of the output (of total length `n`), read
the width byte, decode 32 values from the following `4*w` bytes, copy the
first `block.len` of them, and advance by the block's true byte size. -/
def unpack_values (dict : List Nat) (n : Nat) : List Nat :=
  unpackGo dict n ((n + 31) / 32)

/-! ## Derived notions used by the claims -/

/-- The all-ones counterexample vector: `2^26 + 64` words, `2^32 + 4096` bits. -/
def cexBits : List Nat := List.replicate (2 ^ 26 + 64) (2 ^ 64 - 1)

/-- Bit `b` of plane `p` of the interleaved group-bits buffer of `build_level`
(plane 0 = hash bits, 1 = collision bits, 2 = best bits): the code addresses it
as bit `b % 64` of word `b / 64 * 3 + p`. -/
def planeBit (p : Nat) (gb : List Nat) (b : Nat) : Bool :=
  (gb.getD (b / 64 * 3 + p) 0).testBit (b % 64)

/-- The bit probed by hash `h` at `level` under group seed `seed`, in a level
of `groups` groups: the composition of `hash_with_seed`, `groupOf` and
`bit_index_for_seed` used by both `build_level` and `Mphf::get`. -/
def probeBit (B groups level seed h : Nat) : Nat :=
  bit_index_for_seed B (hash_with_seed h level) seed
    (groupOf groups (hash_with_seed h level))

/-- Number of hashes in `H` probing bit `b` under group seed `s`. -/
def cntSeed (B groups level : Nat) (H : List Nat) (s b : Nat) : Nat :=
  H.countP (fun h => probeBit B groups level s h = b)

/-- The first `m` steps of the per-group tournament fold of
`update_group_bits_with_seed`. -/
def tournamentFold (B s : Nat) (gb bgs : List Nat) (m : Nat) : List Nat × List Nat :=
  (List.range m).foldl (updateBestGroup B s) (gb, bgs)

/-- The group-bits/seeds state after the full seed loop of `build_level`
(definitionally the `res` of `build_level`). -/
def levelFoldResult (B S : Nat) (lsize : Nat → Nat) (level : Nat) (hashes : List Nat) :
    List Nat × List Nat :=
  let gs := level_size_groups_segments B (lsize hashes.length)
  (List.range (2 ^ S)).foldl
    (fun st seed => update_group_bits_with_seed B level gs.1 seed hashes st.1 st.2)
    (List.replicate (3 * gs.2) 0, List.replicate gs.1 0)

/-- The `new_ones > best_ones` tournament condition of `updateBestGroup`,
read off the same buffer words. -/
def wonGroup (B : Nat) (gb : List Nat) (group_idx : Nat) : Bool :=
  let bit_idx := group_idx * B
  let bit_pos := bit_idx % 64
  let idx := bit_idx / 64 * 3
  let bits1 := min B (64 - bit_pos)
  let bits2 := B - bits1
  let mask1 := (2 ^ 64 - 1) >>> (64 - bits1)
  let mask2 := (1 <<< bits2) - 1
  decide (popW (gb.getD idx 0 >>> bit_pos &&& mask1) + popW (gb.getD (idx + 3) 0 &&& mask2) >
    popW (gb.getD (idx + 2) 0 >>> bit_pos &&& mask1) + popW (gb.getD (idx + 5) 0 &&& mask2))

/-- The concatenated per-level bit vectors (as in `mphfOfLevels`). -/
def bitsOf (levels : List (List Nat × List Nat)) : List Nat :=
  (levels.map Prod.fst).flatten

/-- The concatenated per-level group seeds (as in `mphfOfLevels`). -/
def seedsOf (levels : List (List Nat × List Nat)) : List Nat :=
  (levels.map Prod.snd).flatten

/-- The per-level group counts (as in `mphfOfLevels`). -/
def lgroupsOf (levels : List (List Nat × List Nat)) : List Nat :=
  levels.map (fun l => l.2.length)

/-- The bit (in level-concatenated coordinates) at which a hash is placed:
the first level whose best-bits vector has the hash's probe bit set. -/
def levelBit (B : Nat) : List (List Nat × List Nat) → Nat → Nat → Option Nat
  | [], _, _ => none
  | lv :: rest, level, h =>
    let groups := lv.2.length
    let lh := hash_with_seed h level
    let g := groupOf groups lh
    let pb := bit_index_for_seed B lh (lv.2.getD g 0) g
    if bitGet lv.1 pb then some pb
    else (levelBit B rest (level + 1) h).map (fun b => 64 * lv.1.length + b)

/-- The bit a hash probes in a level built by `build_level` when every group
uses its winning seed. -/
def probeOwn (B S : Nat) (lsize : Nat → Nat) (level : Nat) (hashes : List Nat)
    (h : Nat) : Nat :=
  probeBit B (level_size_groups_segments B (lsize hashes.length)).1 level
    ((build_level B S lsize level hashes).2.1.getD
      (groupOf (level_size_groups_segments B (lsize hashes.length)).1
        (hash_with_seed h level)) 0) h

/-- The hashes still unplaced after `k` levels of peeling, starting from
`hashes` at level `level` (iterates the `retain` of `Mphf::build_level`). -/
def remainingAfter (B S : Nat) (lsize : Nat → Nat) (hashes : List Nat) (level : Nat) :
    Nat → List Nat
  | 0 => hashes
  | k + 1 =>
    (build_level B S lsize (level + k) (remainingAfter B S lsize hashes level k)).2.2

/-! ## Theorems -/

theorem build_level_nil (B S : Nat) (lsize : Nat → Nat) (level : Nat) :
    (build_level B S lsize level []).2.2 = [] := by
  simp [build_level]

theorem remainingAfter_nil (B S : Nat) (lsize : Nat → Nat) (level : Nat) (k : Nat) :
    remainingAfter B S lsize [] level k = [] := by
  induction k with
  | zero => rfl
  | succ k ih => rw [remainingAfter, ih, build_level_nil]

theorem remainingAfter_cons_step (B S : Nat) (lsize : Nat → Nat) (hashes : List Nat)
    (level : Nat) (k : Nat) :
    remainingAfter B S lsize hashes level (k + 1) =
      remainingAfter B S lsize (build_level B S lsize level hashes).2.2 (level + 1) k := by
  induction k with
  | zero => rfl
  | succ k ih =>
    rw [remainingAfter, ih, remainingAfter,
      show level + (k + 1) = (level + 1) + k from by omega]

theorem buildLevels_error_iff (B S : Nat) (lsize : Nat → Nat) :
    ∀ (fuel level : Nat) (hashes : List Nat) (e : Error),
      buildLevels B S lsize fuel level hashes = .error e ↔
        e = .MaxLevelsExceeded ∧ remainingAfter B S lsize hashes level fuel ≠ [] := by
  intro fuel
  induction fuel with
  | zero =>
    intro level hashes e
    match hashes with
    | [] => simp [buildLevels, remainingAfter]
    | h :: hs =>
      simp only [buildLevels, remainingAfter]
      constructor
      · intro he
        have he' : Error.MaxLevelsExceeded = e := by simpa using he
        exact ⟨he'.symm, by simp⟩
      · rintro ⟨rfl, -⟩
        rfl
  | succ fuel ih =>
    intro level hashes e
    match hashes with
    | [] => simp [buildLevels, remainingAfter_nil]
    | h :: hs =>
      rw [remainingAfter_cons_step]
      have hstep : buildLevels B S lsize (fuel + 1) level (h :: hs) =
          (buildLevels B S lsize fuel (level + 1)
            (build_level B S lsize level (h :: hs)).2.2).map
            (fun rest => ((build_level B S lsize level (h :: hs)).1,
              (build_level B S lsize level (h :: hs)).2.1) :: rest) := by
        rw [buildLevels]
      rw [hstep]
      cases hres : buildLevels B S lsize fuel (level + 1)
          (build_level B S lsize level (h :: hs)).2.2 with
      | ok v =>
        have hrem : remainingAfter B S lsize (build_level B S lsize level (h :: hs)).2.2
            (level + 1) fuel = [] := by
          by_contra hne
          have h2 := (ih (level + 1) _ Error.MaxLevelsExceeded).mpr ⟨rfl, hne⟩
          rw [hres] at h2
          exact absurd h2 (by simp)
        simp [Except.map, hrem]
      | error e' =>
        have h1 := (ih (level + 1) _ e').mp hres
        simp only [Except.map]
        constructor
        · intro h'
          have he : e' = e := by simpa using h'
          exact ⟨by rw [← he]; exact h1.1, h1.2⟩
        · rintro ⟨rfl, -⟩
          rw [h1.1]

theorem buildLevels_ok_length (B S : Nat) (lsize : Nat → Nat) :
    ∀ (fuel level : Nat) (hashes : List Nat) (levels : List (List Nat × List Nat)),
      buildLevels B S lsize fuel level hashes = .ok levels → levels.length ≤ fuel := by
  intro fuel
  induction fuel with
  | zero =>
    intro level hashes levels h
    match hashes with
    | [] =>
      have : levels = [] := by simpa [buildLevels] using h.symm
      simp [this]
    | h' :: hs => simp [buildLevels] at h
  | succ fuel ih =>
    intro level hashes levels h
    match hashes with
    | [] =>
      have : levels = [] := by simpa [buildLevels] using h.symm
      simp [this]
    | h' :: hs =>
      rw [show buildLevels B S lsize (fuel + 1) level (h' :: hs) =
          (buildLevels B S lsize fuel (level + 1)
            (build_level B S lsize level (h' :: hs)).2.2).map
            (fun rest => ((build_level B S lsize level (h' :: hs)).1,
              (build_level B S lsize level (h' :: hs)).2.1) :: rest) from by
        rw [buildLevels]] at h
      cases hres : buildLevels B S lsize fuel (level + 1)
          (build_level B S lsize level (h' :: hs)).2.2 with
      | ok v =>
        rw [hres] at h
        have hv := ih (level + 1) _ v hres
        have : levels = ((build_level B S lsize level (h' :: hs)).1,
            (build_level B S lsize level (h' :: hs)).2.1) :: v := by
          simpa [Except.map] using h.symm
        simp only [this, List.length_cons]
        omega
      | error e =>
        rw [hres] at h
        simp [Except.map] at h

theorem from_slice_valid {K : Type} (B S stMax : Nat) (gamma : ℚ) (lsize : Nat → Nat)
    (hashKey : K → Nat) (keys : List K)
    (hB1 : 1 ≤ B) (hB2 : B ≤ 64) (hS : S ≤ 16) (hg : 1 ≤ gamma) (hst : 2 ^ S - 1 ≤ stMax) :
    from_slice B S stMax gamma lsize hashKey keys =
      (buildLevels B S lsize MAX_LEVELS 0 (keys.map hashKey)).map mphfOfLevels := by
  unfold from_slice
  rw [if_neg (by omega), if_neg (by omega), if_neg (not_lt.mpr hg), if_neg (by omega)]

/-- C8: `Mphf::from_slice` validates parameters up front: `InvalidBParameter`
when `B ∉ [1,64]`; then `InvalidSParameter` when `S > 16`; then
`InvalidGammaParameter` when `gamma < 1.0`; then `InvalidSeedType` when the
seed type cannot represent `2^S - 1`; when all four checks pass, construction
proceeds and can only end in success or `MaxLevelsExceeded`. -/
theorem C8_param_validation {K : Type} (B S stMax : Nat) (gamma : ℚ) (lsize : Nat → Nat)
    (hashKey : K → Nat) (keys : List K) :
    (B < 1 ∨ B > 64 →
      from_slice B S stMax gamma lsize hashKey keys = .error .InvalidBParameter) ∧
    (1 ≤ B → B ≤ 64 → 16 < S →
      from_slice B S stMax gamma lsize hashKey keys = .error .InvalidSParameter) ∧
    (1 ≤ B → B ≤ 64 → S ≤ 16 → gamma < 1 →
      from_slice B S stMax gamma lsize hashKey keys = .error .InvalidGammaParameter) ∧
    (1 ≤ B → B ≤ 64 → S ≤ 16 → 1 ≤ gamma → stMax < 2 ^ S - 1 →
      from_slice B S stMax gamma lsize hashKey keys = .error .InvalidSeedType) ∧
    (1 ≤ B → B ≤ 64 → S ≤ 16 → 1 ≤ gamma → 2 ^ S - 1 ≤ stMax →
      (∃ m, from_slice B S stMax gamma lsize hashKey keys = .ok m) ∨
        from_slice B S stMax gamma lsize hashKey keys = .error .MaxLevelsExceeded) := by
  refine ⟨fun h => ?_, fun h1 h2 h3 => ?_, fun h1 h2 h3 h4 => ?_,
    fun h1 h2 h3 h4 h5 => ?_, fun h1 h2 h3 h4 h5 => ?_⟩
  · unfold from_slice
    rw [if_pos (by omega)]
  · unfold from_slice
    rw [if_neg (by omega), if_pos (by omega)]
  · unfold from_slice
    rw [if_neg (by omega), if_neg (by omega), if_pos h4]
  · unfold from_slice
    rw [if_neg (by omega), if_neg (by omega), if_neg (not_lt.mpr h4), if_pos (by omega)]
  · rw [from_slice_valid B S stMax gamma lsize hashKey keys h1 h2 h3 h4 h5]
    cases hres : buildLevels B S lsize MAX_LEVELS 0 (keys.map hashKey) with
    | ok levels => exact Or.inl ⟨mphfOfLevels levels, by simp [Except.map]⟩
    | error e =>
      have := (buildLevels_error_iff B S lsize MAX_LEVELS 0 (keys.map hashKey) e).mp hres
      exact Or.inr (by simp [Except.map, this.1])

theorem C8_param_validation_witness :
    (from_slice 0 8 255 2 (fun m => 2 * m) (id : Nat → Nat) [3] = .error .InvalidBParameter) ∧
    (from_slice 32 17 255 2 (fun m => 2 * m) (id : Nat → Nat) [3] = .error .InvalidSParameter) ∧
    (from_slice 32 8 255 (1 / 2) (fun m => 2 * m) (id : Nat → Nat) [3] =
      .error .InvalidGammaParameter) ∧
    (from_slice 32 16 255 2 (fun m => 2 * m) (id : Nat → Nat) [3] = .error .InvalidSeedType) ∧
    ((∃ m, from_slice 32 8 255 2 (fun m => 2 * m) (id : Nat → Nat) [3] = .ok m) ∨
      from_slice 32 8 255 2 (fun m => 2 * m) (id : Nat → Nat) [3] =
        .error .MaxLevelsExceeded) := by
  refine ⟨(C8_param_validation 0 8 255 2 _ _ _).1 (by omega),
    (C8_param_validation 32 17 255 2 _ _ _).2.1 (by omega) (by omega) (by omega),
    (C8_param_validation 32 8 255 (1 / 2) _ _ _).2.2.1 (by omega) (by omega) (by omega)
      (by norm_num),
    (C8_param_validation 32 16 255 2 _ _ _).2.2.2.1 (by omega) (by omega) (by omega)
      (by norm_num) (by norm_num),
    (C8_param_validation 32 8 255 2 _ _ _).2.2.2.2 (by omega) (by omega) (by omega)
      (by norm_num) (by norm_num)⟩

/-- C7: with valid parameters, `Mphf::from_slice` fails with
`MaxLevelsExceeded` exactly when hashes remain after peeling `MAX_LEVELS = 32`
levels; a successful result never holds more than 32 levels; and
`MaxLevelsExceeded` is the only possible non-validation failure. -/
theorem C7_max_levels {K : Type} (B S stMax : Nat) (gamma : ℚ) (lsize : Nat → Nat)
    (hashKey : K → Nat) (keys : List K)
    (hB1 : 1 ≤ B) (hB2 : B ≤ 64) (hS : S ≤ 16) (hg : 1 ≤ gamma) (hst : 2 ^ S - 1 ≤ stMax) :
    (from_slice B S stMax gamma lsize hashKey keys = .error .MaxLevelsExceeded ↔
      remainingAfter B S lsize (keys.map hashKey) 0 MAX_LEVELS ≠ []) ∧
    (∀ m, from_slice B S stMax gamma lsize hashKey keys = .ok m →
      m.level_groups.length ≤ MAX_LEVELS) ∧
    (∀ e, from_slice B S stMax gamma lsize hashKey keys = .error e →
      e = .MaxLevelsExceeded) := by
  rw [from_slice_valid B S stMax gamma lsize hashKey keys hB1 hB2 hS hg hst]
  cases hres : buildLevels B S lsize MAX_LEVELS 0 (keys.map hashKey) with
  | ok levels =>
    have hrem : remainingAfter B S lsize (keys.map hashKey) 0 MAX_LEVELS = [] := by
      by_contra hne
      have h2 := (buildLevels_error_iff B S lsize MAX_LEVELS 0 (keys.map hashKey)
        .MaxLevelsExceeded).mpr ⟨rfl, hne⟩
      rw [hres] at h2
      exact absurd h2 (by simp)
    refine ⟨by simp [Except.map, hrem], fun m hm => ?_, by simp [Except.map]⟩
    have hlen := buildLevels_ok_length B S lsize MAX_LEVELS 0 (keys.map hashKey) levels hres
    have hm' : m = mphfOfLevels levels := by simpa [Except.map] using hm.symm
    subst hm'
    simpa [mphfOfLevels] using hlen
  | error e =>
    have h1 := (buildLevels_error_iff B S lsize MAX_LEVELS 0 (keys.map hashKey) e).mp hres
    refine ⟨?_, by simp [Except.map], ?_⟩
    · simp only [Except.map]
      constructor
      · intro _
        exact h1.2
      · intro _
        rw [h1.1]
    · intro e' he'
      have : e = e' := by simpa [Except.map] using he'
      rw [← this, h1.1]

theorem C7_max_levels_witness :
    ((1 : Nat) ≤ 32 ∧ (32 : Nat) ≤ 64 ∧ (1 : Nat) ≤ 16 ∧ (1 : ℚ) ≤ 2 ∧ 2 ^ 1 - 1 ≤ 255) ∧
    (from_slice 32 1 255 2 (fun m => 2 * m) (id : Nat → Nat) [5, 7, 5] =
        .error .MaxLevelsExceeded ↔
      remainingAfter 32 1 (fun m => 2 * m) [5, 7, 5] 0 MAX_LEVELS ≠ []) := by
  refine ⟨⟨by omega, by omega, by omega, by norm_num, by omega⟩, ?_⟩
  exact (C7_max_levels 32 1 255 2 (fun m => 2 * m) (id : Nat → Nat) [5, 7, 5]
    (by omega) (by omega) (by omega) (by norm_num) (by omega)).1

/-- C9: on the concrete vector `[0b11001010, 0b00110111, 0b11110000]` the raw
rank of the structure built by `RankedBits::new` satisfies `rank(8) = 4` and
`rank(0) = 0`, the bit at index 0 is clear and the bit at index 1 is set. -/
theorem C9_concrete_rank :
    (RankedBits.new [0b11001010, 0b00110111, 0b11110000]).rankRaw 8 = 4 ∧
    (RankedBits.new [0b11001010, 0b00110111, 0b11110000]).rankRaw 0 = 0 ∧
    (RankedBits.new [0b11001010, 0b00110111, 0b11110000]).get 0 = false ∧
    (RankedBits.new [0b11001010, 0b00110111, 0b11110000]).get 1 = true := by
  refine ⟨by decide, by decide, by decide, by decide⟩

/-! ### Pack/unpack round-trip (C6) -/

theorem bitWidthGo_le (v : Nat) : ∀ f, bitWidthGo v f ≤ f := by
  intro f
  induction f generalizing v with
  | zero => simp [bitWidthGo]
  | succ f ih =>
    rw [bitWidthGo]
    split
    · omega
    · have := ih (v / 2)
      omega

theorem lt_two_pow_bitWidthGo : ∀ (f v : Nat), v < 2 ^ f → v < 2 ^ bitWidthGo v f := by
  intro f
  induction f with
  | zero =>
    intro v hv
    simpa [bitWidthGo] using hv
  | succ f ih =>
    intro v hv
    rw [bitWidthGo]
    split
    · simpa using by omega
    · have h2 : v / 2 < 2 ^ f := by
        rw [pow_succ] at hv
        omega
      have := ih (v / 2) h2
      rw [pow_succ]
      omega

theorem le_foldr_max {l : List Nat} {v : Nat} (hv : v ∈ l) : v ≤ l.foldr max 0 := by
  induction l with
  | nil => simp at hv
  | cons a t ih =>
    rcases List.mem_cons.mp hv with rfl | h
    · exact le_max_left _ _
    · exact le_trans (ih h) (le_max_right _ _)

theorem foldr_max_lt {l : List Nat} {c : Nat} (h : ∀ v ∈ l, v < c) (hc : 0 < c) :
    l.foldr max 0 < c := by
  induction l with
  | nil => simpa
  | cons a t ih =>
    have := h a (List.mem_cons_self _ _)
    have := ih (fun v hv => h v (List.mem_cons_of_mem _ hv))
    simp only [List.foldr_cons]
    omega

theorem num_bits_le (block : List Nat) : num_bits block ≤ 32 :=
  bitWidthGo_le _ 32

theorem mem_lt_two_pow_num_bits {block : List Nat} (hb : ∀ v ∈ block, v < 2 ^ 32)
    {v : Nat} (hv : v ∈ block) : v < 2 ^ num_bits block := by
  have hM : block.foldr max 0 < 2 ^ 32 := foldr_max_lt hb (by positivity)
  exact lt_of_le_of_lt (le_foldr_max hv) (lt_two_pow_bitWidthGo 32 _ hM)

theorem packedNat_nil (w : Nat) : packedNat w [] = 0 := rfl

theorem packedNat_cons (w v : Nat) (vs : List Nat) :
    packedNat w (v :: vs) = v % 2 ^ w + packedNat w vs * 2 ^ w := rfl

theorem packedNat_lt (w : Nat) : ∀ vs : List Nat, packedNat w vs < 2 ^ (w * vs.length) := by
  intro vs
  induction vs with
  | nil => simp [packedNat_nil]
  | cons v t ih =>
    rw [packedNat_cons]
    have h1 : v % 2 ^ w < 2 ^ w := Nat.mod_lt _ (by positivity)
    have h3 : w * (v :: t).length = w * t.length + w := by
      simp [List.length_cons]
      ring
    rw [h3, pow_add]
    calc v % 2 ^ w + packedNat w t * 2 ^ w
        < (packedNat w t + 1) * 2 ^ w := by
          have : (packedNat w t + 1) * 2 ^ w = packedNat w t * 2 ^ w + 2 ^ w := by ring
          omega
      _ ≤ 2 ^ (w * t.length) * 2 ^ w :=
          Nat.mul_le_mul_right _ (Nat.succ_le_of_lt ih)

theorem packedNat_extract (w : Nat) :
    ∀ (vs : List Nat) (i : Nat), packedNat w vs / 2 ^ (w * i) % 2 ^ w = vs.getD i 0 % 2 ^ w := by
  intro vs
  induction vs with
  | nil =>
    intro i
    simp [packedNat_nil]
  | cons v t ih =>
    intro i
    match i with
    | 0 =>
      rw [packedNat_cons]
      simp only [Nat.mul_zero, pow_zero, Nat.div_one, List.getD_cons_zero]
      rw [Nat.add_mul_mod_self_right, Nat.mod_mod_of_dvd v dvd_rfl]
    | i + 1 =>
      rw [packedNat_cons]
      have hw : 0 < 2 ^ w := by positivity
      have hsplit : 2 ^ (w * (i + 1)) = 2 ^ w * 2 ^ (w * i) := by
        rw [← pow_add]
        ring_nf
      rw [hsplit, ← Nat.div_div_eq_div_mul]
      have : (v % 2 ^ w + packedNat w t * 2 ^ w) / 2 ^ w = packedNat w t := by
        rw [Nat.add_mul_div_right _ _ hw, Nat.div_eq_of_lt (Nat.mod_lt _ hw)]
        omega
      rw [this, ih]
      rfl

theorem packedNat_append_zeros (w k : Nat) (vs : List Nat) :
    packedNat w (vs ++ List.replicate k 0) = packedNat w vs := by
  have hz : packedNat w (List.replicate k 0) = 0 := by
    induction k with
    | zero => rfl
    | succ k ih => simp [List.replicate_succ, packedNat_cons, ih]
  unfold packedNat
  rw [List.foldr_append]
  unfold packedNat at hz
  rw [hz]

theorem bytesOfNat_length (x c : Nat) : (bytesOfNat x c).length = c := by
  simp [bytesOfNat]

theorem byteSum_eq_mod : ∀ (c P : Nat),
    ((List.range c).map (fun j => P / 2 ^ (8 * j) % 256 * 2 ^ (8 * j))).sum = P % 2 ^ (8 * c) := by
  intro c
  induction c with
  | zero =>
    intro P
    simp [Nat.mod_one]
  | succ c ih =>
    intro P
    rw [List.range_succ, List.map_append, List.sum_append]
    simp only [List.map_cons, List.map_nil, List.sum_cons, List.sum_nil]
    rw [ih]
    have h1 : (2 : Nat) ^ (8 * (c + 1)) = 2 ^ (8 * c) * 2 ^ 8 := by
      rw [← pow_add]
      ring_nf
    rw [h1, Nat.mod_mul]
    have h2 : (256 : Nat) = 2 ^ 8 := by norm_num
    rw [h2]
    ring

theorem getD_append_left {l r : List α} {j : Nat} (h : j < l.length) (d : α) :
    (l ++ r).getD j d = l.getD j d := by
  simp [List.getD, List.getElem?_append_left h]

theorem getD_append_right {l r : List α} {j : Nat} (h : l.length ≤ j) (d : α) :
    (l ++ r).getD j d = r.getD (j - l.length) d := by
  simp [List.getD, List.getElem?_append_right h]

theorem getD_replicate_zero (k j : Nat) : (List.replicate k (0 : Nat)).getD j 0 = 0 := by
  rcases lt_or_ge j k with h | h
  · simp [List.getD, List.getElem?_replicate, h]
  · simp [List.getD, List.getElem?_eq_none (by simpa using h : (List.replicate k 0).length ≤ j)]

theorem natOfBytes_pack (P size count : Nat) (rest : List Nat) (hsz : size ≤ count)
    (hrest : ∀ j, j < count - size → rest.getD j 0 = 0) :
    natOfBytes (bytesOfNat P size ++ rest) count = P % 2 ^ (8 * size) := by
  unfold natOfBytes
  have hcnt : count = size + (count - size) := by omega
  rw [hcnt, List.range_add, List.map_append, List.sum_append]
  simp only [List.map_map]
  have h1 : ((List.range size).map
      ((fun j => (bytesOfNat P size ++ rest).getD j 0 * 2 ^ (8 * j)))).sum = P % 2 ^ (8 * size) := by
    rw [← byteSum_eq_mod size P]
    congr 1
    apply List.map_congr_left
    intro j hj
    have hj' : j < size := List.mem_range.mp hj
    rw [getD_append_left (by simpa [bytesOfNat_length] using hj')]
    have : (bytesOfNat P size).getD j 0 = P >>> (8 * j) &&& 255 := by
      simp [bytesOfNat, List.getD, List.getElem?_map, List.getElem?_range hj']
    rw [this, Nat.shiftRight_eq_div_pow,
      show (255 : Nat) = 2 ^ 8 - 1 from rfl, Nat.and_pow_two_sub_one_eq_mod]
  have h2 : ((List.range (count - size)).map
      ((fun j => (bytesOfNat P size ++ rest).getD j 0 * 2 ^ (8 * j)) ∘ (size + ·))).sum = 0 := by
    apply List.sum_eq_zero
    intro x hx
    rcases List.mem_map.mp hx with ⟨j, hj, rfl⟩
    have hj' : j < count - size := List.mem_range.mp hj
    simp only [Function.comp_apply]
    rw [getD_append_right (by simp [bytesOfNat_length])]
    rw [bytesOfNat_length, show size + j - size = j by omega, hrest j hj']
    simp
  rw [h1, h2]
  omega

theorem chunks_nil (k : Nat) (hk : 0 < k) : chunks k ([] : List α) = [] := by
  unfold chunks
  simp only [List.length_nil, Nat.zero_add]
  rw [Nat.div_eq_of_lt (by omega), List.range_zero, List.map_nil]

theorem chunks32_cons (l : List α) (hne : l ≠ []) :
    chunks 32 l = l.take 32 :: chunks 32 (l.drop 32) := by
  have hlen : 1 ≤ l.length := by
    cases l with
    | nil => exact absurd rfl hne
    | cons a t => simp
  unfold chunks
  rw [List.length_drop]
  have hc : (l.length + 32 - 1) / 32 = (l.length - 32 + 32 - 1) / 32 + 1 := by omega
  rw [hc, List.range_succ_eq_map, List.map_cons, List.map_map]
  simp only [Nat.zero_mul, List.drop_zero]
  congr 1
  apply List.map_congr_left
  intro j _
  simp only [Function.comp_apply]
  rw [Nat.succ_mul, Nat.add_comm (j * 32) 32, ← List.drop_drop]

theorem pack_values_nil : pack_values [] = [] := by
  simp [pack_values, chunks_nil 32 (by omega)]

/-! ### Rank correctness (C2): popcount and prefix-count lemmas -/

theorem popW_zero : popW 0 = 0 := by
  simp [popW]

theorem popW_le (w : Nat) : popW w ≤ 64 := by
  have := List.countP_le_length (l := List.range 64) (p := fun i => w.testBit i)
  simpa [popW] using this

theorem popSum_append (l1 l2 : List Nat) : popSum (l1 ++ l2) = popSum l1 + popSum l2 := by
  simp [popSum]

theorem popSum_le (l : List Nat) : popSum l ≤ 64 * l.length := by
  induction l with
  | nil => simp [popSum]
  | cons a t ih =>
    have := popW_le a
    simp only [popSum, List.map_cons, List.sum_cons, List.length_cons] at *
    omega

theorem popSum_take_add (l : List Nat) (a b : Nat) :
    popSum (l.take (a + b)) = popSum (l.take a) + popSum ((l.drop a).take b) := by
  rw [List.take_add, popSum_append]

theorem popSum_take_succ (ws : List Nat) (k : Nat) :
    popSum (ws.take (k + 1)) = popSum (ws.take k) + popW (ws.getD k 0) := by
  rw [List.take_succ, popSum_append]
  congr 1
  cases h : ws[k]? with
  | none => simp [popSum, List.getD, h, popW_zero]
  | some v => simp [popSum, List.getD, h]

theorem popSum_replicate (k x : Nat) : popSum (List.replicate k x) = k * popW x := by
  induction k with
  | zero => simp [popSum]
  | succ k ih =>
    rw [List.replicate_succ]
    simp only [popSum, List.map_cons, List.sum_cons] at *
    rw [ih]
    ring

theorem bitsBefore_le (ws : List Nat) (i : Nat) : bitsBefore ws i ≤ i := by
  have := List.countP_le_length (l := List.range i) (p := fun t => bitGet ws t)
  simpa [bitsBefore] using this

theorem popW_and_mask (x r : Nat) (hr : r ≤ 64) :
    popW (x &&& (2 ^ r - 1)) = (List.range r).countP (fun u => x.testBit u) := by
  unfold popW
  rw [show (64 : Nat) = r + (64 - r) from by omega, List.range_add, List.countP_append]
  have h1 : (List.range r).countP (fun i => (x &&& (2 ^ r - 1)).testBit i) =
      (List.range r).countP (fun u => x.testBit u) := by
    apply List.countP_congr
    intro u hu
    have hur : u < r := List.mem_range.mp hu
    simp [Nat.testBit_and, Nat.testBit_two_pow_sub_one, hur]
  have h2 : ((List.range (64 - r)).map (r + ·)).countP
      (fun i => (x &&& (2 ^ r - 1)).testBit i) = 0 := by
    rw [List.countP_map]
    apply List.countP_eq_zero.mpr
    intro u _
    have hnot : ¬ (r + u < r) := by omega
    simp [Nat.testBit_and, Nat.testBit_two_pow_sub_one, hnot]
  rw [h1, h2]
  omega

theorem bitGet_shift (ws : List Nat) (k u : Nat) (hu : u < 64) :
    bitGet ws (64 * k + u) = (ws.getD k 0).testBit u := by
  unfold bitGet
  have h1 : (64 * k + u) / 64 = k := by omega
  have h2 : (64 * k + u) % 64 = u := by omega
  rw [h1, h2]

theorem bitsBefore_word (ws : List Nat) : ∀ k, bitsBefore ws (64 * k) = popSum (ws.take k) := by
  intro k
  induction k with
  | zero => simp [bitsBefore, popSum]
  | succ k ih =>
    unfold bitsBefore
    rw [show 64 * (k + 1) = 64 * k + 64 from by ring, List.range_add, List.countP_append]
    unfold bitsBefore at ih
    rw [ih, popSum_take_succ, List.countP_map]
    congr 1
    have : ∀ u ∈ List.range 64, bitGet ws (64 * k + u) = (ws.getD k 0).testBit u := by
      intro u hu
      exact bitGet_shift ws k u (List.mem_range.mp hu)
    calc (List.range 64).countP ((fun t => bitGet ws t) ∘ (64 * k + ·))
        = (List.range 64).countP (fun u => (ws.getD k 0).testBit u) := by
          apply List.countP_congr
          intro u hu
          simp only [Function.comp_apply]
          rw [this u hu]
      _ = popW (ws.getD k 0) := rfl

theorem bitsBefore_split (ws : List Nat) (idx : Nat) :
    bitsBefore ws idx = bitsBefore ws (64 * (idx / 64)) +
      (List.range (idx % 64)).countP (fun u => (ws.getD (idx / 64) 0).testBit u) := by
  conv_lhs => rw [bitsBefore,
    show idx = 64 * (idx / 64) + idx % 64 from by omega,
    List.range_add, List.countP_append]
  rw [List.countP_map]
  congr 1
  apply List.countP_congr
  intro u hu
  have hur : u < idx % 64 := List.mem_range.mp hu
  simp only [Function.comp_apply]
  rw [bitGet_shift ws (idx / 64) u (by omega)]

theorem packedNat_snoc (w v : Nat) (l : List Nat) :
    packedNat w (l ++ [v]) = packedNat w l + v % 2 ^ w * 2 ^ (w * l.length) := by
  induction l with
  | nil => simp [packedNat_cons, packedNat_nil]
  | cons a t ih =>
    rw [List.cons_append, packedNat_cons, packedNat_cons, ih, List.length_cons,
      show w * (t.length + 1) = w * t.length + w from by ring, pow_add]
    ring

theorem packedNat_range_map (w q : Nat) (s : Nat → Nat) :
    packedNat w ((List.range q).map s) =
      ((List.range q).map (fun i => s i % 2 ^ w * 2 ^ (w * i))).sum := by
  induction q with
  | zero => simp [packedNat_nil]
  | succ q ih =>
    rw [List.range_succ, List.map_append, List.map_append]
    simp only [List.map_cons, List.map_nil]
    rw [packedNat_snoc, List.sum_append, ih]
    simp

theorem range_map_getD (q j : Nat) (s : Nat → Nat) (hj : j < q) :
    ((List.range q).map s).getD j 0 = s j := by
  simp [List.getD, List.getElem?_map, List.getElem?_range hj]

theorem l12Fields_eq_sum (c : List Nat) :
    l12Fields c = ((List.range ((c.length + 7) / 8)).map
      (fun i => popSum (c.take (8 * (i + 1))) * 2 ^ (12 * i))).sum := by
  unfold l12Fields
  congr 1
  apply List.map_congr_left
  intro i _
  rw [Nat.shiftLeft_eq]

theorem s_lt (c : List Nat) (i : Nat) (hi : i < 7) :
    popSum (c.take (8 * (i + 1))) < 2 ^ 12 := by
  have h1 := popSum_le (c.take (8 * (i + 1)))
  have h2 : (c.take (8 * (i + 1))).length ≤ 8 * (i + 1) := by
    rw [List.length_take]
    exact min_le_left _ _
  have : 64 * (c.take (8 * (i + 1))).length ≤ 64 * (8 * (i + 1)) :=
    Nat.mul_le_mul_left 64 h2
  omega

theorem l12Fields_mod_eq_packed (c : List Nat) (hc : c.length ≤ 64) :
    l12Fields c % 2 ^ 84 =
      packedNat 12 ((List.range (min ((c.length + 7) / 8) 7)).map
        (fun i => popSum (c.take (8 * (i + 1))))) := by
  have hm : (c.length + 7) / 8 ≤ 8 := by omega
  have hpack : packedNat 12 ((List.range (min ((c.length + 7) / 8) 7)).map
      (fun i => popSum (c.take (8 * (i + 1))))) =
      ((List.range (min ((c.length + 7) / 8) 7)).map
        (fun i => popSum (c.take (8 * (i + 1))) * 2 ^ (12 * i))).sum := by
    rw [packedNat_range_map]
    congr 1
    apply List.map_congr_left
    intro i hi
    have hi7 : i < 7 := by
      have := List.mem_range.mp hi
      omega
    rw [Nat.mod_eq_of_lt (s_lt c i hi7)]
  have hlt : packedNat 12 ((List.range (min ((c.length + 7) / 8) 7)).map
      (fun i => popSum (c.take (8 * (i + 1))))) < 2 ^ 84 := by
    have := packedNat_lt 12 ((List.range (min ((c.length + 7) / 8) 7)).map
      (fun i => popSum (c.take (8 * (i + 1)))))
    have hlen : ((List.range (min ((c.length + 7) / 8) 7)).map
        (fun i => popSum (c.take (8 * (i + 1))))).length ≤ 7 := by
      simp [List.length_map, List.length_range]
    have h84 : (2 : Nat) ^ (12 * ((List.range (min ((c.length + 7) / 8) 7)).map
        (fun i => popSum (c.take (8 * (i + 1))))).length) ≤ 2 ^ 84 :=
      Nat.pow_le_pow_right (by omega) (by omega)
    omega
  rcases Nat.lt_or_ge ((c.length + 7) / 8) 8 with hm7 | hm8
  · have hmin : min ((c.length + 7) / 8) 7 = (c.length + 7) / 8 := by omega
    rw [hmin] at hpack hlt
    rw [l12Fields_eq_sum, hmin, ← hpack]
    exact Nat.mod_eq_of_lt hlt
  · have hm8' : (c.length + 7) / 8 = 8 := by omega
    have hmin : min ((c.length + 7) / 8) 7 = 7 := by omega
    rw [hmin] at hpack hlt
    rw [l12Fields_eq_sum, hm8', show min (8 : Nat) 7 = 7 from by decide]
    have h8 : List.range 8 = List.range 7 ++ [7] := by decide
    rw [h8, List.map_append, List.sum_append]
    simp only [List.map_cons, List.map_nil, List.sum_cons, List.sum_nil, Nat.add_zero]
    rw [show (2 : Nat) ^ (12 * 7) = 2 ^ 84 from by norm_num, Nat.add_mul_mod_self_right]
    rw [← hpack]
    exact Nat.mod_eq_of_lt hlt

theorem l12Entry_eq_add (c : List Nat) (r : Nat) (hr : r < 2 ^ 44) :
    l12Entry c r = l12Fields c % 2 ^ 84 * 2 ^ 44 + r := by
  unfold l12Entry
  rw [Nat.shiftLeft_eq, show (2 : Nat) ^ 128 = 2 ^ 84 * 2 ^ 44 from by norm_num,
    Nat.mul_mod_mul_right]
  calc l12Fields c % 2 ^ 84 * 2 ^ 44 ||| r
      = 2 ^ 44 * (l12Fields c % 2 ^ 84) ||| r := by rw [Nat.mul_comm]
    _ = 2 ^ 44 * (l12Fields c % 2 ^ 84) + r := (Nat.mul_add_lt_is_or hr _).symm
    _ = l12Fields c % 2 ^ 84 * 2 ^ 44 + r := by ring

theorem l12Entry_and_mask (c : List Nat) (r : Nat) (hr : r < 2 ^ 44) :
    l12Entry c r &&& 0xFFFFFFFFFFF = r := by
  rw [l12Entry_eq_add c r hr,
    show (0xFFFFFFFFFFF : Nat) = 2 ^ 44 - 1 from by norm_num,
    Nat.and_pow_two_sub_one_eq_mod,
    show l12Fields c % 2 ^ 84 * 2 ^ 44 + r = r + l12Fields c % 2 ^ 84 * 2 ^ 44 from by ring,
    Nat.add_mul_mod_self_right, Nat.mod_eq_of_lt hr]

theorem l12Entry_l2_zero (c : List Nat) (r : Nat) (hr : r < 2 ^ 32) :
    (l12Entry c r >>> 32) &&& 0xFFF = 0 := by
  have hr44 : r < 2 ^ 44 := lt_trans hr (by norm_num)
  rw [l12Entry_eq_add c r hr44, Nat.shiftRight_eq_div_pow,
    show (0xFFF : Nat) = 2 ^ 12 - 1 from by norm_num, Nat.and_pow_two_sub_one_eq_mod]
  rw [show l12Fields c % 2 ^ 84 * 2 ^ 44 + r =
    r + l12Fields c % 2 ^ 84 * 2 ^ 12 * 2 ^ 32 from by ring]
  rw [Nat.add_mul_div_right _ _ (by positivity : (0 : Nat) < 2 ^ 32),
    Nat.div_eq_of_lt hr]
  rw [Nat.zero_add, Nat.mul_mod_left]

theorem l12Entry_l2_field (c : List Nat) (r p : Nat) (hr : r < 2 ^ 44)
    (hc : c.length ≤ 64) (hp1 : 1 ≤ p) (hp7 : p ≤ 7) (hpm : p < (c.length + 7) / 8) :
    (l12Entry c r >>> (32 + 12 * p)) &&& 0xFFF = popSum (c.take (8 * p)) := by
  rw [l12Entry_eq_add c r hr, Nat.shiftRight_eq_div_pow,
    show (0xFFF : Nat) = 2 ^ 12 - 1 from by norm_num, Nat.and_pow_two_sub_one_eq_mod]
  rw [show 32 + 12 * p = 44 + 12 * (p - 1) from by omega, pow_add,
    ← Nat.div_div_eq_div_mul]
  rw [show l12Fields c % 2 ^ 84 * 2 ^ 44 + r =
    r + l12Fields c % 2 ^ 84 * 2 ^ 44 from by ring]
  rw [Nat.add_mul_div_right _ _ (by positivity : (0 : Nat) < 2 ^ 44),
    Nat.div_eq_of_lt hr, Nat.zero_add]
  rw [l12Fields_mod_eq_packed c hc, packedNat_extract]
  have hmem : p - 1 < min ((c.length + 7) / 8) 7 := by omega
  rw [range_map_getD _ _ _ hmem]
  rw [Nat.mod_eq_of_lt (s_lt c (p - 1) (by omega))]
  congr 2
  omega

theorem l12Build_getD : ∀ (cs : List (List Nat)) (l1 j : Nat), j < cs.length →
    (l12Build cs l1).getD j 0 =
      l12Entry (cs.getD j []) (l1 + ((cs.take j).map popSum).sum) := by
  intro cs
  induction cs with
  | nil =>
    intro l1 j hj
    simp at hj
  | cons c t ih =>
    intro l1 j hj
    match j with
    | 0 => simp [l12Build]
    | j + 1 =>
      rw [l12Build, List.getD_cons_succ, ih (l1 + popSum c) j (by simpa using hj),
        List.getD_cons_succ, List.take_succ_cons, List.map_cons, List.sum_cons]
      congr 1
      omega

theorem chunks_length (k : Nat) (l : List α) :
    (chunks k l).length = (l.length + k - 1) / k := by
  simp [chunks]

theorem chunks_getD (k : Nat) (l : List α) (j : Nat) (hj : j < (l.length + k - 1) / k) :
    (chunks k l).getD j [] = (l.drop (j * k)).take k := by
  simp [chunks, List.getD, List.getElem?_map, List.getElem?_range hj]

theorem chunks_prefix_popSum (bits : List Nat) :
    ∀ j, j ≤ (bits.length + 63) / 64 →
    (((chunks 64 bits).take j).map popSum).sum = popSum (bits.take (64 * j)) := by
  intro j
  induction j with
  | zero =>
    intro _
    simp [popSum]
  | succ j ih =>
    intro hj
    have hcnt : (bits.length + 64 - 1) / 64 = (bits.length + 63) / 64 := by omega
    have htake : (chunks 64 bits).take (j + 1) =
        ((List.range (j + 1)).map (fun i => (bits.drop (i * 64)).take 64)) := by
      unfold chunks
      rw [← List.map_take, List.take_range,
        show min (j + 1) ((bits.length + 64 - 1) / 64) = j + 1 from by omega]
    have htakej : (chunks 64 bits).take j =
        ((List.range j).map (fun i => (bits.drop (i * 64)).take 64)) := by
      unfold chunks
      rw [← List.map_take, List.take_range,
        show min j ((bits.length + 64 - 1) / 64) = j from by omega]
    rw [htake, List.range_succ, List.map_append, List.map_append, List.sum_append]
    rw [← htakej, ih (by omega)]
    simp only [List.map_cons, List.map_nil, List.sum_cons, List.sum_nil, Nat.add_zero]
    rw [show 64 * (j + 1) = 64 * j + 64 from by ring, popSum_take_add, Nat.mul_comm j 64]

theorem and_shift_one_eq_zero (x r : Nat) : (x &&& 1 <<< r = 0) ↔ x.testBit r = false := by
  rw [Nat.shiftLeft_eq, one_mul, Nat.and_two_pow]
  cases h : x.testBit r
  · simp
  · simp only [Bool.toNat_true, one_mul]
    constructor
    · intro hz
      have := Nat.pos_pow_of_pos r (by omega : 0 < 2)
      omega
    · intro hz
      exact absurd hz (by simp)

theorem rank_correct (bits : List Nat) (idx : Nat)
    (hidx : idx < 64 * bits.length) (hsmall : idx < 2 ^ 32) :
    (RankedBits.new bits).rank idx =
      if bitGet bits idx then some (bitsBefore bits idx) else none := by
  show rank_impl bits (l12Ranks bits) idx = _
  by_cases hbit : bitGet bits idx
  case neg =>
    have hbit' : bitGet bits idx = false := by simpa using hbit
    have hbitf : (bits.getD (idx / 64) 0).testBit (idx % 64) = false := by
      have h := hbit'
      simp only [bitGet] at h
      exact h
    have hguard : bits.getD (idx / 64) 0 &&& 1 <<< (idx % 64) = 0 :=
      (and_shift_one_eq_zero _ _).mpr hbitf
    simp only [rank_impl]
    rw [if_pos hguard, if_neg (by simp [hbit'])]
  case pos =>
    have hbit' : bitGet bits idx = true := by simpa using hbit
    have hbitt : (bits.getD (idx / 64) 0).testBit (idx % 64) = true := by
      have h := hbit'
      simp only [bitGet] at h
      exact h
    have hguard : ¬ (bits.getD (idx / 64) 0 &&& 1 <<< (idx % 64) = 0) := by
      rw [and_shift_one_eq_zero]
      intro hfalse
      rw [hbitt] at hfalse
      exact Bool.noConfusion hfalse
    simp only [rank_impl]
    rw [if_neg hguard, if_pos hbit']
    congr 1
    -- the entry holding idx's L1 block
    have hjlt : idx / 4096 < (chunks 64 bits).length := by
      rw [chunks_length]
      omega
    have hentry : (l12Ranks bits).getD (idx / 4096) 0 =
        l12Entry ((bits.drop (64 * (idx / 4096))).take 64)
          (popSum (bits.take (64 * (idx / 4096)))) := by
      rw [l12Ranks, l12Build_getD (chunks 64 bits) 0 (idx / 4096) hjlt,
        chunks_getD 64 bits (idx / 4096) (by rw [← chunks_length]; exact hjlt),
        chunks_prefix_popSum bits (idx / 4096)
          (by have h := hjlt; rw [chunks_length] at h; omega),
        Nat.zero_add, Nat.mul_comm (idx / 4096) 64]
    -- the cumulative rank before the L1 block is below 2^32
    have hr32 : popSum (bits.take (64 * (idx / 4096))) < 2 ^ 32 := by
      rw [← bitsBefore_word]
      have h1 := bitsBefore_le bits (64 * (64 * (idx / 4096)))
      have h2 : 64 * (64 * (idx / 4096)) ≤ idx := by omega
      omega
    have hr44 : popSum (bits.take (64 * (idx / 4096))) < 2 ^ 44 :=
      lt_trans hr32 (by norm_num)
    have hclen : ((bits.drop (64 * (idx / 4096))).take 64).length =
        min 64 (bits.length - 64 * (idx / 4096)) := by
      rw [List.length_take, List.length_drop]
    have hclen64 : ((bits.drop (64 * (idx / 4096))).take 64).length ≤ 64 := by omega
    -- the L1 rank field
    rw [hentry, l12Entry_and_mask _ _ hr44]
    -- the L2 rank field
    have hl2 : (l12Entry ((bits.drop (64 * (idx / 4096))).take 64)
        (popSum (bits.take (64 * (idx / 4096)))) >>> (32 + 12 * (idx % 4096 / 512))) &&& 0xFFF =
        popSum (((bits.drop (64 * (idx / 4096))).take 64).take (8 * (idx % 4096 / 512))) := by
      rcases Nat.eq_zero_or_pos (idx % 4096 / 512) with hp0 | hp1
      · rw [hp0]
        simp only [Nat.mul_zero, Nat.add_zero, List.take_zero]
        rw [l12Entry_l2_zero _ _ hr32]
        rfl
      · apply l12Entry_l2_field _ _ _ hr44 hclen64 hp1 (by omega)
        rw [hclen]
        omega
    rw [hl2]
    -- fold L1 + L2 into a word-prefix popcount
    have htt : (((bits.drop (64 * (idx / 4096))).take 64).take (8 * (idx % 4096 / 512))) =
        (bits.drop (64 * (idx / 4096))).take (8 * (idx % 4096 / 512)) := by
      rw [List.take_take]
      congr 1
      omega
    rw [htt, ← popSum_take_add bits (64 * (idx / 4096)) (8 * (idx % 4096 / 512))]
    -- fold the block rank in
    have hoff : idx / 512 * 8 = 64 * (idx / 4096) + 8 * (idx % 4096 / 512) := by omega
    rw [← hoff, ← popSum_take_add bits (idx / 512 * 8) (idx % 512 / 64)]
    have hw0 : idx / 512 * 8 + idx % 512 / 64 = idx / 64 := by omega
    rw [hw0]
    -- the partial-word rank
    have hmask : popW (bits.getD (idx / 64) 0 &&&
        ((1 <<< (idx % 512 % 64) - 1) * (if 0 < idx % 512 then 1 else 0))) =
        (List.range (idx % 64)).countP (fun u => (bits.getD (idx / 64) 0).testBit u) := by
      have hm64 : idx % 512 % 64 = idx % 64 := by omega
      rcases Nat.eq_zero_or_pos (idx % 512) with hz | hpos512
      · have h640 : idx % 64 = 0 := by omega
        rw [hz, h640]
        simp [popW_zero]
      · rw [if_pos hpos512, Nat.mul_one, hm64, Nat.shiftLeft_eq, one_mul,
          popW_and_mask _ _ (by omega)]
    rw [hmask, ← bitsBefore_word bits (idx / 64), ← bitsBefore_split]

/-- C2 (amended): for every bit vector and every index `idx` below the bit
length **and below `2^32`**, `RankedBits::rank` on the structure built by
`RankedBits::new` returns the exact number of set bits strictly before `idx`
when the bit at `idx` is set, and `none` when it is clear.  (Beyond `2^32`
bits of preceding rank, the `l2_pos = 0` read `(entry >> 32) & 0xFFF` picks up
the high bits of the 44-bit `l1_rank` field — see the counterexample.) -/
theorem C2_rank_correct_amended (bits : List Nat) (idx : Nat)
    (hidx : idx < 64 * bits.length) (hsmall : idx < 2 ^ 32) :
    (RankedBits.new bits).rank idx =
      if bitGet bits idx then some (bitsBefore bits idx) else none :=
  rank_correct bits idx hidx hsmall

theorem C2_rank_correct_amended_witness :
    ((7 : Nat) < 64 * ([0b11001010, 0b00110111, 0b11110000] : List Nat).length ∧
      (7 : Nat) < 2 ^ 32) ∧
    (RankedBits.new [0b11001010, 0b00110111, 0b11110000]).rank 7 =
      (if bitGet [0b11001010, 0b00110111, 0b11110000] 7
        then some (bitsBefore [0b11001010, 0b00110111, 0b11110000] 7) else none) :=
  ⟨⟨by decide, by decide⟩,
    C2_rank_correct_amended [0b11001010, 0b00110111, 0b11110000] 7 (by decide) (by decide)⟩

/-! ### The counterexample to the unrestricted C2 claim -/

theorem popW_ones : popW (2 ^ 64 - 1) = 64 := by decide

theorem bitGet_replicate_ones (n t : Nat) (ht : t < 64 * n) :
    bitGet (List.replicate n (2 ^ 64 - 1)) t = true := by
  have h1 : t / 64 < n := by omega
  simp only [bitGet, List.getD, List.get?_eq_getElem?, List.getElem?_replicate, if_pos h1,
    Option.getD_some]
  rw [Nat.testBit_two_pow_sub_one]
  simp only [decide_eq_true_eq]
  omega

theorem bitsBefore_replicate_ones (n i : Nat) (hi : i ≤ 64 * n) :
    bitsBefore (List.replicate n (2 ^ 64 - 1)) i = i := by
  have hall : ∀ t ∈ List.range i,
      (fun t => bitGet (List.replicate n (2 ^ 64 - 1)) t) t := by
    intro t ht
    have := List.mem_range.mp ht
    simp only []
    rw [bitGet_replicate_ones n t (by omega)]
  rw [bitsBefore, List.countP_eq_length.mpr hall, List.length_range]

theorem cex_r_eq : popSum (cexBits.take (64 * (2 ^ 32 / 4096))) = 2 ^ 32 := by
  rw [cexBits, List.take_replicate, popSum_replicate, popW_ones]
  norm_num

theorem cex_chunk_eq : (cexBits.drop (2 ^ 32 / 4096 * 64)).take 64 =
    List.replicate 64 (2 ^ 64 - 1) := by
  rw [cexBits, List.drop_replicate, List.take_replicate]
  norm_num

theorem cex_l2_read (c : List Nat) :
    (l12Entry c (2 ^ 32) >>> 32) &&& 0xFFF = 1 := by
  rw [l12Entry_eq_add c (2 ^ 32) (by norm_num), Nat.shiftRight_eq_div_pow,
    show (0xFFF : Nat) = 2 ^ 12 - 1 from by norm_num, Nat.and_pow_two_sub_one_eq_mod]
  rw [show l12Fields c % 2 ^ 84 * 2 ^ 44 + 2 ^ 32 =
    (2 ^ 12 * (l12Fields c % 2 ^ 84) + 1) * 2 ^ 32 from by ring]
  rw [Nat.mul_div_cancel _ (by positivity : (0 : Nat) < 2 ^ 32)]
  rw [Nat.mul_add_mod]
  norm_num

theorem cex_rank_value : (RankedBits.new cexBits).rank (2 ^ 32) = some (2 ^ 32 + 1) := by
  simp only [RankedBits.rank, RankedBits.new]
  have hlen : cexBits.length = 2 ^ 26 + 64 := by
    rw [cexBits, List.length_replicate]
  have hbitt : (cexBits.getD (2 ^ 32 / 64) 0).testBit (2 ^ 32 % 64) = true := by
    have h := bitGet_replicate_ones (2 ^ 26 + 64) (2 ^ 32) (by norm_num)
    rw [← cexBits] at h
    simpa [bitGet] using h
  have hguard : ¬ (cexBits.getD (2 ^ 32 / 64) 0 &&& 1 <<< (2 ^ 32 % 64) = 0) := by
    rw [and_shift_one_eq_zero]
    intro hfalse
    rw [hbitt] at hfalse
    exact Bool.noConfusion hfalse
  simp only [rank_impl]
  rw [if_neg hguard]
  apply congrArg some
  have hjlt : 2 ^ 32 / 4096 < (chunks 64 cexBits).length := by
    rw [chunks_length, hlen]
    norm_num
  have hentry : (l12Ranks cexBits).getD (2 ^ 32 / 4096) 0 =
      l12Entry (List.replicate 64 (2 ^ 64 - 1)) (2 ^ 32) := by
    rw [l12Ranks, l12Build_getD (chunks 64 cexBits) 0 (2 ^ 32 / 4096) hjlt,
      chunks_getD 64 cexBits (2 ^ 32 / 4096) (by rw [← chunks_length]; exact hjlt),
      chunks_prefix_popSum cexBits (2 ^ 32 / 4096)
        (by have h := hjlt; rw [chunks_length] at h; omega),
      Nat.zero_add, cex_chunk_eq, cex_r_eq]
  rw [hentry]
  rw [l12Entry_and_mask _ _ (by norm_num)]
  rw [show 32 + 12 * (2 ^ 32 % 4096 / 512) = 32 from by norm_num]
  rw [cex_l2_read]
  rw [show (2 ^ 32 % 512 / 64 : Nat) = 0 from by norm_num, List.take_zero]
  rw [show ((1 <<< (2 ^ 32 % 512 % 64) - 1) * (if 0 < 2 ^ 32 % 512 then 1 else 0) : Nat) = 0
    from by norm_num]
  rw [Nat.and_zero, popW_zero]
  show 2 ^ 32 + 1 + popSum [] + 0 = 2 ^ 32 + 1
  simp [popSum]

/-- C2 counterexample: on the `2^26 + 64` all-ones words, the bit at index
`2^32` is set and has exactly `2^32` set bits before it, yet `rank` returns
`2^32 + 1`: the claim's unrestricted statement is false. -/
theorem C2_counterexample :
    2 ^ 32 < 64 * (List.replicate (2 ^ 26 + 64) (2 ^ 64 - 1) : List Nat).length ∧
    bitGet (List.replicate (2 ^ 26 + 64) (2 ^ 64 - 1)) (2 ^ 32) = true ∧
    bitsBefore (List.replicate (2 ^ 26 + 64) (2 ^ 64 - 1)) (2 ^ 32) = 2 ^ 32 ∧
    (RankedBits.new (List.replicate (2 ^ 26 + 64) (2 ^ 64 - 1))).rank (2 ^ 32) =
      some (2 ^ 32 + 1) ∧
    (RankedBits.new (List.replicate (2 ^ 26 + 64) (2 ^ 64 - 1))).rank (2 ^ 32) ≠
      some (bitsBefore (List.replicate (2 ^ 26 + 64) (2 ^ 64 - 1)) (2 ^ 32)) := by
  have h1 : 2 ^ 32 < 64 * (List.replicate (2 ^ 26 + 64) (2 ^ 64 - 1) : List Nat).length := by
    rw [List.length_replicate]
    norm_num
  have h2 := bitGet_replicate_ones (2 ^ 26 + 64) (2 ^ 32) (by norm_num)
  have h3 := bitsBefore_replicate_ones (2 ^ 26 + 64) (2 ^ 32) (by norm_num)
  have h4 := cex_rank_value
  rw [cexBits] at h4
  refine ⟨h1, h2, h3, h4, ?_⟩
  rw [h3, h4]
  intro hcontra
  have := Option.some.inj hcontra
  omega

theorem pack_values_cons (l : List Nat) (hne : l ≠ []) :
    pack_values l =
      (num_bits (l.take 32 ++ List.replicate (32 - (l.take 32).length) 0) ::
        bytesOfNat
          (packedNat (num_bits (l.take 32 ++ List.replicate (32 - (l.take 32).length) 0))
            (l.take 32 ++ List.replicate (32 - (l.take 32).length) 0))
          (((l.take 32).length *
            num_bits (l.take 32 ++ List.replicate (32 - (l.take 32).length) 0) + 7) / 8)) ++
      pack_values (l.drop 32) := by
  unfold pack_values
  rw [chunks32_cons l hne, List.map_cons, List.flatten_cons]

theorem unpack_pack (n : Nat) : ∀ (values : List Nat), values.length = n →
    (∀ v ∈ values, v < 2 ^ 32) →
    unpack_values (pack_values values ++ List.replicate (4 * VALUES_BLOCK_LEN) 0) n = values := by
  induction n using Nat.strong_induction_on with
  | _ n ih =>
    intro values hlen hv
    rcases Nat.eq_zero_or_pos n with rfl | hpos
    · have hv0 : values = [] := List.length_eq_zero.mp hlen
      subst hv0
      rfl
    · have hne : values ≠ [] := by
        intro h
        rw [h] at hlen
        simp at hlen
        omega
      have hbl : (values.take 32).length = min 32 n := by
        rw [List.length_take, hlen]
      have hblle : (values.take 32).length ≤ 32 := by omega
      have hvb : ∀ v ∈ values.take 32 ++ List.replicate (32 - (values.take 32).length) 0,
          v < 2 ^ 32 := by
        intro v hvmem
        rcases List.mem_append.mp hvmem with h | h
        · exact hv v (List.mem_of_mem_take h)
        · rw [List.eq_of_mem_replicate h]
          positivity
      have hw32 : num_bits (values.take 32 ++ List.replicate (32 - (values.take 32).length) 0)
          ≤ 32 := num_bits_le _
      set block := values.take 32 with hblockdef
      set rest := values.drop 32 with hrestdef
      set vb := block ++ List.replicate (32 - block.length) 0 with hvbdef
      set w := num_bits vb with hwdef
      set size := (block.length * w + 7) / 8 with hsizedef
      have hP : packedNat w vb = packedNat w block := packedNat_append_zeros w _ block
      have hPlt : packedNat w block < 2 ^ (w * block.length) := packedNat_lt w block
      have hsz4w : size ≤ 4 * w := by
        have : block.length * w ≤ 32 * w := Nat.mul_le_mul_right w hblle
        omega
      have hszw : w * block.length ≤ 8 * size := by
        have : block.length * w = w * block.length := Nat.mul_comm _ _
        omega
      -- the packed dictionary for this call
      rw [pack_values_cons values hne]
      rw [← hblockdef, ← hrestdef, ← hvbdef, ← hwdef, ← hsizedef]
      -- one unpack step
      have hlenmin : min 32 n = block.length := hbl.symm
      have hcount : (n + 31) / 32 = ((n - min 32 n) + 31) / 32 + 1 := by omega
      have hstep : unpack_values
          ((w :: bytesOfNat (packedNat w vb) size) ++
            (pack_values rest ++ List.replicate (4 * VALUES_BLOCK_LEN) 0)) n =
          (((List.range 32).map (fun i =>
            natOfBytes (bytesOfNat (packedNat w vb) size ++
                (pack_values rest ++ List.replicate (4 * VALUES_BLOCK_LEN) 0)) (4 * w) >>>
              (w * i) &&& (2 ^ w - 1))).take (min 32 n)) ++
          unpackGo (pack_values rest ++ List.replicate (4 * VALUES_BLOCK_LEN) 0)
            (n - min 32 n) (((n - min 32 n) + 31) / 32) := by
        rw [unpack_values, hcount, unpackGo]
        rw [List.cons_append, List.getD_cons_zero, List.drop_succ_cons, List.drop_zero]
        have hdl : (w :: (bytesOfNat (packedNat w vb) size ++
            (pack_values rest ++ List.replicate (4 * VALUES_BLOCK_LEN) 0))).drop
              (1 + (min 32 n * w + 7) / 8) =
            pack_values rest ++ List.replicate (4 * VALUES_BLOCK_LEN) 0 := by
          rw [Nat.add_comm 1 ((min 32 n * w + 7) / 8), List.drop_succ_cons]
          rw [show (min 32 n * w + 7) / 8 =
            (bytesOfNat (packedNat w vb) size).length from by
              rw [bytesOfNat_length, hlenmin, hsizedef]]
          exact List.drop_left _ _
        rw [hdl]
      rw [List.append_assoc, hstep]
      -- the decoded big number is exactly the packed value
      have hbig : natOfBytes (bytesOfNat (packedNat w vb) size ++
          (pack_values rest ++ List.replicate (4 * VALUES_BLOCK_LEN) 0)) (4 * w) =
          packedNat w block := by
        rw [natOfBytes_pack _ _ _ _ hsz4w]
        · rw [hP]
          exact Nat.mod_eq_of_lt (lt_of_lt_of_le hPlt (Nat.pow_le_pow_right (by omega) hszw))
        · intro j hj
          by_cases hr : rest = []
          · rw [hr, pack_values_nil, List.nil_append]
            exact getD_replicate_zero _ _
          · have hrlen : 1 ≤ rest.length := by
              cases hre : rest with
              | nil => exact absurd hre hr
              | cons a t => exact Nat.succ_le_succ (Nat.zero_le _)
            have hn32 : 32 ≤ n := by
              rw [hrestdef] at hrlen
              rw [List.length_drop, hlen] at hrlen
              omega
            have hbl32 : block.length = 32 := by omega
            have : size = 4 * w := by
              rw [hsizedef, hbl32]
              omega
            omega
      rw [hbig]
      -- the first decoded block is the original block
      have hdec : (((List.range 32).map (fun i =>
          packedNat w block >>> (w * i) &&& (2 ^ w - 1))).take (min 32 n)) = block := by
        rw [← List.map_take, List.take_range, hlenmin, min_eq_left hblle]
        apply List.ext_getElem
        · simp
        · intro i h1 h2
          rw [List.getElem_map, List.getElem_range]
          rw [Nat.shiftRight_eq_div_pow, Nat.and_pow_two_sub_one_eq_mod, packedNat_extract]
          have hilen : i < block.length := by simpa using h1
          have hgetD : block.getD i 0 = block[i] := by
            simp [List.getD_eq_getElem?_getD, List.getElem?_eq_getElem hilen]
          rw [hgetD]
          apply Nat.mod_eq_of_lt
          apply mem_lt_two_pow_num_bits hvb
          exact List.mem_append_left _ (List.getElem_mem _)
      rw [hdec]
      -- the recursive call restores the rest
      have hrec : unpackGo (pack_values rest ++ List.replicate (4 * VALUES_BLOCK_LEN) 0)
          (n - min 32 n) (((n - min 32 n) + 31) / 32) = rest := by
        have hrlen : rest.length = n - min 32 n := by
          rw [hrestdef, List.length_drop, hlen]
          omega
        have : unpack_values (pack_values rest ++ List.replicate (4 * VALUES_BLOCK_LEN) 0)
            (n - min 32 n) = rest := by
          rw [← hrlen]
          exact ih rest.length (by omega) rest rfl
            (fun v hvm => hv v (List.mem_of_mem_drop hvm))
        rw [unpack_values] at this
        exact this
      rw [hrec, hblockdef, hrestdef, List.take_append_drop]

/-- C6: for every list of `u32` values of any length (including 0 and lengths
not a multiple of the block length 32), packing with `pack_values`, appending
`4 * VALUES_BLOCK_LEN` zero bytes of tail padding, then unpacking with
`unpack_values` into a buffer of the original length restores the values. -/
theorem C6_pack_unpack_roundtrip (values : List Nat) (hv : ∀ v ∈ values, v < 2 ^ 32) :
    unpack_values (pack_values values ++ List.replicate (4 * VALUES_BLOCK_LEN) 0)
      values.length = values :=
  unpack_pack values.length values rfl hv

theorem C6_pack_unpack_roundtrip_witness :
    (∀ v ∈ [1, 2, 3, 4, 5, 6, 7, 8, 9, 10], v < 2 ^ 32) ∧
    unpack_values (pack_values [1, 2, 3, 4, 5, 6, 7, 8, 9, 10] ++
      List.replicate (4 * VALUES_BLOCK_LEN) 0) ([1, 2, 3, 4, 5, 6, 7, 8, 9, 10] : List Nat).length
      = [1, 2, 3, 4, 5, 6, 7, 8, 9, 10] :=
  ⟨by decide, C6_pack_unpack_roundtrip [1, 2, 3, 4, 5, 6, 7, 8, 9, 10] (by decide)⟩

/-! ### MPHF level machinery: word access and probe bounds -/

theorem getD_set_self_nat (l : List Nat) (i v : Nat) (h : i < l.length) :
    (l.set i v).getD i 0 = v := by
  simp [List.getD_eq_getElem?_getD, List.getElem?_set_self h]

theorem getD_set_ne_nat (l : List Nat) (i j v : Nat) (h : i ≠ j) :
    (l.set i v).getD j 0 = l.getD j 0 := by
  simp [List.getD_eq_getElem?_getD, List.getElem?_set_ne h]

theorem getD_mapIdx_nat (l : List Nat) (f : Nat → Nat → Nat) (i : Nat) :
    (l.mapIdx f).getD i 0 = if i < l.length then f i (l.getD i 0) else 0 := by
  by_cases hi : i < l.length
  · simp [List.getD_eq_getElem?_getD, List.getElem?_mapIdx,
      List.getElem?_eq_getElem hi, hi]
  · rw [List.getD_eq_getElem?_getD, List.getElem?_mapIdx,
      List.getElem?_eq_none (le_of_not_lt hi)]
    simp [hi]

theorem fastmod32_lt (x n : Nat) (hx : x < 2 ^ 32) (hn : 0 < n) :
    fastmod32 x n < n := by
  unfold fastmod32
  rw [Nat.shiftRight_eq_div_pow]
  rw [Nat.div_lt_iff_lt_mul (by positivity)]
  calc x * n < 2 ^ 32 * n := (Nat.mul_lt_mul_right hn).mpr hx
  _ = n * 2 ^ 32 := Nat.mul_comm _ _

theorem shiftRight_lt_of_lt {x k n : Nat} (h : x < n) : x >>> k < n :=
  lt_of_le_of_lt (by rw [Nat.shiftRight_eq_div_pow]; exact Nat.div_le_self _ _) h

theorem murmur32_lt (x : Nat) : murmur32 x < 2 ^ 32 := by
  unfold murmur32
  apply Nat.xor_lt_two_pow
  · exact Nat.mod_lt _ (by positivity)
  · exact shiftRight_lt_of_lt (Nat.mod_lt _ (by positivity))

theorem groupOf_lt (groups lh : Nat) (hg : 0 < groups) : groupOf groups lh < groups := by
  unfold groupOf
  by_cases h0 : groups % 2 ^ 32 = 0
  · rw [h0]
    simpa [fastmod32] using hg
  · exact lt_of_lt_of_le
      (fastmod32_lt _ _ (Nat.mod_lt _ (by positivity)) (Nat.pos_of_ne_zero h0))
      (Nat.mod_le _ _)

theorem probeBit_eq (B groups level s h : Nat) :
    probeBit B groups level s h =
      groupOf groups (hash_with_seed h level) * B +
        fastmod32 (murmur32 (hash_with_seed h level % 2 ^ 32 ^^^ s)) B := rfl

theorem probeBit_window (B groups level s h : Nat) (hB : 0 < B) :
    groupOf groups (hash_with_seed h level) * B ≤ probeBit B groups level s h ∧
      probeBit B groups level s h < (groupOf groups (hash_with_seed h level) + 1) * B := by
  rw [probeBit_eq]
  constructor
  · exact Nat.le_add_right _ _
  · rw [Nat.succ_mul]
    exact Nat.add_lt_add_left (fastmod32_lt _ _ (murmur32_lt _) hB) _

theorem probeBit_div (B groups level s h : Nat) (hB : 0 < B) :
    probeBit B groups level s h / B = groupOf groups (hash_with_seed h level) := by
  rw [probeBit_eq, Nat.mul_comm, Nat.mul_add_div hB,
    Nat.div_eq_of_lt (fastmod32_lt _ _ (murmur32_lt _) hB), Nat.add_zero]

theorem groups_mul_B (B size : Nat) (hB : 0 < B) :
    (level_size_groups_segments B size).1 * B =
      64 * (level_size_groups_segments B size).2 := by
  unfold level_size_groups_segments
  have hdvd : Nat.lcm B 64 ∣ (size + Nat.lcm B 64 - 1) / Nat.lcm B 64 * Nat.lcm B 64 :=
    Dvd.dvd.mul_left dvd_rfl _
  have hB' : B ∣ (size + Nat.lcm B 64 - 1) / Nat.lcm B 64 * Nat.lcm B 64 :=
    dvd_trans (Nat.dvd_lcm_left B 64) hdvd
  have h64 : 64 ∣ (size + Nat.lcm B 64 - 1) / Nat.lcm B 64 * Nat.lcm B 64 :=
    dvd_trans (Nat.dvd_lcm_right B 64) hdvd
  simp only
  rw [Nat.div_mul_cancel hB', Nat.mul_div_cancel' h64]

/-! ### Word- and plane-level characterization of the buffer transformations -/

theorem getD_zero_of_le (l : List Nat) (j : Nat) (h : l.length ≤ j) :
    l.getD j 0 = 0 := by
  rw [List.getD_eq_getElem?_getD, List.getElem?_eq_none h]
  rfl

theorem resetPlanes_length (gb : List Nat) : (resetPlanes gb).length = gb.length := by
  simp [resetPlanes]

theorem resetPlanes_getD (gb : List Nat) (j : Nat) :
    (resetPlanes gb).getD j 0 = if j % 3 = 2 then gb.getD j 0 else 0 := by
  rw [resetPlanes, getD_mapIdx_nat]
  by_cases hj : j < gb.length
  · rw [if_pos hj]
  · rw [if_neg hj, getD_zero_of_le gb j (le_of_not_lt hj)]
    simp

theorem filterCollisions_length (gb : List Nat) :
    (filterCollisions gb).length = gb.length := by
  simp [filterCollisions]

theorem filterCollisions_getD (gb : List Nat) (j : Nat) :
    (filterCollisions gb).getD j 0 =
      if j % 3 = 0 then gb.getD j 0 &&& ((2 ^ 64 - 1) ^^^ gb.getD (j + 1) 0)
      else gb.getD j 0 := by
  rw [filterCollisions, getD_mapIdx_nat]
  by_cases hj : j < gb.length
  · rw [if_pos hj]
  · rw [if_neg hj, getD_zero_of_le gb j (le_of_not_lt hj)]
    simp [Nat.zero_and]

theorem updateHashBits_length (B level groups s : Nat) (gb : List Nat) (h : Nat) :
    (updateHashBits B level groups s gb h).length = gb.length := by
  simp [updateHashBits]

theorem probeBit_unfold (B groups level s h : Nat) :
    bit_index_for_seed B (hash_with_seed h level) s
      (groupOf groups (hash_with_seed h level)) = probeBit B groups level s h := rfl

theorem updateHashBits_getD (B level groups s : Nat) (gb : List Nat) (h j : Nat)
    (hlen : probeBit B groups level s h / 64 * 3 + 1 < gb.length) :
    (updateHashBits B level groups s gb h).getD j 0 =
      if j = probeBit B groups level s h / 64 * 3 then
        gb.getD j 0 ||| 1 <<< (probeBit B groups level s h % 64)
      else if j = probeBit B groups level s h / 64 * 3 + 1 then
        gb.getD j 0 ||| gb.getD (probeBit B groups level s h / 64 * 3) 0 &&&
          (1 <<< (probeBit B groups level s h % 64))
      else gb.getD j 0 := by
  simp only [updateHashBits, probeBit_unfold]
  by_cases hj0 : j = probeBit B groups level s h / 64 * 3
  · rw [if_pos hj0, hj0,
      getD_set_self_nat _ _ _ (by rw [List.length_set]; omega)]
  · rw [if_neg hj0, getD_set_ne_nat _ _ _ _ (fun e => hj0 e.symm)]
    by_cases hj1 : j = probeBit B groups level s h / 64 * 3 + 1
    · rw [if_pos hj1, hj1, getD_set_self_nat _ _ _ (by omega)]
    · rw [if_neg hj1, getD_set_ne_nat _ _ _ _ (fun e => hj1 e.symm)]

theorem planeBit_resetPlanes_two (gb : List Nat) (b : Nat) :
    planeBit 2 (resetPlanes gb) b = planeBit 2 gb b := by
  unfold planeBit
  rw [resetPlanes_getD, if_pos (by omega)]

theorem planeBit_resetPlanes_01 (p : Nat) (hp : p < 2) (gb : List Nat) (b : Nat) :
    planeBit p (resetPlanes gb) b = false := by
  unfold planeBit
  rw [resetPlanes_getD, if_neg (by omega)]
  exact Nat.zero_testBit _

theorem planeBit_updateHashBits_two (B level groups s : Nat) (gb : List Nat) (h b : Nat) :
    planeBit 2 (updateHashBits B level groups s gb h) b = planeBit 2 gb b := by
  unfold updateHashBits planeBit
  rw [getD_set_ne_nat _ _ _ _ (by omega), getD_set_ne_nat _ _ _ _ (by omega)]

theorem planeBit_filterCollisions_two (gb : List Nat) (b : Nat) :
    planeBit 2 (filterCollisions gb) b = planeBit 2 gb b := by
  unfold planeBit
  rw [filterCollisions_getD, if_neg (by omega)]

theorem hashFold_planeBit_two (B level groups s : Nat) (l : List Nat) (gb : List Nat)
    (b : Nat) :
    planeBit 2 (l.foldl (updateHashBits B level groups s) gb) b = planeBit 2 gb b := by
  induction l generalizing gb with
  | nil => rfl
  | cons h t ih => rw [List.foldl_cons, ih, planeBit_updateHashBits_two]

theorem hashFold_length (B level groups s : Nat) (l : List Nat) (gb : List Nat) :
    (l.foldl (updateHashBits B level groups s) gb).length = gb.length := by
  induction l generalizing gb with
  | nil => rfl
  | cons h t ih => rw [List.foldl_cons, ih, updateHashBits_length]

theorem planeBit_updateHashBits_zero (B level groups s : Nat) (gb : List Nat) (h b : Nat)
    (hlen : probeBit B groups level s h / 64 * 3 + 1 < gb.length) :
    planeBit 0 (updateHashBits B level groups s gb h) b =
      (planeBit 0 gb b || decide (b = probeBit B groups level s h)) := by
  unfold planeBit
  simp only [Nat.add_zero]
  rw [updateHashBits_getD B level groups s gb h _ hlen]
  by_cases hw : b / 64 = probeBit B groups level s h / 64
  · rw [if_pos (by omega)]
    by_cases hbb : b = probeBit B groups level s h
    · rw [← hbb]
      simp [Nat.testBit_or, Nat.one_shiftLeft, Nat.testBit_two_pow_self]
    · have hpp : probeBit B groups level s h % 64 ≠ b % 64 := by omega
      rw [Nat.testBit_or, Nat.one_shiftLeft, Nat.testBit_two_pow_of_ne hpp]
      simp [hbb]
  · rw [if_neg (by omega), if_neg (by omega)]
    have hbb : b ≠ probeBit B groups level s h := by omega
    simp [hbb]

theorem planeBit_updateHashBits_one (B level groups s : Nat) (gb : List Nat) (h b : Nat)
    (hlen : probeBit B groups level s h / 64 * 3 + 1 < gb.length) :
    planeBit 1 (updateHashBits B level groups s gb h) b =
      (planeBit 1 gb b || (planeBit 0 gb b && decide (b = probeBit B groups level s h))) := by
  unfold planeBit
  simp only [Nat.add_zero]
  rw [updateHashBits_getD B level groups s gb h _ hlen]
  by_cases hw : b / 64 = probeBit B groups level s h / 64
  · rw [if_neg (by omega), if_pos (by omega), hw]
    by_cases hbb : b = probeBit B groups level s h
    · have hm : b % 64 = probeBit B groups level s h % 64 := by rw [hbb]
      rw [← hm]
      simp [Nat.testBit_or, Nat.testBit_and, Nat.one_shiftLeft, Nat.testBit_two_pow_self, hbb]
    · have hpp : probeBit B groups level s h % 64 ≠ b % 64 := by omega
      rw [Nat.testBit_or, Nat.testBit_and, Nat.one_shiftLeft, Nat.testBit_two_pow_of_ne hpp]
      simp [hbb, ← hw]
  · rw [if_neg (by omega), if_neg (by omega)]
    have hbb : b ≠ probeBit B groups level s h := by omega
    simp [hbb]

theorem probeBit_lt_of_groups (B groups level s h segs : Nat) (hB : 0 < B)
    (hGB : groups * B = 64 * segs) (hgroups : 0 < groups) :
    probeBit B groups level s h < 64 * segs := by
  rcases probeBit_window B groups level s h hB with ⟨_, hup⟩
  have hg : groupOf groups (hash_with_seed h level) < groups := groupOf_lt _ _ hgroups
  calc probeBit B groups level s h
      < (groupOf groups (hash_with_seed h level) + 1) * B := hup
    _ ≤ groups * B := Nat.mul_le_mul_right _ hg
    _ = 64 * segs := hGB

theorem hashFold_char (B level groups s segs : Nat) (hB : 0 < B)
    (hGB : groups * B = 64 * segs) (hgroups : 0 < groups) :
    ∀ (l : List Nat) (gb : List Nat) (c : Nat → Nat),
      gb.length = 3 * segs →
      (∀ b, b < 64 * segs →
        planeBit 0 gb b = decide (1 ≤ c b) ∧ planeBit 1 gb b = decide (2 ≤ c b)) →
      ∀ b, b < 64 * segs →
        planeBit 0 (l.foldl (updateHashBits B level groups s) gb) b =
          decide (1 ≤ c b + l.countP (fun h => probeBit B groups level s h = b)) ∧
        planeBit 1 (l.foldl (updateHashBits B level groups s) gb) b =
          decide (2 ≤ c b + l.countP (fun h => probeBit B groups level s h = b)) := by
  intro l
  induction l with
  | nil =>
    intro gb c hlen hc b hb
    simpa using hc b hb
  | cons h t ih =>
    intro gb c hlen hc b hb
    have hpl : probeBit B groups level s h < 64 * segs :=
      probeBit_lt_of_groups B groups level s h segs hB hGB hgroups
    have hword : probeBit B groups level s h / 64 * 3 + 1 < gb.length := by
      rw [hlen]; omega
    rw [List.foldl_cons]
    have hstep : ∀ b', b' < 64 * segs →
        planeBit 0 (updateHashBits B level groups s gb h) b' =
          decide (1 ≤ c b' + (if probeBit B groups level s h = b' then 1 else 0)) ∧
        planeBit 1 (updateHashBits B level groups s gb h) b' =
          decide (2 ≤ c b' + (if probeBit B groups level s h = b' then 1 else 0)) := by
      intro b' hb'
      rcases hc b' hb' with ⟨h0, h1⟩
      rw [planeBit_updateHashBits_zero B level groups s gb h b' hword,
        planeBit_updateHashBits_one B level groups s gb h b' hword, h0, h1]
      by_cases hbb : b' = probeBit B groups level s h
      · rw [if_pos hbb.symm]
        constructor
        · by_cases h1c : 1 ≤ c b' <;> simp [h1c, hbb] <;> omega
        · by_cases h1c : 1 ≤ c b' <;> by_cases h2c : 2 ≤ c b' <;>
            simp [h1c, h2c, hbb] <;> omega
      · rw [if_neg (fun e => hbb e.symm)]
        simp [hbb]
    have := ih (updateHashBits B level groups s gb h)
      (fun b' => c b' + (if probeBit B groups level s h = b' then 1 else 0))
      (by rw [updateHashBits_length, hlen]) hstep b hb
    rcases this with ⟨g0, g1⟩
    beta_reduce at g0 g1
    have harith : ∀ bb, c bb + (if probeBit B groups level s h = bb then 1 else 0) +
        t.countP (fun h' => probeBit B groups level s h' = bb) =
        c bb + (h :: t).countP (fun h' => probeBit B groups level s h' = bb) := by
      intro bb
      rw [List.countP_cons]
      by_cases hpb : probeBit B groups level s h = bb
      · simp only [hpb, eq_self_iff_true, decide_True, if_true]
        omega
      · simp only [if_neg hpb, decide_eq_true_eq, hpb, if_false]
        omega
    constructor
    · rw [g0, harith b]
    · rw [g1, harith b]

theorem planeBit_filterCollisions_zero (gb : List Nat) (b : Nat) :
    planeBit 0 (filterCollisions gb) b = (planeBit 0 gb b && !planeBit 1 gb b) := by
  unfold planeBit
  simp only [Nat.add_zero]
  rw [filterCollisions_getD, if_pos (by omega)]
  have hlt : b % 64 < 64 := Nat.mod_lt _ (by norm_num)
  rw [Nat.testBit_and, Nat.testBit_xor, Nat.testBit_two_pow_sub_one]
  simp [hlt]

/-! ### The per-group tournament of `update_group_bits_with_seed` -/

theorem getD_set_full (l : List Nat) (i j v : Nat) :
    (l.set i v).getD j 0 =
      if i = j then (if i < l.length then v else l.getD j 0) else l.getD j 0 := by
  by_cases hij : i = j
  · subst hij
    by_cases hlen : i < l.length
    · rw [if_pos rfl, if_pos hlen, getD_set_self_nat _ _ _ hlen]
    · rw [if_pos rfl, if_neg hlen, List.set_eq_of_length_le (le_of_not_lt hlen)]
  · rw [if_neg hij, getD_set_ne_nat _ _ _ _ hij]

theorem mask1_testBit (bits1 p : Nat) (hb : bits1 ≤ 64) :
    ((2 ^ 64 - 1) >>> (64 - bits1)).testBit p = decide (p < bits1) := by
  rw [Nat.testBit_shiftRight, Nat.testBit_two_pow_sub_one, decide_eq_decide]
  omega

theorem mask2_testBit (bits2 p : Nat) :
    ((1 <<< bits2) - 1).testBit p = decide (p < bits2) := by
  rw [Nat.one_shiftLeft, Nat.testBit_two_pow_sub_one]

theorem notMask_testBit (m p : Nat) (hp : p < 64) :
    ((2 ^ 64 - 1) ^^^ m).testBit p = !m.testBit p := by
  rw [Nat.testBit_xor, Nat.testBit_two_pow_sub_one]
  simp [hp]

theorem windowWrite1_testBit (old x r bits1 p : Nat) (hp : p < 64) (hb1 : bits1 ≤ 64) :
    (old &&& ((2 ^ 64 - 1) ^^^ ((2 ^ 64 - 1) >>> (64 - bits1)) <<< r) |||
      (x >>> r &&& ((2 ^ 64 - 1) >>> (64 - bits1))) <<< r).testBit p =
      if r ≤ p ∧ p < r + bits1 then x.testBit p else old.testBit p := by
  rw [Nat.testBit_or, Nat.testBit_and, notMask_testBit _ _ hp, Nat.testBit_shiftLeft,
    Nat.testBit_shiftLeft, Nat.testBit_and, Nat.testBit_shiftRight, Nat.testBit_shiftRight,
    Nat.testBit_two_pow_sub_one]
  by_cases h1 : r ≤ p
  · have hr : r + (p - r) = p := by omega
    rw [hr]
    by_cases h2 : p < r + bits1
    · have h3 : 64 - bits1 + (p - r) < 64 := by omega
      simp [h1, h2, h3]
    · have h3 : ¬(64 - bits1 + (p - r) < 64) := by omega
      simp [h1, h2, h3]
  · have h2 : ¬(r ≤ p ∧ p < r + bits1) := fun hc => h1 hc.1
    simp [h1, h2]

theorem windowWrite2_testBit (old y bits2 p : Nat) (hp : p < 64) :
    (old &&& ((2 ^ 64 - 1) ^^^ ((1 <<< bits2) - 1)) ||| y &&& ((1 <<< bits2) - 1)).testBit p =
      if p < bits2 then y.testBit p else old.testBit p := by
  rw [Nat.testBit_or, Nat.testBit_and, notMask_testBit _ _ hp, Nat.testBit_and,
    mask2_testBit]
  by_cases h2 : p < bits2
  · simp [h2]
  · simp [h2]

theorem updateBestGroup_length (B s : Nat) (st : List Nat × List Nat) (g : Nat) :
    (updateBestGroup B s st g).1.length = st.1.length ∧
      (updateBestGroup B s st g).2.length = st.2.length := by
  simp only [updateBestGroup]
  split
  · constructor
    · simp
    · simp
  · exact ⟨rfl, rfl⟩

theorem updateBestGroup_getD_mod3 (B s : Nat) (st : List Nat × List Nat) (g j : Nat)
    (hj : j % 3 ≠ 2) :
    (updateBestGroup B s st g).1.getD j 0 = st.1.getD j 0 := by
  simp only [updateBestGroup]
  split
  · rw [getD_set_ne_nat _ _ _ _ (by omega), getD_set_ne_nat _ _ _ _ (by omega)]
  · rfl

theorem updateBestGroup_snd_getD_ne (B s : Nat) (st : List Nat × List Nat) (g g' : Nat)
    (hne : g ≠ g') :
    (updateBestGroup B s st g).2.getD g' 0 = st.2.getD g' 0 := by
  simp only [updateBestGroup]
  split
  · exact getD_set_ne_nat _ _ _ _ hne
  · rfl

theorem updateBestGroup_not_won (B s : Nat) (st : List Nat × List Nat) (g : Nat)
    (hw : wonGroup B st.1 g = false) :
    updateBestGroup B s st g = st := by
  simp only [wonGroup] at hw
  simp only [updateBestGroup]
  rw [if_neg (of_decide_eq_false hw)]

theorem updateBestGroup_won_snd (B s : Nat) (st : List Nat × List Nat) (g : Nat)
    (hw : wonGroup B st.1 g = true) :
    (updateBestGroup B s st g).2 = st.2.set g s := by
  simp only [wonGroup] at hw
  simp only [updateBestGroup]
  rw [if_pos (of_decide_eq_true hw)]

theorem windowRead1_testBit (w r bits1 u : Nat) (hb1 : bits1 ≤ 64) :
    (w >>> r &&& ((2 ^ 64 - 1) >>> (64 - bits1))).testBit u =
      (w.testBit (r + u) && decide (u < bits1)) := by
  rw [Nat.testBit_and, Nat.testBit_shiftRight, mask1_testBit _ _ hb1]

theorem windowRead2_testBit (w bits2 u : Nat) :
    (w &&& ((1 <<< bits2) - 1)).testBit u = (w.testBit u && decide (u < bits2)) := by
  rw [Nat.testBit_and, mask2_testBit]

theorem popW_eq_zero (x : Nat) : popW x = 0 ↔ ∀ u, u < 64 → x.testBit u = false := by
  unfold popW
  rw [List.countP_eq_zero]
  constructor
  · intro hc u hu
    simpa using hc u (List.mem_range.mpr hu)
  · intro hc u hu
    simpa using hc u (List.mem_range.mp hu)

theorem updateBestGroup_won_planeBit (B s : Nat) (st : List Nat × List Nat) (g b segs : Nat)
    (hB64 : B ≤ 64) (hlen : st.1.length = 3 * segs)
    (hwlo : g * B ≤ b) (hwhi : b < g * B + B) (hbs : b < 64 * segs)
    (hw : wonGroup B st.1 g = true) :
    planeBit 2 (updateBestGroup B s st g).1 b = planeBit 0 st.1 b := by
  simp only [wonGroup] at hw
  simp only [updateBestGroup]
  rw [if_pos (of_decide_eq_true hw)]
  unfold planeBit
  simp only [Nat.add_zero]
  have hp : b % 64 < 64 := Nat.mod_lt _ (by norm_num)
  set a := g * B with ha
  by_cases hc : b / 64 = a / 64
  · rw [getD_set_full, if_neg (by omega), getD_set_full, if_pos (by omega),
      if_pos (by rw [hlen]; omega)]
    rw [windowWrite1_testBit _ _ _ _ _ hp (by omega), if_pos ⟨by omega, by omega⟩, hc]
  · have hc2 : b / 64 = a / 64 + 1 := by omega
    rw [getD_set_full, if_pos (by omega), if_pos (by rw [List.length_set, hlen]; omega)]
    rw [windowWrite2_testBit _ _ _ _ hp, if_pos (by omega),
      show a / 64 * 3 + 3 = b / 64 * 3 from by omega]

theorem updateBestGroup_planeBit_two_frame (B s : Nat) (st : List Nat × List Nat) (g b : Nat)
    (hB64 : B ≤ 64) (hout : b < g * B ∨ g * B + B ≤ b) :
    planeBit 2 (updateBestGroup B s st g).1 b = planeBit 2 st.1 b := by
  simp only [updateBestGroup]
  split
  · unfold planeBit
    have hp : b % 64 < 64 := Nat.mod_lt _ (by norm_num)
    set a := g * B with ha
    rw [getD_set_full, getD_set_full]
    simp only [List.length_set]
    by_cases h5 : a / 64 * 3 + 5 = b / 64 * 3 + 2
    · rw [if_pos h5]
      by_cases hl5 : a / 64 * 3 + 5 < st.1.length
      · rw [if_pos hl5]
        rw [windowWrite2_testBit _ _ _ _ hp, if_neg (by omega), h5]
      · rw [if_neg hl5, if_neg (by omega)]
    · rw [if_neg h5]
      by_cases h2c : a / 64 * 3 + 2 = b / 64 * 3 + 2
      · rw [if_pos h2c]
        by_cases hl2 : a / 64 * 3 + 2 < st.1.length
        · rw [if_pos hl2]
          rw [windowWrite1_testBit _ _ _ _ _ hp (by omega), if_neg (by omega), h2c]
        · rw [if_neg hl2]
      · rw [if_neg h2c]
  · rfl

theorem lost_pristine_plane0 (B : Nat) (gb : List Nat) (g b segs : Nat)
    (hB : 0 < B) (hB64 : B ≤ 64) (hlen : gb.length = 3 * segs)
    (hwlo : g * B ≤ b) (hwhi : b < g * B + B) (hgend : g * B + B ≤ 64 * segs)
    (hw : wonGroup B gb g = false)
    (hpristine : ∀ b', g * B ≤ b' → b' < g * B + B → b' < 64 * segs →
      planeBit 2 gb b' = false) :
    planeBit 0 gb b = false := by
  simp only [wonGroup] at hw
  have hcond := of_decide_eq_false hw
  set a := g * B with ha
  have hb1le : min B (64 - a % 64) ≤ 64 := by omega
  have hbest1 : popW (gb.getD (a / 64 * 3 + 2) 0 >>> (a % 64) &&&
      ((2 ^ 64 - 1) >>> (64 - min B (64 - a % 64)))) = 0 := by
    rw [popW_eq_zero]
    intro u hu
    rw [windowRead1_testBit _ _ _ _ hb1le]
    by_cases hub : u < min B (64 - a % 64)
    · have hglobal : planeBit 2 gb (a + u) = false :=
        hpristine (a + u) (by omega) (by omega) (by omega)
      unfold planeBit at hglobal
      rw [show (a + u) / 64 = a / 64 from by omega,
        show (a + u) % 64 = a % 64 + u from by omega] at hglobal
      simp only [hglobal, Bool.false_and]
    · simp [hub]
  have hbest2 : popW (gb.getD (a / 64 * 3 + 5) 0 &&&
      ((1 <<< (B - min B (64 - a % 64))) - 1)) = 0 := by
    rw [popW_eq_zero]
    intro u hu
    rw [windowRead2_testBit]
    by_cases hub : u < B - min B (64 - a % 64)
    · have hglobal : planeBit 2 gb (a + (64 - a % 64) + u) = false :=
        hpristine _ (by omega) (by omega) (by omega)
      unfold planeBit at hglobal
      rw [show (a + (64 - a % 64) + u) / 64 = a / 64 + 1 from by omega,
        show (a + (64 - a % 64) + u) % 64 = u from by omega,
        show (a / 64 + 1) * 3 + 2 = a / 64 * 3 + 5 from by omega] at hglobal
      simp only [hglobal, Bool.false_and]
    · simp [hub]
  rw [hbest1, hbest2] at hcond
  have hnew1 : popW (gb.getD (a / 64 * 3) 0 >>> (a % 64) &&&
      ((2 ^ 64 - 1) >>> (64 - min B (64 - a % 64)))) = 0 := by omega
  have hnew2 : popW (gb.getD (a / 64 * 3 + 3) 0 &&&
      ((1 <<< (B - min B (64 - a % 64))) - 1)) = 0 := by omega
  unfold planeBit
  simp only [Nat.add_zero]
  by_cases hc : b / 64 = a / 64
  · have hub : b % 64 - a % 64 < min B (64 - a % 64) := by omega
    have := (popW_eq_zero _).mp hnew1 (b % 64 - a % 64) (by omega)
    rw [windowRead1_testBit _ _ _ _ hb1le,
      show a % 64 + (b % 64 - a % 64) = b % 64 from by omega] at this
    simp only [hub, decide_True, Bool.and_true] at this
    rw [hc, this]
  · have hc2 : b / 64 = a / 64 + 1 := by omega
    have hub : b % 64 < B - min B (64 - a % 64) := by omega
    have := (popW_eq_zero _).mp hnew2 (b % 64) (by omega)
    rw [windowRead2_testBit] at this
    simp only [hub, decide_True, Bool.and_true] at this
    rw [show b / 64 * 3 = a / 64 * 3 + 3 from by omega, this]

theorem tournamentFold_succ (B s : Nat) (gb bgs : List Nat) (m : Nat) :
    tournamentFold B s gb bgs (m + 1) =
      updateBestGroup B s (tournamentFold B s gb bgs m) m := by
  unfold tournamentFold
  rw [List.range_succ, List.foldl_append, List.foldl_cons, List.foldl_nil]

theorem tournamentFold_inv (B s level groups segs : Nat) (hashes : List Nat) (hB : 0 < B)
    (hB64 : B ≤ 64) (hGB : groups * B = 64 * segs)
    (gb3 bgs : List Nat) (hgb3len : gb3.length = 3 * segs) (hbgslen : bgs.length = groups)
    (hplane0 : ∀ b, b < 64 * segs →
      planeBit 0 gb3 b = decide (cntSeed B groups level hashes s b = 1))
    (hpre : (∀ b, b < 64 * segs →
        planeBit 2 gb3 b = decide (cntSeed B groups level hashes (bgs.getD (b / B) 0) b = 1))
      ∨ ((∀ b', planeBit 2 gb3 b' = false) ∧ (∀ g', bgs.getD g' 0 = s))) :
    ∀ m, m ≤ groups →
      (tournamentFold B s gb3 bgs m).1.length = 3 * segs ∧
      (tournamentFold B s gb3 bgs m).2.length = groups ∧
      (∀ j, j % 3 ≠ 2 → (tournamentFold B s gb3 bgs m).1.getD j 0 = gb3.getD j 0) ∧
      (∀ g', m ≤ g' → (tournamentFold B s gb3 bgs m).2.getD g' 0 = bgs.getD g' 0) ∧
      (∀ g', m ≤ g' → g' < groups → ∀ b, g' * B ≤ b → b < g' * B + B →
        planeBit 2 (tournamentFold B s gb3 bgs m).1 b = planeBit 2 gb3 b) ∧
      (∀ g', g' < m → ∀ b, g' * B ≤ b → b < g' * B + B →
        planeBit 2 (tournamentFold B s gb3 bgs m).1 b =
          decide (cntSeed B groups level hashes
            ((tournamentFold B s gb3 bgs m).2.getD g' 0) b = 1)) := by
  intro m
  induction m with
  | zero =>
    intro _
    exact ⟨hgb3len, hbgslen, fun j _ => rfl, fun g' _ => rfl,
      fun g' _ _ b _ _ => rfl, fun g' hg' => absurd hg' (Nat.not_lt_zero _)⟩
  | succ m ih =>
    intro hm1
    have hm : m ≤ groups := Nat.le_of_succ_le hm1
    have hmg : m < groups := hm1
    obtain ⟨L1, L2, C, D, F, E⟩ := ih hm
    rw [tournamentFold_succ]
    set st := tournamentFold B s gb3 bgs m with hst
    have hwin_end : m * B + B ≤ 64 * segs := by
      have h1 : (m + 1) * B ≤ groups * B := Nat.mul_le_mul_right _ hm1
      rw [Nat.succ_mul] at h1
      rw [← hGB]
      exact h1
    refine ⟨?_, ?_, ?_, ?_, ?_, ?_⟩
    · rw [(updateBestGroup_length B s st m).1, L1]
    · rw [(updateBestGroup_length B s st m).2, L2]
    · intro j hj
      rw [updateBestGroup_getD_mod3 B s st m j hj, C j hj]
    · intro g' hg'
      rw [updateBestGroup_snd_getD_ne B s st m g' (by omega), D g' (by omega)]
    · intro g' hg' hg'2 b hblo hbhi
      have hge : m * B + B ≤ g' * B := by
        have h1 : (m + 1) * B ≤ g' * B := Nat.mul_le_mul_right _ hg'
        rw [Nat.succ_mul] at h1
        exact h1
      rw [updateBestGroup_planeBit_two_frame B s st m b hB64 (Or.inr (by omega))]
      exact F g' (by omega) hg'2 b hblo hbhi
    · intro g' hg' b hblo hbhi
      by_cases hcase : g' < m
      · have hhi : g' * B + B ≤ m * B := by
          have h1 : (g' + 1) * B ≤ m * B := Nat.mul_le_mul_right _ hcase
          rw [Nat.succ_mul] at h1
          exact h1
        rw [updateBestGroup_planeBit_two_frame B s st m b hB64 (Or.inl (by omega)),
          updateBestGroup_snd_getD_ne B s st m g' (by omega)]
        exact E g' hcase b hblo hbhi
      · have hg'm : g' = m := by omega
        rw [hg'm] at hblo hbhi ⊢
        have hbs : b < 64 * segs := by omega
        by_cases hwon : wonGroup B st.1 m
        · rw [updateBestGroup_won_planeBit B s st m b segs hB64 L1 hblo hbhi hbs hwon]
          have hp0 : planeBit 0 st.1 b = planeBit 0 gb3 b := by
            unfold planeBit
            rw [C _ (by omega)]
          rw [hp0, hplane0 b hbs, updateBestGroup_won_snd B s st m hwon,
            getD_set_self_nat _ _ _ (by rw [L2]; exact hmg)]
        · have hwf : wonGroup B st.1 m = false := by simpa using hwon
          rw [updateBestGroup_not_won B s st m hwf]
          have hseed : st.2.getD m 0 = bgs.getD m 0 := D m (le_refl m)
          have hpl2 : planeBit 2 st.1 b = planeBit 2 gb3 b :=
            F m (le_refl m) hmg b hblo hbhi
          rw [hseed, hpl2]
          rcases hpre with hchar | ⟨hz, hs⟩
          · have hdiv : b / B = m :=
              Nat.div_eq_of_lt_le hblo (by rw [Nat.succ_mul]; omega)
            have hcb := hchar b hbs
            rw [hdiv] at hcb
            exact hcb
          · rw [hz b, hs m]
            have hlost : planeBit 0 st.1 b = false := by
              apply lost_pristine_plane0 B st.1 m b segs hB hB64 L1 hblo hbhi hwin_end hwf
              intro b' hb'lo hb'hi hb'lt
              rw [F m (le_refl m) hmg b' hb'lo hb'hi, hz b']
            have hp0 : planeBit 0 gb3 b = false := by
              have hC : planeBit 0 st.1 b = planeBit 0 gb3 b := by
                unfold planeBit
                rw [C _ (by omega)]
              rw [← hC, hlost]
            rw [← hplane0 b hbs, hp0]

theorem tournamentFold_length (B s : Nat) (gb bgs : List Nat) (m : Nat) :
    (tournamentFold B s gb bgs m).1.length = gb.length ∧
      (tournamentFold B s gb bgs m).2.length = bgs.length := by
  induction m with
  | zero => exact ⟨rfl, rfl⟩
  | succ m ih =>
    rw [tournamentFold_succ]
    constructor
    · rw [(updateBestGroup_length B s _ m).1, ih.1]
    · rw [(updateBestGroup_length B s _ m).2, ih.2]

theorem update_seed_char (B level groups segs s : Nat) (hashes : List Nat)
    (hB : 0 < B) (hB64 : B ≤ 64) (hGB : groups * B = 64 * segs)
    (gb bgs : List Nat) (hgblen : gb.length = 3 * segs) (hbgslen : bgs.length = groups)
    (hpre : (∀ b, b < 64 * segs →
        planeBit 2 gb b = decide (cntSeed B groups level hashes (bgs.getD (b / B) 0) b = 1))
      ∨ ((∀ b', planeBit 2 gb b' = false) ∧ (∀ g', bgs.getD g' 0 = s))) :
    (update_group_bits_with_seed B level groups s hashes gb bgs).1.length = 3 * segs ∧
    (update_group_bits_with_seed B level groups s hashes gb bgs).2.length = groups ∧
    ∀ b, b < 64 * segs →
      planeBit 2 (update_group_bits_with_seed B level groups s hashes gb bgs).1 b =
        decide (cntSeed B groups level hashes
          ((update_group_bits_with_seed B level groups s hashes gb bgs).2.getD (b / B) 0)
          b = 1) := by
  have hfold : update_group_bits_with_seed B level groups s hashes gb bgs =
      tournamentFold B s (filterCollisions (hashes.foldl (updateHashBits B level groups s)
        (resetPlanes gb))) bgs groups := rfl
  set gb3 := filterCollisions (hashes.foldl (updateHashBits B level groups s)
    (resetPlanes gb)) with hgb3
  have hlen3 : gb3.length = 3 * segs := by
    rw [hgb3, filterCollisions_length, hashFold_length, resetPlanes_length, hgblen]
  have hlens := tournamentFold_length B s gb3 bgs groups
  refine ⟨by rw [hfold, hlens.1]; exact hlen3, by rw [hfold, hlens.2]; exact hbgslen, ?_⟩
  by_cases hgroups : 0 < groups
  case neg =>
    intro b hb
    exfalso
    have hg0 : groups = 0 := by omega
    rw [hg0, Nat.zero_mul] at hGB
    omega
  case pos =>
  have hbase : ∀ b, b < 64 * segs →
      planeBit 0 (resetPlanes gb) b = decide (1 ≤ (fun _ : Nat => 0) b) ∧
      planeBit 1 (resetPlanes gb) b = decide (2 ≤ (fun _ : Nat => 0) b) := by
    intro b _
    rw [planeBit_resetPlanes_01 0 (by norm_num), planeBit_resetPlanes_01 1 (by norm_num)]
    simp
  have hfc := hashFold_char B level groups s segs hB hGB hgroups hashes (resetPlanes gb)
    (fun _ => 0) (by rw [resetPlanes_length, hgblen]) hbase
  have hp0 : ∀ b, b < 64 * segs →
      planeBit 0 gb3 b = decide (cntSeed B groups level hashes s b = 1) := by
    intro b hb
    rw [hgb3, planeBit_filterCollisions_zero]
    obtain ⟨e0, e1⟩ := hfc b hb
    rw [e0, e1]
    unfold cntSeed
    by_cases h1 : 1 ≤ hashes.countP (fun h => probeBit B groups level s h = b) <;>
      by_cases h2 : 2 ≤ hashes.countP (fun h => probeBit B groups level s h = b) <;>
      simp [h1, h2] <;> omega
  have hpre2 : ∀ b', planeBit 2 gb3 b' = planeBit 2 gb b' := by
    intro b'
    rw [hgb3, planeBit_filterCollisions_two, hashFold_planeBit_two, planeBit_resetPlanes_two]
  have hpre3 : (∀ b, b < 64 * segs →
      planeBit 2 gb3 b = decide (cntSeed B groups level hashes (bgs.getD (b / B) 0) b = 1))
      ∨ ((∀ b', planeBit 2 gb3 b' = false) ∧ (∀ g', bgs.getD g' 0 = s)) := by
    rcases hpre with h | ⟨hz, hs⟩
    · exact Or.inl (fun b hb => by rw [hpre2 b]; exact h b hb)
    · exact Or.inr ⟨fun b' => by rw [hpre2 b']; exact hz b', hs⟩
  obtain ⟨_, _, _, _, _, E⟩ := tournamentFold_inv B s level groups segs hashes hB hB64 hGB
    gb3 bgs hlen3 hbgslen hp0 hpre3 groups (le_refl _)
  intro b hb
  have hg : b / B < groups := by
    rw [Nat.div_lt_iff_lt_mul hB]
    omega
  have hwlo : b / B * B ≤ b := Nat.div_mul_le_self _ _
  have hwhi : b < b / B * B + B := by
    have hdm := Nat.div_add_mod' b B
    have hml : b % B < B := Nat.mod_lt _ hB
    omega
  rw [hfold]
  exact E (b / B) hg b hwlo hwhi

theorem planeBit_replicate_zero (p n b : Nat) :
    planeBit p (List.replicate n 0) b = false := by
  unfold planeBit
  rw [getD_replicate_zero]
  exact Nat.zero_testBit _

theorem seedFold_preserve (B level groups segs : Nat) (hashes : List Nat)
    (hB : 0 < B) (hB64 : B ≤ 64) (hGB : groups * B = 64 * segs) :
    ∀ (l : List Nat) (st : List Nat × List Nat),
      st.1.length = 3 * segs → st.2.length = groups →
      (∀ b, b < 64 * segs → planeBit 2 st.1 b =
        decide (cntSeed B groups level hashes (st.2.getD (b / B) 0) b = 1)) →
      (l.foldl (fun st seed =>
          update_group_bits_with_seed B level groups seed hashes st.1 st.2) st).1.length
          = 3 * segs ∧
      (l.foldl (fun st seed =>
          update_group_bits_with_seed B level groups seed hashes st.1 st.2) st).2.length
          = groups ∧
      (∀ b, b < 64 * segs → planeBit 2 (l.foldl (fun st seed =>
          update_group_bits_with_seed B level groups seed hashes st.1 st.2) st).1 b =
        decide (cntSeed B groups level hashes ((l.foldl (fun st seed =>
          update_group_bits_with_seed B level groups seed hashes st.1 st.2) st).2.getD
            (b / B) 0) b = 1)) := by
  intro l
  induction l with
  | nil =>
    intro st h1 h2 h3
    exact ⟨h1, h2, h3⟩
  | cons sd t ih =>
    intro st h1 h2 h3
    rw [List.foldl_cons]
    obtain ⟨u1, u2, u3⟩ := update_seed_char B level groups segs sd hashes hB hB64 hGB
      st.1 st.2 h1 h2 (Or.inl h3)
    exact ih _ u1 u2 u3

theorem levelFoldResult_char (B S : Nat) (lsize : Nat → Nat) (level : Nat)
    (hashes : List Nat) (hB : 0 < B) (hB64 : B ≤ 64) :
    (levelFoldResult B S lsize level hashes).1.length =
      3 * (level_size_groups_segments B (lsize hashes.length)).2 ∧
    (levelFoldResult B S lsize level hashes).2.length =
      (level_size_groups_segments B (lsize hashes.length)).1 ∧
    ∀ b, b < 64 * (level_size_groups_segments B (lsize hashes.length)).2 →
      planeBit 2 (levelFoldResult B S lsize level hashes).1 b =
        decide (cntSeed B (level_size_groups_segments B (lsize hashes.length)).1 level
          hashes ((levelFoldResult B S lsize level hashes).2.getD (b / B) 0) b = 1) := by
  have hGB := groups_mul_B B (lsize hashes.length) hB
  set gs := level_size_groups_segments B (lsize hashes.length) with hgs
  have hres : levelFoldResult B S lsize level hashes =
      (List.range (2 ^ S)).foldl
        (fun st seed => update_group_bits_with_seed B level gs.1 seed hashes st.1 st.2)
        (List.replicate (3 * gs.2) 0, List.replicate gs.1 0) := rfl
  obtain ⟨k, hk⟩ : ∃ k, 2 ^ S = k + 1 := by
    have := Nat.two_pow_pos S
    exact ⟨2 ^ S - 1, by omega⟩
  rw [hres, hk, List.range_succ_eq_map, List.foldl_cons]
  obtain ⟨b1, b2, b3⟩ := update_seed_char B level gs.1 gs.2 0 hashes hB hB64 hGB
    (List.replicate (3 * gs.2) 0) (List.replicate gs.1 0) (by simp) (by simp)
    (Or.inr ⟨fun b' => planeBit_replicate_zero 2 _ b', fun g' => getD_replicate_zero _ _⟩)
  exact seedFold_preserve B level gs.1 gs.2 hashes hB hB64 hGB _ _ b1 b2 b3

theorem build_level_fst (B S : Nat) (lsize : Nat → Nat) (level : Nat) (hashes : List Nat) :
    (build_level B S lsize level hashes).1 =
      (List.range (level_size_groups_segments B (lsize hashes.length)).2).map
        (fun k => (levelFoldResult B S lsize level hashes).1.getD (3 * k + 2) 0) := rfl

theorem build_level_seeds (B S : Nat) (lsize : Nat → Nat) (level : Nat) (hashes : List Nat) :
    (build_level B S lsize level hashes).2.1 =
      (levelFoldResult B S lsize level hashes).2 := rfl

theorem build_level_retained_eq (B S : Nat) (lsize : Nat → Nat) (level : Nat)
    (hashes : List Nat) :
    (build_level B S lsize level hashes).2.2 =
      hashes.filter (fun h =>
        (build_level B S lsize level hashes).1.getD
            (probeBit B (level_size_groups_segments B (lsize hashes.length)).1 level
              ((levelFoldResult B S lsize level hashes).2.getD
                (groupOf (level_size_groups_segments B (lsize hashes.length)).1
                  (hash_with_seed h level)) 0) h / 64) 0 &&&
          (1 <<< (probeBit B (level_size_groups_segments B (lsize hashes.length)).1 level
              ((levelFoldResult B S lsize level hashes).2.getD
                (groupOf (level_size_groups_segments B (lsize hashes.length)).1
                  (hash_with_seed h level)) 0) h % 64)) = 0) := rfl

theorem bitGet_bestBits (B S : Nat) (lsize : Nat → Nat) (level : Nat) (hashes : List Nat)
    (b : Nat) :
    bitGet (build_level B S lsize level hashes).1 b =
      if b < 64 * (level_size_groups_segments B (lsize hashes.length)).2
      then planeBit 2 (levelFoldResult B S lsize level hashes).1 b
      else false := by
  rw [build_level_fst]
  unfold bitGet
  by_cases hb : b < 64 * (level_size_groups_segments B (lsize hashes.length)).2
  · rw [if_pos hb, range_map_getD _ _ _ (by omega)]
    unfold planeBit
    rw [show 3 * (b / 64) + 2 = b / 64 * 3 + 2 from by omega]
  · rw [if_neg hb, getD_zero_of_le _ _ (by simp; omega)]
    exact Nat.zero_testBit _

theorem retainedPred_eq (x r : Nat) : decide (x &&& 1 <<< r = 0) = !x.testBit r := by
  by_cases h : x.testBit r
  · have hne : ¬(x &&& 1 <<< r = 0) := by
      rw [and_shift_one_eq_zero]
      simp [h]
    simp [hne, h]
  · have hf : x.testBit r = false := by simpa using h
    have he : x &&& 1 <<< r = 0 := (and_shift_one_eq_zero x r).mpr hf
    simp [he, hf]

theorem build_level_bitGet_char (B S : Nat) (lsize : Nat → Nat) (level : Nat)
    (hashes : List Nat) (hB : 0 < B) (hB64 : B ≤ 64) :
    ∀ b, b < 64 * (level_size_groups_segments B (lsize hashes.length)).2 →
      bitGet (build_level B S lsize level hashes).1 b =
        decide (cntSeed B (level_size_groups_segments B (lsize hashes.length)).1 level
          hashes ((build_level B S lsize level hashes).2.1.getD (b / B) 0) b = 1) := by
  intro b hb
  rw [bitGet_bestBits, if_pos hb, build_level_seeds]
  exact (levelFoldResult_char B S lsize level hashes hB hB64).2.2 b hb

theorem build_level_retained (B S : Nat) (lsize : Nat → Nat) (level : Nat)
    (hashes : List Nat) :
    (build_level B S lsize level hashes).2.2 =
      hashes.filter (fun h =>
        !bitGet (build_level B S lsize level hashes).1
          (probeBit B (level_size_groups_segments B (lsize hashes.length)).1 level
            ((build_level B S lsize level hashes).2.1.getD
              (groupOf (level_size_groups_segments B (lsize hashes.length)).1
                (hash_with_seed h level)) 0) h)) := by
  rw [build_level_retained_eq]
  apply List.filter_congr
  intro h _
  rw [build_level_seeds]
  unfold bitGet
  exact retainedPred_eq _ _

/-! ### Duplicate hashes are never placed (C10 and Nodup transfer for C1) -/

theorem two_le_count_ordered (l : List Nat) (v : Nat) (i j : Nat) (hij : i < j)
    (hi : l[i]? = some v) (hjv : l[j]? = some v) : 2 ≤ l.count v := by
  have hjl : j < l.length := by
    by_contra hc
    rw [List.getElem?_eq_none (le_of_not_lt hc)] at hjv
    exact absurd hjv (by simp)
  have h1 : v ∈ l.take j := by
    apply List.getElem?_mem (n := i)
    rw [List.getElem?_take_of_lt hij]
    exact hi
  have h2 : v ∈ l.drop j := by
    apply List.getElem?_mem (n := 0)
    rw [List.getElem?_drop, Nat.add_zero]
    exact hjv
  have hc1 : 0 < (l.take j).count v := List.count_pos_iff.mpr h1
  have hc2 : 0 < (l.drop j).count v := List.count_pos_iff.mpr h2
  have hsplit : (l.take j ++ l.drop j).count v = l.count v := by
    rw [List.take_append_drop]
  rw [List.count_append] at hsplit
  omega

theorem two_le_count_of_two_pos (l : List Nat) (v : Nat) (i j : Nat) (hij : i ≠ j)
    (hi : l[i]? = some v) (hjv : l[j]? = some v) : 2 ≤ l.count v := by
  rcases Nat.lt_or_ge i j with h | h
  · exact two_le_count_ordered l v i j h hi hjv
  · exact two_le_count_ordered l v j i (by omega) hjv hi

theorem retained_dup (B S : Nat) (lsize : Nat → Nat) (level : Nat) (hashes : List Nat)
    (h : Nat) (hB : 0 < B) (hB64 : B ≤ 64) (hcnt : 2 ≤ hashes.count h) :
    (build_level B S lsize level hashes).2.2.count h = hashes.count h := by
  rw [build_level_retained]
  set groups := (level_size_groups_segments B (lsize hashes.length)).1 with hgr
  set segs := (level_size_groups_segments B (lsize hashes.length)).2 with hsg
  have hGB : groups * B = 64 * segs := groups_mul_B B _ hB
  have hpred : (!bitGet (build_level B S lsize level hashes).1
      (probeBit B groups level
        ((build_level B S lsize level hashes).2.1.getD
          (groupOf groups (hash_with_seed h level)) 0) h)) = true := by
    by_cases hgz : 0 < groups
    · set sd := (build_level B S lsize level hashes).2.1.getD
        (groupOf groups (hash_with_seed h level)) 0 with hsd
      have hpb : probeBit B groups level sd h < 64 * segs :=
        probeBit_lt_of_groups B groups level sd h segs hB hGB hgz
      rw [build_level_bitGet_char B S lsize level hashes hB hB64 _ hpb]
      have hdiv : probeBit B groups level sd h / B =
          groupOf groups (hash_with_seed h level) := probeBit_div B groups level sd h hB
      rw [hdiv, ← hsd]
      have hmono : hashes.count h ≤ cntSeed B groups level hashes sd
          (probeBit B groups level sd h) := by
        unfold cntSeed
        rw [List.count_eq_countP]
        apply List.countP_mono_left
        intro a _ ha
        have hah : a = h := by simpa using ha
        rw [hah]
        simp
      have hne : cntSeed B groups level hashes sd (probeBit B groups level sd h) ≠ 1 := by
        omega
      simp [hne]
    · have hsz : segs = 0 := by
        have h0 : groups = 0 := by omega
        rw [h0, Nat.zero_mul] at hGB
        omega
      rw [bitGet_bestBits, if_neg (by rw [← hsg, hsz]; omega)]
      rfl
  exact List.count_filter hpred

theorem remainingAfter_dup (B S : Nat) (lsize : Nat → Nat) (hashes : List Nat)
    (level : Nat) (h : Nat) (hB : 0 < B) (hB64 : B ≤ 64) (hcnt : 2 ≤ hashes.count h) :
    ∀ k, 2 ≤ (remainingAfter B S lsize hashes level k).count h := by
  intro k
  induction k generalizing hashes level with
  | zero => exact hcnt
  | succ k ih =>
    rw [remainingAfter_cons_step]
    apply ih
    rw [retained_dup B S lsize level hashes h hB hB64 hcnt]
    exact hcnt

/-- C10: if two positions of the key list produce the same 64-bit key hash (in
particular, two equal keys), `Mphf::from_slice` never succeeds: the colliding
hashes are retained by every level for every candidate seed, and with valid
parameters construction returns `MaxLevelsExceeded` once the 32 levels are
exhausted. -/
theorem C10_duplicate_hashes {K : Type} (B S stMax : Nat) (gamma : ℚ)
    (lsize : Nat → Nat) (hashKey : K → Nat) (keys : List K) (i j : Nat) (hij : i ≠ j)
    (hi : i < keys.length) (hj : j < keys.length)
    (hdup : hashKey (keys.get ⟨i, hi⟩) = hashKey (keys.get ⟨j, hj⟩)) :
    (∀ m, from_slice B S stMax gamma lsize hashKey keys ≠ .ok m) ∧
    (1 ≤ B → B ≤ 64 → S ≤ 16 → 1 ≤ gamma → 2 ^ S - 1 ≤ stMax →
      from_slice B S stMax gamma lsize hashKey keys = .error .MaxLevelsExceeded) := by
  have hvalid : ∀ (hB1 : 1 ≤ B) (hB2 : B ≤ 64) (hS : S ≤ 16) (hg : 1 ≤ gamma)
      (hst : 2 ^ S - 1 ≤ stMax),
      from_slice B S stMax gamma lsize hashKey keys = .error .MaxLevelsExceeded := by
    intro hB1 hB2 hS hg hst
    rw [from_slice_valid B S stMax gamma lsize hashKey keys hB1 hB2 hS hg hst]
    have hcnt : 2 ≤ (keys.map hashKey).count (hashKey (keys.get ⟨i, hi⟩)) := by
      apply two_le_count_of_two_pos _ _ i j hij
      · rw [List.getElem?_map, List.getElem?_eq_getElem hi]
        rfl
      · rw [List.getElem?_map, List.getElem?_eq_getElem hj]
        show some (hashKey (keys.get ⟨j, hj⟩)) = some (hashKey (keys.get ⟨i, hi⟩))
        exact congrArg some hdup.symm
    have hrem := remainingAfter_dup B S lsize (keys.map hashKey) 0
      (hashKey (keys.get ⟨i, hi⟩)) (by omega) hB2 hcnt MAX_LEVELS
    have hne : remainingAfter B S lsize (keys.map hashKey) 0 MAX_LEVELS ≠ [] := by
      intro hc
      rw [hc] at hrem
      simp at hrem
    have herr := (buildLevels_error_iff B S lsize MAX_LEVELS 0 (keys.map hashKey)
      Error.MaxLevelsExceeded).mpr ⟨rfl, hne⟩
    rw [herr]
    rfl
  constructor
  · intro m hok
    unfold from_slice at hok
    by_cases c1 : B < 1 ∨ B > 64
    · rw [if_pos c1] at hok
      exact absurd hok (by simp)
    · rw [if_neg c1] at hok
      by_cases c2 : S > 16
      · rw [if_pos c2] at hok
        exact absurd hok (by simp)
      · rw [if_neg c2] at hok
        by_cases c3 : gamma < 1
        · rw [if_pos c3] at hok
          exact absurd hok (by simp)
        · rw [if_neg c3] at hok
          by_cases c4 : 2 ^ S - 1 > stMax
          · rw [if_pos c4] at hok
            exact absurd hok (by simp)
          · rw [if_neg c4] at hok
            have := hvalid (by omega) (by omega) (by omega) (not_lt.mp c3) (by omega)
            rw [from_slice_valid B S stMax gamma lsize hashKey keys (by omega) (by omega)
              (by omega) (not_lt.mp c3) (by omega)] at this
            rw [this] at hok
            exact absurd hok (by simp)
  · exact hvalid

theorem C10_duplicate_hashes_witness :
    ((0 : Nat) ≠ 2 ∧ 0 < 3 ∧ 2 < 3 ∧
      (fun k : Nat => k) ([5, 7, 5].get ⟨0, by decide⟩) =
        (fun k : Nat => k) ([5, 7, 5].get ⟨2, by decide⟩)) ∧
    (∀ m, from_slice 32 1 (2 ^ 16 - 1) (2 : ℚ) (fun m => 2 * m)
      (fun k : Nat => k) [5, 7, 5] ≠ .ok m) ∧
    (1 ≤ 32 → 32 ≤ 64 → 1 ≤ 16 → (1 : ℚ) ≤ 2 → 2 ^ 1 - 1 ≤ 2 ^ 16 - 1 →
      from_slice 32 1 (2 ^ 16 - 1) (2 : ℚ) (fun m => 2 * m)
        (fun k : Nat => k) [5, 7, 5] = .error .MaxLevelsExceeded) :=
  ⟨⟨by decide, by decide, by decide, rfl⟩,
    C10_duplicate_hashes 32 1 (2 ^ 16 - 1) (2 : ℚ) (fun m => 2 * m)
      (fun k : Nat => k) [5, 7, 5] 0 2 (by decide) (by decide) (by decide) rfl⟩

/-! ### Per-level placement facts for the assembly of `Mphf::get` -/

theorem bitGet_lt_of_true (ws : List Nat) (b : Nat) (h : bitGet ws b = true) :
    b < 64 * ws.length := by
  by_contra hc
  have hge : ws.length ≤ b / 64 := by omega
  unfold bitGet at h
  rw [getD_zero_of_le _ _ hge, Nat.zero_testBit] at h
  exact absurd h (by simp)

theorem bitGet_append_left (l r : List Nat) (b : Nat) (hb : b < 64 * l.length) :
    bitGet (l ++ r) b = bitGet l b := by
  unfold bitGet
  rw [getD_append_left (show b / 64 < l.length from by omega)]

theorem bitGet_append_right (l r : List Nat) (b : Nat) :
    bitGet (l ++ r) (64 * l.length + b) = bitGet r b := by
  unfold bitGet
  rw [getD_append_right (show l.length ≤ (64 * l.length + b) / 64 from by omega),
    show (64 * l.length + b) / 64 - l.length = b / 64 from by omega,
    show (64 * l.length + b) % 64 = b % 64 from by omega]

theorem two_le_length_of_two_mem {α : Type} (l : List α) (a b : α) (ha : a ∈ l)
    (hb : b ∈ l) (hab : a ≠ b) : 2 ≤ l.length := by
  match l with
  | [] => exact absurd ha (List.not_mem_nil a)
  | [x] =>
    rw [List.mem_singleton] at ha hb
    exact absurd (ha.trans hb.symm) hab
  | x :: y :: t =>
    show 2 ≤ t.length + 1 + 1
    omega

theorem two_le_countP_of_two_mem (l : List Nat) (p : Nat → Bool) (h1 h2 : Nat)
    (hm1 : h1 ∈ l) (hm2 : h2 ∈ l) (hne : h1 ≠ h2) (hp1 : p h1 = true)
    (hp2 : p h2 = true) : 2 ≤ l.countP p := by
  rw [List.countP_eq_length_filter]
  exact two_le_length_of_two_mem _ h1 h2 (List.mem_filter.mpr ⟨hm1, hp1⟩)
    (List.mem_filter.mpr ⟨hm2, hp2⟩) hne

theorem build_level_seeds_length (B S : Nat) (lsize : Nat → Nat) (level : Nat)
    (hashes : List Nat) (hB : 0 < B) (hB64 : B ≤ 64) :
    (build_level B S lsize level hashes).2.1.length =
      (level_size_groups_segments B (lsize hashes.length)).1 := by
  rw [build_level_seeds]
  exact (levelFoldResult_char B S lsize level hashes hB hB64).2.1

theorem build_level_bits_length (B S : Nat) (lsize : Nat → Nat) (level : Nat)
    (hashes : List Nat) :
    (build_level B S lsize level hashes).1.length =
      (level_size_groups_segments B (lsize hashes.length)).2 := by
  rw [build_level_fst]
  simp

theorem mem_retained_iff (B S : Nat) (lsize : Nat → Nat) (level : Nat) (hashes : List Nat)
    (h : Nat) :
    (h ∈ (build_level B S lsize level hashes).2.2 ↔
      h ∈ hashes ∧
        bitGet (build_level B S lsize level hashes).1
          (probeOwn B S lsize level hashes h) = false) := by
  rw [build_level_retained, List.mem_filter]
  unfold probeOwn
  simp

theorem build_level_inj (B S : Nat) (lsize : Nat → Nat) (level : Nat) (hashes : List Nat)
    (hB : 0 < B) (hB64 : B ≤ 64) (h1 h2 : Nat) (hm1 : h1 ∈ hashes) (hm2 : h2 ∈ hashes)
    (hne : h1 ≠ h2)
    (hp1 : bitGet (build_level B S lsize level hashes).1
      (probeOwn B S lsize level hashes h1) = true) :
    probeOwn B S lsize level hashes h1 ≠ probeOwn B S lsize level hashes h2 := by
  intro heq
  set b := probeOwn B S lsize level hashes h1 with hbdef
  have hb : b < 64 * (level_size_groups_segments B (lsize hashes.length)).2 := by
    have := bitGet_lt_of_true _ _ hp1
    rwa [build_level_bits_length] at this
  have hchar := build_level_bitGet_char B S lsize level hashes hB hB64 b hb
  rw [hp1] at hchar
  have hcnt : cntSeed B (level_size_groups_segments B (lsize hashes.length)).1 level hashes
      ((build_level B S lsize level hashes).2.1.getD (b / B) 0) b = 1 :=
    of_decide_eq_true hchar.symm
  have hdiv1 : b / B = groupOf (level_size_groups_segments B (lsize hashes.length)).1
      (hash_with_seed h1 level) := by
    rw [hbdef]
    unfold probeOwn
    exact probeBit_div _ _ _ _ _ hB
  have hdiv2 : b / B = groupOf (level_size_groups_segments B (lsize hashes.length)).1
      (hash_with_seed h2 level) := by
    rw [heq]
    unfold probeOwn
    exact probeBit_div _ _ _ _ _ hB
  have hpred1 : probeBit B (level_size_groups_segments B (lsize hashes.length)).1 level
      ((build_level B S lsize level hashes).2.1.getD (b / B) 0) h1 = b := by
    rw [hdiv1, hbdef]
    rfl
  have hpred2 : probeBit B (level_size_groups_segments B (lsize hashes.length)).1 level
      ((build_level B S lsize level hashes).2.1.getD (b / B) 0) h2 = b := by
    rw [hdiv2]
    show probeOwn B S lsize level hashes h2 = b
    exact heq.symm
  have h2le : 2 ≤ cntSeed B (level_size_groups_segments B (lsize hashes.length)).1 level
      hashes ((build_level B S lsize level hashes).2.1.getD (b / B) 0) b := by
    unfold cntSeed
    exact two_le_countP_of_two_mem hashes _ h1 h2 hm1 hm2 hne
      (decide_eq_true hpred1) (decide_eq_true hpred2)
  omega

theorem build_level_surj (B S : Nat) (lsize : Nat → Nat) (level : Nat) (hashes : List Nat)
    (hB : 0 < B) (hB64 : B ≤ 64) (b : Nat)
    (hset : bitGet (build_level B S lsize level hashes).1 b = true) :
    ∃ h ∈ hashes, probeOwn B S lsize level hashes h = b := by
  have hb : b < 64 * (level_size_groups_segments B (lsize hashes.length)).2 := by
    have := bitGet_lt_of_true _ _ hset
    rwa [build_level_bits_length] at this
  have hchar := build_level_bitGet_char B S lsize level hashes hB hB64 b hb
  rw [hset] at hchar
  have hcnt : cntSeed B (level_size_groups_segments B (lsize hashes.length)).1 level hashes
      ((build_level B S lsize level hashes).2.1.getD (b / B) 0) b = 1 :=
    of_decide_eq_true hchar.symm
  have hpos : 0 < (hashes.countP (fun h =>
      probeBit B (level_size_groups_segments B (lsize hashes.length)).1 level
        ((build_level B S lsize level hashes).2.1.getD (b / B) 0) h = b)) := by
    unfold cntSeed at hcnt
    omega
  obtain ⟨h, hmem, hph⟩ := List.countP_pos.mp hpos
  have hph' : probeBit B (level_size_groups_segments B (lsize hashes.length)).1 level
      ((build_level B S lsize level hashes).2.1.getD (b / B) 0) h = b :=
    of_decide_eq_true hph
  refine ⟨h, hmem, ?_⟩
  have hdiv : b / B = groupOf (level_size_groups_segments B (lsize hashes.length)).1
      (hash_with_seed h level) := by
    rw [← hph']
    exact probeBit_div _ _ _ _ _ hB
  unfold probeOwn
  rw [← hdiv]
  exact hph'

theorem buildLevels_ok_cons (B S : Nat) (lsize : Nat → Nat) (fuel level : Nat)
    (h : Nat) (hs : List Nat) (levels : List (List Nat × List Nat))
    (hok : buildLevels B S lsize (fuel + 1) level (h :: hs) = .ok levels) :
    ∃ rest, levels = ((build_level B S lsize level (h :: hs)).1,
        (build_level B S lsize level (h :: hs)).2.1) :: rest ∧
      buildLevels B S lsize fuel (level + 1)
        (build_level B S lsize level (h :: hs)).2.2 = .ok rest := by
  rw [show buildLevels B S lsize (fuel + 1) level (h :: hs) =
      (buildLevels B S lsize fuel (level + 1)
        (build_level B S lsize level (h :: hs)).2.2).map
        (fun rest => ((build_level B S lsize level (h :: hs)).1,
          (build_level B S lsize level (h :: hs)).2.1) :: rest) from by
    rw [buildLevels]] at hok
  cases hres : buildLevels B S lsize fuel (level + 1)
      (build_level B S lsize level (h :: hs)).2.2 with
  | ok v =>
    rw [hres] at hok
    refine ⟨v, ?_, rfl⟩
    simpa [Except.map] using hok.symm
  | error e =>
    rw [hres] at hok
    simp [Except.map] at hok

theorem groups_pos (B size : Nat) (hB : 0 < B) (hsz : 0 < size) :
    0 < (level_size_groups_segments B size).1 := by
  unfold level_size_groups_segments
  simp only
  have hlcm : 0 < Nat.lcm B 64 := Nat.lcm_pos hB (by norm_num)
  have hBle : B ≤ Nat.lcm B 64 := Nat.le_of_dvd hlcm (Nat.dvd_lcm_left _ _)
  have hq : 0 < (size + Nat.lcm B 64 - 1) / Nat.lcm B 64 := by
    apply Nat.div_pos _ hlcm
    omega
  apply Nat.div_pos _ hB
  calc B ≤ Nat.lcm B 64 := hBle
  _ ≤ (size + Nat.lcm B 64 - 1) / Nat.lcm B 64 * Nat.lcm B 64 :=
    Nat.le_mul_of_pos_left _ hq

theorem bitGet_nil (b : Nat) : bitGet [] b = false := by
  unfold bitGet
  rw [show (([] : List Nat).getD (b / 64) 0) = 0 from rfl]
  exact Nat.zero_testBit _

theorem getLoop_cons (B : Nat) (rb : RankedBits) (seeds : List Nat) (keyHash : Nat)
    (groups : Nat) (rest : List Nat) (level gb : Nat) :
    getLoop B rb seeds keyHash (groups :: rest) level gb =
      if rb.get (bit_index_for_seed B (hash_with_seed keyHash level)
          (seeds.getD (gb + groupOf groups (hash_with_seed keyHash level)) 0)
          (gb + groupOf groups (hash_with_seed keyHash level))) then
        some (rb.rankRaw (bit_index_for_seed B (hash_with_seed keyHash level)
          (seeds.getD (gb + groupOf groups (hash_with_seed keyHash level)) 0)
          (gb + groupOf groups (hash_with_seed keyHash level))))
      else getLoop B rb seeds keyHash rest (level + 1) (gb + groups) := rfl

theorem bit_index_offset (B lh sd pre g : Nat) :
    bit_index_for_seed B lh sd (pre + g) = pre * B + bit_index_for_seed B lh sd g := by
  unfold bit_index_for_seed
  rw [Nat.add_mul]
  omega

theorem seeds_lookup (preS s1 s2 : List Nat) (g : Nat) (hg : g < s1.length) :
    (preS ++ (s1 ++ s2)).getD (preS.length + g) 0 = s1.getD g 0 := by
  rw [getD_append_right (by omega), show preS.length + g - preS.length = g from by omega,
    getD_append_left hg]

theorem rankedBits_get_new (L : List Nat) (i : Nat) :
    (RankedBits.new L).get i = bitGet L i := rfl

theorem rankedBits_rankRaw_new (L : List Nat) (i : Nat) :
    (RankedBits.new L).rankRaw i = bitsBefore L i := rfl

theorem assemble_empty (B level : Nat) :
    (∀ h ∈ ([] : List Nat), ∃ b, levelBit B [] level h = some b) ∧
    (∀ h ∈ ([] : List Nat), ∀ b, levelBit B [] level h = some b →
      b < 64 * (bitsOf []).length ∧ bitGet (bitsOf []) b = true ∧
      ∀ (preB preS : List Nat), preB.length * 64 = preS.length * B →
        getLoop B (RankedBits.new (preB ++ bitsOf [])) (preS ++ seedsOf []) h
          (lgroupsOf []) level preS.length =
          some (bitsBefore (preB ++ bitsOf []) (64 * preB.length + b))) ∧
    (∀ h1, h1 ∈ ([] : List Nat) → ∀ h2, h2 ∈ ([] : List Nat) → h1 ≠ h2 → ∀ b1 b2,
      levelBit B [] level h1 = some b1 → levelBit B [] level h2 = some b2 → b1 ≠ b2) ∧
    (∀ b, bitGet (bitsOf []) b = true →
      ∃ h ∈ ([] : List Nat), levelBit B [] level h = some b) := by
  refine ⟨fun h hm => absurd hm (List.not_mem_nil h),
    fun h hm => absurd hm (List.not_mem_nil h),
    fun h1 hm1 => absurd hm1 (List.not_mem_nil h1),
    fun b hbit => ?_⟩
  rw [show bitsOf [] = ([] : List Nat) from rfl, bitGet_nil] at hbit
  exact absurd hbit (by simp)

theorem levels_assemble (B S : Nat) (lsize : Nat → Nat) (hB : 0 < B) (hB64 : B ≤ 64)
    (hlsize : ∀ n, 0 < n → 0 < lsize n) :
    ∀ (fuel level : Nat) (hashes : List Nat) (levels : List (List Nat × List Nat)),
      buildLevels B S lsize fuel level hashes = .ok levels →
      (∀ h ∈ hashes, ∃ b, levelBit B levels level h = some b) ∧
      (∀ h ∈ hashes, ∀ b, levelBit B levels level h = some b →
        b < 64 * (bitsOf levels).length ∧ bitGet (bitsOf levels) b = true ∧
        ∀ (preB preS : List Nat), preB.length * 64 = preS.length * B →
          getLoop B (RankedBits.new (preB ++ bitsOf levels)) (preS ++ seedsOf levels) h
            (lgroupsOf levels) level preS.length =
            some (bitsBefore (preB ++ bitsOf levels) (64 * preB.length + b))) ∧
      (∀ h1, h1 ∈ hashes → ∀ h2, h2 ∈ hashes → h1 ≠ h2 → ∀ b1 b2,
        levelBit B levels level h1 = some b1 → levelBit B levels level h2 = some b2 →
        b1 ≠ b2) ∧
      (∀ b, bitGet (bitsOf levels) b = true →
        ∃ h ∈ hashes, levelBit B levels level h = some b) := by
  intro fuel
  induction fuel with
  | zero =>
    intro level hashes levels hok
    match hashes with
    | [] =>
      have hlv : levels = [] := by
        rw [show buildLevels B S lsize 0 level [] = Except.ok [] from rfl] at hok
        exact (Except.ok.inj hok).symm
      subst hlv
      exact assemble_empty B level
    | h :: hs => exact absurd hok (by simp [buildLevels])
  | succ fuel ih =>
    intro level hashes levels hok
    match hashes with
    | [] =>
      have hlv : levels = [] := by
        rw [show buildLevels B S lsize (fuel + 1) level [] = Except.ok [] from rfl] at hok
        exact (Except.ok.inj hok).symm
      subst hlv
      exact assemble_empty B level
    | h0 :: hs =>
      obtain ⟨rest, hlv, hrest⟩ := buildLevels_ok_cons B S lsize fuel level h0 hs levels hok
      subst hlv
      obtain ⟨IH1, IH2, IH3, IH4⟩ :=
        ih (level + 1) (build_level B S lsize level (h0 :: hs)).2.2 rest hrest
      set bl := build_level B S lsize level (h0 :: hs) with hbl
      set gs := level_size_groups_segments B (lsize (h0 :: hs).length) with hgs
      have hGL : bl.2.1.length = gs.1 :=
        build_level_seeds_length B S lsize level (h0 :: hs) hB hB64
      have hBL : bl.1.length = gs.2 := build_level_bits_length B S lsize level (h0 :: hs)
      have hGB : gs.1 * B = 64 * gs.2 := groups_mul_B B _ hB
      have hgpos : 0 < gs.1 := groups_pos B _ hB (hlsize _ (by simp))
      have hbitsCons : bitsOf ((bl.1, bl.2.1) :: rest) = bl.1 ++ bitsOf rest := rfl
      have hseedsCons : seedsOf ((bl.1, bl.2.1) :: rest) = bl.2.1 ++ seedsOf rest := rfl
      have hlgCons : lgroupsOf ((bl.1, bl.2.1) :: rest) = bl.2.1.length :: lgroupsOf rest :=
        rfl
      have hLB : ∀ h', levelBit B ((bl.1, bl.2.1) :: rest) level h' =
          if bitGet bl.1 (probeOwn B S lsize level (h0 :: hs) h') then
            some (probeOwn B S lsize level (h0 :: hs) h')
          else (levelBit B rest (level + 1) h').map (fun b => 64 * bl.1.length + b) := by
        intro h'
        simp only [levelBit]
        rw [hGL]
        rfl
      have hpoLt : ∀ h', bitGet bl.1 (probeOwn B S lsize level (h0 :: hs) h') = true →
          probeOwn B S lsize level (h0 :: hs) h' < 64 * bl.1.length := fun h' hp =>
        bitGet_lt_of_true _ _ hp
      have hglobal : ∀ (preB preS : List Nat) (h' : Nat),
          preB.length * 64 = preS.length * B →
          bit_index_for_seed B (hash_with_seed h' level)
            ((preS ++ seedsOf ((bl.1, bl.2.1) :: rest)).getD
              (preS.length + groupOf gs.1 (hash_with_seed h' level)) 0)
            (preS.length + groupOf gs.1 (hash_with_seed h' level)) =
          64 * preB.length + probeOwn B S lsize level (h0 :: hs) h' := by
        intro preB preS h' hdisc
        have hg : groupOf gs.1 (hash_with_seed h' level) < gs.1 := groupOf_lt _ _ hgpos
        have hseeds : (preS ++ seedsOf ((bl.1, bl.2.1) :: rest)).getD
            (preS.length + groupOf gs.1 (hash_with_seed h' level)) 0 =
            bl.2.1.getD (groupOf gs.1 (hash_with_seed h' level)) 0 := by
          rw [hseedsCons]
          exact seeds_lookup _ _ _ _ (by rw [hGL]; exact hg)
        rw [hseeds, bit_index_offset]
        have hpo : bit_index_for_seed B (hash_with_seed h' level)
            (bl.2.1.getD (groupOf gs.1 (hash_with_seed h' level)) 0)
            (groupOf gs.1 (hash_with_seed h' level)) =
            probeOwn B S lsize level (h0 :: hs) h' := rfl
        rw [hpo, show preS.length * B = 64 * preB.length from by omega]
      have hretained : ∀ h', h' ∈ (h0 :: hs) →
          bitGet bl.1 (probeOwn B S lsize level (h0 :: hs) h') = false →
          h' ∈ bl.2.2 := by
        intro h' hm hp
        exact (mem_retained_iff B S lsize level (h0 :: hs) h').mpr ⟨hm, hp⟩
      refine ⟨?_, ?_, ?_, ?_⟩
      · -- placement
        intro h hm
        rw [hLB h]
        by_cases hp : bitGet bl.1 (probeOwn B S lsize level (h0 :: hs) h)
        · rw [if_pos hp]
          exact ⟨_, rfl⟩
        · rw [if_neg hp]
          have hpf : bitGet bl.1 (probeOwn B S lsize level (h0 :: hs) h) = false := by
            simpa using hp
          obtain ⟨b, hb⟩ := IH1 h (hretained h hm hpf)
          exact ⟨64 * bl.1.length + b, by rw [hb]; rfl⟩
      · -- correctness of the placed bit and get replay
        intro h hm b hlb
        rw [hLB h] at hlb
        by_cases hp : bitGet bl.1 (probeOwn B S lsize level (h0 :: hs) h)
        · rw [if_pos hp] at hlb
          have hbeq : probeOwn B S lsize level (h0 :: hs) h = b := Option.some.inj hlb
          subst hbeq
          have hlt : probeOwn B S lsize level (h0 :: hs) h < 64 * bl.1.length := hpoLt h hp
          refine ⟨?_, ?_, ?_⟩
          · rw [hbitsCons, List.length_append]
            omega
          · rw [hbitsCons, bitGet_append_left _ _ _ hlt]
            exact hp
          · intro preB preS hdisc
            rw [hlgCons, getLoop_cons]
            rw [show groupOf bl.2.1.length (hash_with_seed h level) =
              groupOf gs.1 (hash_with_seed h level) from by rw [hGL]]
            rw [hglobal preB preS h hdisc]
            rw [rankedBits_get_new]
            have hfull : bitGet (preB ++ bitsOf ((bl.1, bl.2.1) :: rest))
                (64 * preB.length + probeOwn B S lsize level (h0 :: hs) h) =
                bitGet bl.1 (probeOwn B S lsize level (h0 :: hs) h) := by
              rw [hbitsCons, bitGet_append_right, bitGet_append_left _ _ _ hlt]
            rw [hfull, if_pos hp, rankedBits_rankRaw_new]
        · rw [if_neg hp] at hlb
          have hpf : bitGet bl.1 (probeOwn B S lsize level (h0 :: hs) h) = false := by
            simpa using hp
          obtain ⟨b', hb', hbeq⟩ := Option.map_eq_some'.mp hlb
          subst hbeq
          have hret := hretained h hm hpf
          obtain ⟨ih_lt, ih_bit, ih_loop⟩ := IH2 h hret b' hb'
          refine ⟨?_, ?_, ?_⟩
          · rw [hbitsCons, List.length_append]
            omega
          · rw [hbitsCons, bitGet_append_right]
            exact ih_bit
          · intro preB preS hdisc
            rw [hlgCons, getLoop_cons]
            rw [show groupOf bl.2.1.length (hash_with_seed h level) =
              groupOf gs.1 (hash_with_seed h level) from by rw [hGL]]
            rw [hglobal preB preS h hdisc]
            rw [rankedBits_get_new]
            have hpoLt2 : probeOwn B S lsize level (h0 :: hs) h < 64 * bl.1.length := by
              have hwin := probeBit_window B gs.1 level
                (bl.2.1.getD (groupOf gs.1 (hash_with_seed h level)) 0) h hB
              have hg : groupOf gs.1 (hash_with_seed h level) < gs.1 := groupOf_lt _ _ hgpos
              have : probeOwn B S lsize level (h0 :: hs) h < gs.1 * B := by
                have h2 := hwin.2
                calc probeOwn B S lsize level (h0 :: hs) h
                    < (groupOf gs.1 (hash_with_seed h level) + 1) * B := h2
                  _ ≤ gs.1 * B := Nat.mul_le_mul_right _ hg
              rw [hBL]
              omega
            have hfull : bitGet (preB ++ bitsOf ((bl.1, bl.2.1) :: rest))
                (64 * preB.length + probeOwn B S lsize level (h0 :: hs) h) =
                bitGet bl.1 (probeOwn B S lsize level (h0 :: hs) h) := by
              rw [hbitsCons, bitGet_append_right, bitGet_append_left _ _ _ hpoLt2]
            rw [hfull, hpf, if_neg (by simp)]
            have hdisc' : (preB ++ bl.1).length * 64 = (preS ++ bl.2.1).length * B := by
              rw [List.length_append, List.length_append, Nat.add_mul, Nat.add_mul,
                hGL, hBL]
              have hc : gs.2 * 64 = gs.1 * B := by omega
              omega
            have hrec := ih_loop (preB ++ bl.1) (preS ++ bl.2.1) hdisc'
            rw [List.append_assoc, List.append_assoc] at hrec
            rw [← hbitsCons, ← hseedsCons] at hrec
            rw [show (preS ++ bl.2.1).length = preS.length + bl.2.1.length from
              List.length_append _ _] at hrec
            rw [show (preB ++ bl.1).length = preB.length + bl.1.length from
              List.length_append _ _] at hrec
            rw [show 64 * (preB.length + bl.1.length) + b' =
              64 * preB.length + (64 * bl.1.length + b') from by omega] at hrec
            exact hrec
      · -- injectivity
        intro h1 hm1 h2 hm2 hne b1 b2 hb1 hb2
        rw [hLB h1] at hb1
        rw [hLB h2] at hb2
        by_cases hp1 : bitGet bl.1 (probeOwn B S lsize level (h0 :: hs) h1) <;>
          by_cases hp2 : bitGet bl.1 (probeOwn B S lsize level (h0 :: hs) h2)
        · rw [if_pos hp1] at hb1
          rw [if_pos hp2] at hb2
          have e1 := Option.some.inj hb1
          have e2 := Option.some.inj hb2
          rw [← e1, ← e2]
          exact build_level_inj B S lsize level (h0 :: hs) hB hB64 h1 h2 hm1 hm2 hne hp1
        · rw [if_pos hp1] at hb1
          rw [if_neg hp2] at hb2
          obtain ⟨b2', hb2', hbeq2⟩ := Option.map_eq_some'.mp hb2
          have e1 := Option.some.inj hb1
          have hlt1 : b1 < 64 * bl.1.length := by
            rw [← e1]
            exact hpoLt h1 hp1
          omega
        · rw [if_neg hp1] at hb1
          rw [if_pos hp2] at hb2
          obtain ⟨b1', hb1', hbeq1⟩ := Option.map_eq_some'.mp hb1
          have e2 := Option.some.inj hb2
          have hlt2 : b2 < 64 * bl.1.length := by
            rw [← e2]
            exact hpoLt h2 hp2
          omega
        · rw [if_neg hp1] at hb1
          rw [if_neg hp2] at hb2
          obtain ⟨b1', hb1', hbeq1⟩ := Option.map_eq_some'.mp hb1
          obtain ⟨b2', hb2', hbeq2⟩ := Option.map_eq_some'.mp hb2
          have hpf1 : bitGet bl.1 (probeOwn B S lsize level (h0 :: hs) h1) = false := by
            simpa using hp1
          have hpf2 : bitGet bl.1 (probeOwn B S lsize level (h0 :: hs) h2) = false := by
            simpa using hp2
          have hne' := IH3 h1 (hretained h1 hm1 hpf1) h2 (hretained h2 hm2 hpf2) hne
            b1' b2' hb1' hb2'
          omega
      · -- surjectivity
        intro b hbit
        rw [hbitsCons] at hbit
        by_cases hlt : b < 64 * bl.1.length
        · rw [bitGet_append_left _ _ _ hlt] at hbit
          obtain ⟨h, hm, hpo⟩ := build_level_surj B S lsize level (h0 :: hs) hB hB64 b hbit
          refine ⟨h, hm, ?_⟩
          rw [hLB h, hpo, if_pos hbit]
        · have hb' : b = 64 * bl.1.length + (b - 64 * bl.1.length) := by omega
          rw [hb', bitGet_append_right] at hbit
          obtain ⟨h, hret, hlbRest⟩ := IH4 _ hbit
          have hmem : h ∈ (h0 :: hs) :=
            ((mem_retained_iff B S lsize level (h0 :: hs) h).mp hret).1
          have hnotp : bitGet bl.1 (probeOwn B S lsize level (h0 :: hs) h) = false :=
            ((mem_retained_iff B S lsize level (h0 :: hs) h).mp hret).2
          refine ⟨h, hmem, ?_⟩
          rw [hLB h, if_neg (by simp [hnotp]), hlbRest]
          simp only [Option.map_some']
          rw [show (64 * bl.1.length + (b - 64 * bl.1.length)) = b from by omega]

theorem countP_range_succ (p : Nat → Bool) (n : Nat) :
    (List.range (n + 1)).countP p = (List.range n).countP p + (if p n then 1 else 0) := by
  rw [List.range_succ, List.countP_append]
  congr 1
  rw [List.countP_cons]
  simp

theorem countP_range_mono (p : Nat → Bool) (m n : Nat) (h : m ≤ n) :
    (List.range m).countP p ≤ (List.range n).countP p := by
  have he : n = m + (n - m) := by omega
  rw [he, List.range_add, List.countP_append]
  omega

theorem bitsBefore_succ_set (W : List Nat) (b : Nat) :
    bitsBefore W (b + 1) = bitsBefore W b + (if bitGet W b then 1 else 0) := by
  unfold bitsBefore
  exact countP_range_succ _ b

theorem bitsBefore_mono (W : List Nat) (m n : Nat) (h : m ≤ n) :
    bitsBefore W m ≤ bitsBefore W n := countP_range_mono _ m n h

theorem bitsBefore_lt_pop (W : List Nat) (b : Nat) (hb : bitGet W b = true) :
    bitsBefore W b < (List.range (64 * W.length)).countP (fun i => bitGet W i) := by
  have hlt : b < 64 * W.length := bitGet_lt_of_true W b hb
  have h1 : bitsBefore W b + 1 ≤ bitsBefore W (b + 1) := by
    rw [bitsBefore_succ_set, hb]
    simp
  have h2 : bitsBefore W (b + 1) ≤ bitsBefore W (64 * W.length) :=
    bitsBefore_mono _ _ _ (by omega)
  have h3 : bitsBefore W (64 * W.length) =
      (List.range (64 * W.length)).countP (fun i => bitGet W i) := rfl
  omega

theorem bitsBefore_lt_of_lt_set (W : List Nat) (b1 b2 : Nat) (hs1 : bitGet W b1 = true)
    (hlt : b1 < b2) : bitsBefore W b1 < bitsBefore W b2 := by
  have h1 : bitsBefore W b1 + 1 ≤ bitsBefore W (b1 + 1) := by
    rw [bitsBefore_succ_set, hs1]
    simp
  have h2 := bitsBefore_mono W (b1 + 1) b2 (by omega)
  omega

theorem bitsBefore_inj_set (W : List Nat) (b1 b2 : Nat) (hs1 : bitGet W b1 = true)
    (hs2 : bitGet W b2 = true) (hne : b1 ≠ b2) :
    bitsBefore W b1 ≠ bitsBefore W b2 := by
  rcases Nat.lt_or_ge b1 b2 with h | h
  · exact Nat.ne_of_lt (bitsBefore_lt_of_lt_set W b1 b2 hs1 h)
  · exact (Nat.ne_of_lt (bitsBefore_lt_of_lt_set W b2 b1 hs2 (by omega))).symm

theorem ok_nodup (B S : Nat) (lsize : Nat → Nat) (hB : 0 < B) (hB64 : B ≤ 64)
    (hashes : List Nat) (levels : List (List Nat × List Nat))
    (hok : buildLevels B S lsize MAX_LEVELS 0 hashes = .ok levels) : hashes.Nodup := by
  by_contra hnd
  rw [List.nodup_iff_count_le_one] at hnd
  push_neg at hnd
  obtain ⟨x, hx⟩ := hnd
  have hcnt : 2 ≤ hashes.count x := hx
  have hrem := remainingAfter_dup B S lsize hashes 0 x hB hB64 hcnt MAX_LEVELS
  have hne : remainingAfter B S lsize hashes 0 MAX_LEVELS ≠ [] := by
    intro hc
    rw [hc] at hrem
    simp at hrem
  have herr := (buildLevels_error_iff B S lsize MAX_LEVELS 0 hashes
    .MaxLevelsExceeded).mpr ⟨rfl, hne⟩
  rw [hok] at herr
  exact absurd herr (by simp)

theorem popcount_eq_card (B S : Nat) (lsize : Nat → Nat) (hB : 0 < B) (hB64 : B ≤ 64)
    (hlsize : ∀ n, 0 < n → 0 < lsize n)
    (hashes : List Nat) (levels : List (List Nat × List Nat)) (hnd : hashes.Nodup)
    (hok : buildLevels B S lsize MAX_LEVELS 0 hashes = .ok levels) :
    (List.range (64 * (bitsOf levels).length)).countP (fun i => bitGet (bitsOf levels) i) =
      hashes.length := by
  obtain ⟨A1, A2, A3, A4⟩ := levels_assemble B S lsize hB hB64 hlsize MAX_LEVELS 0
    hashes levels hok
  have hperm : ((List.range (64 * (bitsOf levels).length)).filter
      (fun i => bitGet (bitsOf levels) i)).Perm
      (hashes.map (fun h => (levelBit B levels 0 h).getD 0)) := by
    rw [List.perm_ext_iff_of_nodup ((List.nodup_range _).filter _) ?nodupImg]
    case nodupImg =>
      apply List.Nodup.map_on ?_ hnd
      intro h1 hm1 h2 hm2 hfe
      by_contra hne
      obtain ⟨b1, hb1⟩ := A1 h1 hm1
      obtain ⟨b2, hb2⟩ := A1 h2 hm2
      have hne' := A3 h1 hm1 h2 hm2 hne b1 b2 hb1 hb2
      rw [hb1, hb2] at hfe
      simp at hfe
      exact hne' hfe
    intro x
    constructor
    · intro hx
      obtain ⟨hxr, hxb⟩ := List.mem_filter.mp hx
      obtain ⟨h, hm, hlb⟩ := A4 x hxb
      exact List.mem_map.mpr ⟨h, hm, by rw [hlb]; rfl⟩
    · intro hx
      obtain ⟨h, hm, hfx⟩ := List.mem_map.mp hx
      obtain ⟨b, hb⟩ := A1 h hm
      rw [hb] at hfx
      have hxb : x = b := by simpa using hfx.symm
      subst hxb
      obtain ⟨hblt, hbset, -⟩ := A2 h hm x hb
      exact List.mem_filter.mpr ⟨List.mem_range.mpr hblt, hbset⟩
  rw [List.countP_eq_length_filter, hperm.length_eq, List.length_map]

/-- C1: for a list of distinct keys and valid parameters (with the abstracted
`f32` level-size function positive on positive sizes, as `gamma >= 1` makes
it), `Mphf::from_slice` either fails with `MaxLevelsExceeded` or returns an
MPHF whose `get` values over the key list are exactly a permutation of
`some 0 .. some (n-1)`: every key is mapped, no index repeats, none is `>= n`. -/
theorem from_slice_ok_inv {K : Type} (B S stMax : Nat) (gamma : ℚ) (lsize : Nat → Nat)
    (hashKey : K → Nat) (keys : List K) (m : Mphf)
    (hok : from_slice B S stMax gamma lsize hashKey keys = .ok m) :
    1 ≤ B ∧ B ≤ 64 ∧ ∃ levels,
      buildLevels B S lsize MAX_LEVELS 0 (keys.map hashKey) = .ok levels ∧
      m = mphfOfLevels levels := by
  unfold from_slice at hok
  by_cases c1 : B < 1 ∨ B > 64
  · rw [if_pos c1] at hok
    exact absurd hok (by simp)
  · rw [if_neg c1] at hok
    by_cases c2 : S > 16
    · rw [if_pos c2] at hok
      exact absurd hok (by simp)
    · rw [if_neg c2] at hok
      by_cases c3 : gamma < 1
      · rw [if_pos c3] at hok
        exact absurd hok (by simp)
      · rw [if_neg c3] at hok
        by_cases c4 : 2 ^ S - 1 > stMax
        · rw [if_pos c4] at hok
          exact absurd hok (by simp)
        · rw [if_neg c4] at hok
          refine ⟨by omega, by omega, ?_⟩
          cases hbl : buildLevels B S lsize MAX_LEVELS 0 (keys.map hashKey) with
          | ok levels =>
            rw [hbl] at hok
            exact ⟨levels, rfl, by simpa [Except.map] using hok.symm⟩
          | error e =>
            rw [hbl] at hok
            simp [Except.map] at hok

theorem mphf_perm {K : Type} (B S stMax : Nat) (gamma : ℚ) (lsize : Nat → Nat)
    (hashKey : K → Nat) (keys : List K) (m : Mphf)
    (hlsize : ∀ n, 0 < n → 0 < lsize n)
    (hok : from_slice B S stMax gamma lsize hashKey keys = .ok m) :
    (keys.map (fun k => Mphf.get B m hashKey k)).Perm
      ((List.range keys.length).map some) := by
  obtain ⟨hB1, hB64, levels, hbl, hm⟩ :=
    from_slice_ok_inv B S stMax gamma lsize hashKey keys m hok
  subst hm
  have hB : 0 < B := by omega
  have hnd : (keys.map hashKey).Nodup :=
    ok_nodup B S lsize hB hB64 (keys.map hashKey) levels hbl
  obtain ⟨A1, A2, A3, A4⟩ := levels_assemble B S lsize hB hB64 hlsize MAX_LEVELS 0
    (keys.map hashKey) levels hbl
  have hpop := popcount_eq_card B S lsize hB hB64 hlsize (keys.map hashKey) levels hnd hbl
  have hget : ∀ h ∈ keys.map hashKey, ∀ b, levelBit B levels 0 h = some b →
      getLoop B (RankedBits.new (bitsOf levels)) (seedsOf levels) h
        (lgroupsOf levels) 0 0 = some (bitsBefore (bitsOf levels) b) := by
    intro h hm b hb
    have hc := (A2 h hm b hb).2.2 [] [] (by simp)
    simpa using hc
  have hmg : ∀ k : K, Mphf.get B (mphfOfLevels levels) hashKey k =
      getLoop B (RankedBits.new (bitsOf levels)) (seedsOf levels) (hashKey k)
        (lgroupsOf levels) 0 0 := fun k => rfl
  have hmap : keys.map (fun k => Mphf.get B (mphfOfLevels levels) hashKey k) =
      (keys.map hashKey).map (fun h =>
        getLoop B (RankedBits.new (bitsOf levels)) (seedsOf levels) h
          (lgroupsOf levels) 0 0) := by
    rw [List.map_map]
    exact List.map_congr_left (fun k _ => hmg k)
  rw [hmap]
  have hlen : ((List.range keys.length).map some).length = keys.length := by simp
  apply List.Subperm.perm_of_length_le
  · apply List.subperm_of_subset
    · apply List.Nodup.map_on ?_ hnd
      intro h1 hm1 h2 hm2 hfe
      by_contra hne
      obtain ⟨b1, hb1⟩ := A1 h1 hm1
      obtain ⟨b2, hb2⟩ := A1 h2 hm2
      rw [hget h1 hm1 b1 hb1, hget h2 hm2 b2 hb2] at hfe
      have hbb := Option.some.inj hfe
      exact bitsBefore_inj_set (bitsOf levels) b1 b2 (A2 h1 hm1 b1 hb1).2.1
        (A2 h2 hm2 b2 hb2).2.1 (A3 h1 hm1 h2 hm2 hne b1 b2 hb1 hb2) hbb
    · intro x hx
      obtain ⟨h, hm, hfx⟩ := List.mem_map.mp hx
      obtain ⟨b, hb⟩ := A1 h hm
      rw [hget h hm b hb] at hfx
      apply List.mem_map.mpr
      refine ⟨bitsBefore (bitsOf levels) b, List.mem_range.mpr ?_, hfx⟩
      have hbnd := bitsBefore_lt_pop (bitsOf levels) b (A2 h hm b hb).2.1
      rw [hpop, List.length_map] at hbnd
      exact hbnd
  · rw [hlen, List.length_map, List.length_map]

theorem C1_mphf_bijection {K : Type} (B S stMax : Nat) (gamma : ℚ) (lsize : Nat → Nat)
    (hashKey : K → Nat) (keys : List K) (hkeys : keys.Nodup)
    (hB1 : 1 ≤ B) (hB64 : B ≤ 64) (hS : S ≤ 16) (hg : 1 ≤ gamma)
    (hst : 2 ^ S - 1 ≤ stMax) (hlsize : ∀ n, 0 < n → 0 < lsize n) :
    from_slice B S stMax gamma lsize hashKey keys = .error .MaxLevelsExceeded ∨
    ∃ m, from_slice B S stMax gamma lsize hashKey keys = .ok m ∧
      (keys.map (fun k => Mphf.get B m hashKey k)).Perm
        ((List.range keys.length).map some) := by
  cases hbl : buildLevels B S lsize MAX_LEVELS 0 (keys.map hashKey) with
  | error e =>
    left
    rw [from_slice_valid B S stMax gamma lsize hashKey keys hB1 hB64 hS hg hst, hbl]
    have he := ((buildLevels_error_iff B S lsize MAX_LEVELS 0 (keys.map hashKey) e).mp
      hbl).1
    subst he
    simp [Except.map]
  | ok levels =>
    right
    have hok : from_slice B S stMax gamma lsize hashKey keys = .ok (mphfOfLevels levels) := by
      rw [from_slice_valid B S stMax gamma lsize hashKey keys hB1 hB64 hS hg hst, hbl]
      simp [Except.map]
    exact ⟨mphfOfLevels levels, hok,
      mphf_perm B S stMax gamma lsize hashKey keys _ hlsize hok⟩

theorem C1_mphf_bijection_witness :
    ([(1 : Nat), 2, 3].Nodup ∧ 1 ≤ 32 ∧ 32 ≤ 64 ∧ 1 ≤ 16 ∧ (1 : ℚ) ≤ 2 ∧
      2 ^ 1 - 1 ≤ 2 ^ 16 - 1 ∧ (∀ n : Nat, 0 < n → 0 < 2 * n)) ∧
    (from_slice 32 1 (2 ^ 16 - 1) (2 : ℚ) (fun m => 2 * m) (fun k : Nat => k) [1, 2, 3] =
        .error .MaxLevelsExceeded ∨
      ∃ m, from_slice 32 1 (2 ^ 16 - 1) (2 : ℚ) (fun m => 2 * m)
          (fun k : Nat => k) [1, 2, 3] = .ok m ∧
        ([(1 : Nat), 2, 3].map (fun k => Mphf.get 32 m (fun k : Nat => k) k)).Perm
          ((List.range ([(1 : Nat), 2, 3].length)).map some)) :=
  ⟨⟨by decide, by decide, by decide, by decide, by norm_num, by decide,
      fun n hn => by omega⟩,
    C1_mphf_bijection 32 1 (2 ^ 16 - 1) (2 : ℚ) (fun m => 2 * m) (fun k : Nat => k)
      [1, 2, 3] (by decide) (by decide) (by decide) (by decide) (by norm_num) (by decide)
      (fun n hn => by show 0 < 2 * n; omega)⟩

/-! ### C5: range of `get` and in-bounds container accesses -/

theorem getLoop_some (B : Nat) (rb : RankedBits) (seeds : List Nat) (kh : Nat) :
    ∀ (lg : List Nat) (level gb r : Nat),
      getLoop B rb seeds kh lg level gb = some r →
      ∃ bit, rb.get bit = true ∧ r = rb.rankRaw bit := by
  intro lg
  induction lg with
  | nil =>
    intro level gb r h
    exact absurd h (by simp [getLoop])
  | cons g rest ih =>
    intro level gb r h
    rw [getLoop_cons] at h
    split at h
    case isTrue hbit => exact ⟨_, hbit, (Option.some.inj h).symm⟩
    case isFalse => exact ih _ _ _ h

theorem mphf_get_bound {K : Type} (B S stMax : Nat) (gamma : ℚ) (lsize : Nat → Nat)
    (hashKey : K → Nat) (keys : List K) (m : Mphf)
    (hlsize : ∀ n, 0 < n → 0 < lsize n)
    (hok : from_slice B S stMax gamma lsize hashKey keys = .ok m) :
    ∀ key : K, Mphf.get B m hashKey key = none ∨
      ∃ idx, Mphf.get B m hashKey key = some idx ∧ idx < keys.length := by
  obtain ⟨hB1, hB64, levels, hbl, hm⟩ :=
    from_slice_ok_inv B S stMax gamma lsize hashKey keys m hok
  subst hm
  intro key
  cases hres : Mphf.get B (mphfOfLevels levels) hashKey key with
  | none => exact Or.inl rfl
  | some r =>
    right
    refine ⟨r, rfl, ?_⟩
    have hloop : getLoop B (RankedBits.new (bitsOf levels)) (seedsOf levels) (hashKey key)
        (lgroupsOf levels) 0 0 = some r := hres
    obtain ⟨bit, hbit, hr⟩ := getLoop_some B _ _ _ _ _ _ _ hloop
    have hnd := ok_nodup B S lsize (by omega) hB64 (keys.map hashKey) levels hbl
    have hpop := popcount_eq_card B S lsize (by omega) hB64 hlsize (keys.map hashKey)
      levels hnd hbl
    rw [rankedBits_get_new] at hbit
    have hlt := bitsBefore_lt_pop (bitsOf levels) bit hbit
    rw [hpop, List.length_map] at hlt
    rw [hr, rankedBits_rankRaw_new]
    exact hlt

theorem forall₂_exists_of_mem {α β : Type} (R : α → β → Prop) (l1 : List α) (l2 : List β)
    (h : List.Forall₂ R l1 l2) : ∀ x ∈ l1, ∃ y, R x y := by
  induction h with
  | nil => intro x hx; exact absurd hx (List.not_mem_nil x)
  | cons hr _ ih =>
    intro x hx
    rcases List.mem_cons.mp hx with rfl | hx'
    · exact ⟨_, hr⟩
    · exact ih x hx'

theorem dedupFold_inv {K V : Type} [DecidableEq V] :
    ∀ (pairs : List (K × V)) (ks : List K) (offs : List Nat) (dict : List V)
      (vals : List V),
      List.Forall₂ (fun (o : Nat) (v : V) => dict[o]? = some v) offs vals →
      (pairs.foldl (fun st kv =>
          (st.1 ++ [kv.1], st.2.1 ++ [st.2.2.findIdx (fun x => decide (x = kv.2))],
           if kv.2 ∈ st.2.2 then st.2.2 else st.2.2 ++ [kv.2])) (ks, offs, dict)).1 =
        ks ++ pairs.map Prod.fst ∧
      (∃ ext, (pairs.foldl (fun st kv =>
          (st.1 ++ [kv.1], st.2.1 ++ [st.2.2.findIdx (fun x => decide (x = kv.2))],
           if kv.2 ∈ st.2.2 then st.2.2 else st.2.2 ++ [kv.2])) (ks, offs, dict)).2.2 =
        dict ++ ext) ∧
      List.Forall₂ (fun (o : Nat) (v : V) =>
          (pairs.foldl (fun st kv =>
            (st.1 ++ [kv.1], st.2.1 ++ [st.2.2.findIdx (fun x => decide (x = kv.2))],
             if kv.2 ∈ st.2.2 then st.2.2 else st.2.2 ++ [kv.2])) (ks, offs, dict)).2.2[o]? =
          some v)
        (pairs.foldl (fun st kv =>
          (st.1 ++ [kv.1], st.2.1 ++ [st.2.2.findIdx (fun x => decide (x = kv.2))],
           if kv.2 ∈ st.2.2 then st.2.2 else st.2.2 ++ [kv.2])) (ks, offs, dict)).2.1
        (vals ++ pairs.map Prod.snd) := by
  intro pairs
  induction pairs with
  | nil =>
    intro ks offs dict vals hf
    refine ⟨by simp, ⟨[], by simp⟩, by simpa using hf⟩
  | cons kv rest ih =>
    intro ks offs dict vals hf
    rw [List.foldl_cons]
    by_cases hmem : kv.2 ∈ dict
    · have hstep : (ks ++ [kv.1], offs ++ [dict.findIdx (fun x => decide (x = kv.2))],
          if kv.2 ∈ dict then dict else dict ++ [kv.2]) =
          (ks ++ [kv.1], offs ++ [dict.findIdx (fun x => decide (x = kv.2))], dict) := by
        rw [if_pos hmem]
      rw [hstep]
      have hflt : dict.findIdx (fun x => decide (x = kv.2)) < dict.length :=
        List.findIdx_lt_length_of_exists ⟨kv.2, hmem, by simp⟩
      have hrel : dict[dict.findIdx (fun x => decide (x = kv.2))]? = some kv.2 := by
        rw [List.getElem?_eq_getElem hflt]
        have hp := List.findIdx_getElem (w := hflt) (p := fun x => decide (x = kv.2))
        simp only [decide_eq_true_eq] at hp
        rw [hp]
      have hf' : List.Forall₂ (fun (o : Nat) (v : V) => dict[o]? = some v)
          (offs ++ [dict.findIdx (fun x => decide (x = kv.2))]) (vals ++ [kv.2]) :=
        List.rel_append hf (List.Forall₂.cons hrel List.Forall₂.nil)
      obtain ⟨c1, c2, c3⟩ := ih (ks ++ [kv.1]) _ dict (vals ++ [kv.2]) hf'
      refine ⟨?_, c2, ?_⟩
      · rw [List.map_cons,
          show ks ++ kv.1 :: rest.map Prod.fst = (ks ++ [kv.1]) ++ rest.map Prod.fst
            from by simp]
        exact c1
      · rw [List.map_cons,
          show vals ++ kv.2 :: rest.map Prod.snd = (vals ++ [kv.2]) ++ rest.map Prod.snd
            from by simp]
        exact c3
    · have hstep : (ks ++ [kv.1], offs ++ [dict.findIdx (fun x => decide (x = kv.2))],
          if kv.2 ∈ dict then dict else dict ++ [kv.2]) =
          (ks ++ [kv.1], offs ++ [dict.length], dict ++ [kv.2]) := by
        rw [if_neg hmem, List.findIdx_eq_length_of_false]
        intro x hx
        simp only [decide_eq_false_iff_not]
        intro he
        exact hmem (he ▸ hx)
      rw [hstep]
      have hrel : (dict ++ [kv.2])[dict.length]? = some kv.2 := by
        rw [List.getElem?_append_right (le_refl _)]
        simp
      have hf' : List.Forall₂ (fun (o : Nat) (v : V) => (dict ++ [kv.2])[o]? = some v)
          (offs ++ [dict.length]) (vals ++ [kv.2]) := by
        refine List.rel_append ?_ (List.Forall₂.cons hrel List.Forall₂.nil)
        apply List.Forall₂.imp ?_ hf
        intro o v h
        have hlt : o < dict.length := by
          by_contra hc
          rw [List.getElem?_eq_none (le_of_not_lt hc)] at h
          exact absurd h (by simp)
        rw [List.getElem?_append_left hlt]
        exact h
      obtain ⟨c1, c2, c3⟩ := ih (ks ++ [kv.1]) _ (dict ++ [kv.2]) (vals ++ [kv.2]) hf'
      obtain ⟨ext, hext⟩ := c2
      refine ⟨?_, ⟨[kv.2] ++ ext, by rw [hext, List.append_assoc]⟩, ?_⟩
      · rw [List.map_cons,
          show ks ++ kv.1 :: rest.map Prod.fst = (ks ++ [kv.1]) ++ rest.map Prod.fst
            from by simp]
        exact c1
      · rw [List.map_cons,
          show vals ++ kv.2 :: rest.map Prod.snd = (vals ++ [kv.2]) ++ rest.map Prod.snd
            from by simp]
        exact c3

theorem dedupValues_inv {K V : Type} [DecidableEq V] (pairs : List (K × V)) :
    (dedupValues pairs).1 = pairs.map Prod.fst ∧
    List.Forall₂ (fun (o : Nat) (v : V) => (dedupValues pairs).2.2[o]? = some v)
      (dedupValues pairs).2.1 (pairs.map Prod.snd) := by
  obtain ⟨c1, _, c3⟩ := dedupFold_inv pairs [] [] [] [] List.Forall₂.nil
  exact ⟨by simpa using c1, by simpa using c3⟩

theorem dedupValues_offsets_lt {K V : Type} [DecidableEq V] (pairs : List (K × V)) :
    ∀ x ∈ (dedupValues pairs).2.1, x < (dedupValues pairs).2.2.length := by
  intro x hx
  obtain ⟨v, hv⟩ := forall₂_exists_of_mem _ _ _ (dedupValues_inv pairs).2 x hx
  by_contra hc
  rw [List.getElem?_eq_none (le_of_not_lt hc)] at hv
  exact absurd hv (by simp)

theorem listSwap_length {α : Type} (l : List α) (i j : Nat) :
    (listSwap l i j).length = l.length := by
  unfold listSwap
  cases h1 : l[i]? <;> cases h2 : l[j]? <;> simp

theorem listSwap_mem {α : Type} (l : List α) (i j : Nat) (y : α)
    (hy : y ∈ listSwap l i j) : y ∈ l := by
  unfold listSwap at hy
  cases h1 : l[i]? with
  | none => rw [h1] at hy; exact hy
  | some a =>
    cases h2 : l[j]? with
    | none => rw [h1, h2] at hy; exact hy
    | some b =>
      rw [h1, h2] at hy
      rcases List.mem_or_eq_of_mem_set hy with hy' | rfl
      · rcases List.mem_or_eq_of_mem_set hy' with hy'' | rfl
        · exact hy''
        · exact List.getElem?_mem h2
      · exact List.getElem?_mem h1

theorem cycleInner_succ {K : Type} (B : Nat) (m : Mphf) (hashKey : K → Nat)
    (i fuel : Nat) (st : List K × List Nat) :
    cycleInner B m hashKey i (fuel + 1) st =
      match st.1[i]? with
      | none => st
      | some k =>
        match m.get B hashKey k with
        | none => st
        | some idx =>
          if idx = i then st
          else cycleInner B m hashKey i fuel (listSwap st.1 i idx, listSwap st.2 i idx) :=
  rfl

theorem cycleInner_eq_none {K : Type} (B : Nat) (m : Mphf) (hashKey : K → Nat)
    (i fuel : Nat) (st : List K × List Nat) (hk : st.1[i]? = none) :
    cycleInner B m hashKey i (fuel + 1) st = st := by
  rw [cycleInner_succ, hk]

theorem cycleInner_eq_noget {K : Type} (B : Nat) (m : Mphf) (hashKey : K → Nat)
    (i fuel : Nat) (st : List K × List Nat) (k : K) (hk : st.1[i]? = some k)
    (hg : m.get B hashKey k = none) :
    cycleInner B m hashKey i (fuel + 1) st = st := by
  rw [cycleInner_succ, hk]
  show (match m.get B hashKey k with
    | none => st
    | some idx =>
      if idx = i then st
      else cycleInner B m hashKey i fuel (listSwap st.1 i idx, listSwap st.2 i idx)) = st
  rw [hg]

theorem cycleInner_eq_fix {K : Type} (B : Nat) (m : Mphf) (hashKey : K → Nat)
    (i fuel : Nat) (st : List K × List Nat) (k : K) (hk : st.1[i]? = some k)
    (hg : m.get B hashKey k = some i) :
    cycleInner B m hashKey i (fuel + 1) st = st := by
  rw [cycleInner_succ, hk]
  show (match m.get B hashKey k with
    | none => st
    | some idx =>
      if idx = i then st
      else cycleInner B m hashKey i fuel (listSwap st.1 i idx, listSwap st.2 i idx)) = st
  rw [hg]
  show (if i = i then st
    else cycleInner B m hashKey i fuel (listSwap st.1 i i, listSwap st.2 i i)) = st
  rw [if_pos rfl]

theorem cycleInner_eq_step {K : Type} (B : Nat) (m : Mphf) (hashKey : K → Nat)
    (i fuel : Nat) (st : List K × List Nat) (k : K) (idx : Nat) (hk : st.1[i]? = some k)
    (hg : m.get B hashKey k = some idx) (hidx : idx ≠ i) :
    cycleInner B m hashKey i (fuel + 1) st =
      cycleInner B m hashKey i fuel (listSwap st.1 i idx, listSwap st.2 i idx) := by
  rw [cycleInner_succ, hk]
  show (match m.get B hashKey k with
    | none => st
    | some idx =>
      if idx = i then st
      else cycleInner B m hashKey i fuel (listSwap st.1 i idx, listSwap st.2 i idx)) = _
  rw [hg]
  show (if idx = i then st
    else cycleInner B m hashKey i fuel (listSwap st.1 i idx, listSwap st.2 i idx)) = _
  rw [if_neg hidx]

theorem cycleInner_inv {K : Type} (B : Nat) (m : Mphf) (hashKey : K → Nat) (i : Nat) :
    ∀ (fuel : Nat) (st : List K × List Nat),
      (cycleInner B m hashKey i fuel st).1.length = st.1.length ∧
      (cycleInner B m hashKey i fuel st).2.length = st.2.length ∧
      (∀ y ∈ (cycleInner B m hashKey i fuel st).1, y ∈ st.1) ∧
      (∀ x ∈ (cycleInner B m hashKey i fuel st).2, x ∈ st.2) := by
  intro fuel
  induction fuel with
  | zero => exact fun st => ⟨rfl, rfl, fun y hy => hy, fun x hx => hx⟩
  | succ fuel ih =>
    intro st
    cases hk : st.1[i]? with
    | none =>
      rw [cycleInner_eq_none B m hashKey i fuel st hk]
      exact ⟨rfl, rfl, fun y hy => hy, fun x hx => hx⟩
    | some k =>
      cases hg : m.get B hashKey k with
      | none =>
        rw [cycleInner_eq_noget B m hashKey i fuel st k hk hg]
        exact ⟨rfl, rfl, fun y hy => hy, fun x hx => hx⟩
      | some idx =>
        by_cases hidx : idx = i
        · rw [hidx] at hg
          rw [cycleInner_eq_fix B m hashKey i fuel st k hk hg]
          exact ⟨rfl, rfl, fun y hy => hy, fun x hx => hx⟩
        · rw [cycleInner_eq_step B m hashKey i fuel st k idx hk hg hidx]
          obtain ⟨l1, l2, m1, m2⟩ := ih (listSwap st.1 i idx, listSwap st.2 i idx)
          refine ⟨by rw [l1]; exact listSwap_length _ _ _,
            by rw [l2]; exact listSwap_length _ _ _, ?_, ?_⟩
          · intro y hy
            exact listSwap_mem _ _ _ _ (m1 y hy)
          · intro x hx
            exact listSwap_mem _ _ _ _ (m2 x hx)

theorem cycleFold_inv {K : Type} (B : Nat) (m : Mphf) (hashKey : K → Nat) (fuel : Nat) :
    ∀ (idxs : List Nat) (st : List K × List Nat),
      (idxs.foldl (fun st i => cycleInner B m hashKey i fuel st) st).1.length =
        st.1.length ∧
      (idxs.foldl (fun st i => cycleInner B m hashKey i fuel st) st).2.length =
        st.2.length ∧
      (∀ y ∈ (idxs.foldl (fun st i => cycleInner B m hashKey i fuel st) st).1,
        y ∈ st.1) ∧
      (∀ x ∈ (idxs.foldl (fun st i => cycleInner B m hashKey i fuel st) st).2,
        x ∈ st.2) := by
  intro idxs
  induction idxs with
  | nil => exact fun st => ⟨rfl, rfl, fun y hy => hy, fun x hx => hx⟩
  | cons i rest ih =>
    intro st
    rw [List.foldl_cons]
    obtain ⟨l1, l2, m1, m2⟩ := ih (cycleInner B m hashKey i fuel st)
    obtain ⟨k1, k2, n1, n2⟩ := cycleInner_inv B m hashKey i fuel st
    exact ⟨by rw [l1, k1], by rw [l2, k2], fun y hy => n1 y (m1 y hy),
      fun x hx => n2 x (m2 x hx)⟩

theorem cycleSort_inv {K : Type} (B : Nat) (m : Mphf) (hashKey : K → Nat)
    (ks : List K) (vi : List Nat) :
    (cycleSort B m hashKey ks vi).1.length = ks.length ∧
    (cycleSort B m hashKey ks vi).2.length = vi.length ∧
    (∀ y ∈ (cycleSort B m hashKey ks vi).1, y ∈ ks) ∧
    (∀ x ∈ (cycleSort B m hashKey ks vi).2, x ∈ vi) := by
  unfold cycleSort
  exact cycleFold_inv B m hashKey (ks.length + 1) (List.range ks.length) (ks, vi)

theorem getD_mem_of_lt {α : Type} (l : List α) (i : Nat) (d : α) (h : i < l.length) :
    l.getD i d ∈ l := by
  rw [List.getD_eq_getElem?_getD, List.getElem?_eq_getElem h]
  simpa using List.getElem_mem h

theorem from_iter_ok_inv {K V : Type} [DecidableEq V] (B S stMax : Nat) (gamma : ℚ)
    (lsize : Nat → Nat) (hashKey : K → Nat) (pairs : List (K × V)) (mp : MapWithDict K V)
    (hok : MapWithDict.from_iter_with_params B S stMax gamma lsize hashKey pairs = .ok mp) :
    ∃ mphf0, from_slice B S stMax gamma lsize hashKey (dedupValues pairs).1 = .ok mphf0 ∧
      mp = ⟨mphf0,
        (cycleSort B mphf0 hashKey (dedupValues pairs).1 (dedupValues pairs).2.1).1,
        (cycleSort B mphf0 hashKey (dedupValues pairs).1 (dedupValues pairs).2.1).2,
        (dedupValues pairs).2.2⟩ := by
  simp only [MapWithDict.from_iter_with_params] at hok
  cases hfs : from_slice B S stMax gamma lsize hashKey (dedupValues pairs).1 with
  | ok m0 =>
    rw [hfs] at hok
    refine ⟨m0, rfl, ?_⟩
    simpa [Except.map] using hok.symm
  | error e =>
    rw [hfs] at hok
    simp [Except.map] at hok

/-- C5: for a successfully constructed MPHF over `n` keys, `get` on any query
key whatsoever returns `None` or `Some idx` with `idx < n`; consequently in a
successfully built dictionary map, every index derived from `mphf.get` is in
bounds for `keys`, `values_index`, and the offset stored in `values_index` is
in bounds for `values_dict`, so the unchecked accesses can never go out of
range. -/
theorem C5_get_in_bounds {K V : Type} [DecidableEq K] [DecidableEq V]
    (B S stMax : Nat) (gamma : ℚ) (lsize : Nat → Nat) (hashKey : K → Nat)
    (hlsize : ∀ n, 0 < n → 0 < lsize n) :
    (∀ (keys : List K) (m : Mphf),
      from_slice B S stMax gamma lsize hashKey keys = .ok m →
      ∀ key : K, Mphf.get B m hashKey key = none ∨
        ∃ idx, Mphf.get B m hashKey key = some idx ∧ idx < keys.length) ∧
    (∀ (pairs : List (K × V)) (mp : MapWithDict K V),
      MapWithDict.from_iter_with_params B S stMax gamma lsize hashKey pairs = .ok mp →
      ∀ key : K, Mphf.get B mp.mphf hashKey key = none ∨
        ∃ idx, Mphf.get B mp.mphf hashKey key = some idx ∧ idx < mp.keys.length ∧
          idx < mp.values_index.length ∧
          mp.values_index.getD idx 0 < mp.values_dict.length) := by
  refine ⟨fun keys m hok =>
    mphf_get_bound B S stMax gamma lsize hashKey keys m hlsize hok, ?_⟩
  intro pairs mp hok key
  obtain ⟨m0, hfs, hmp⟩ := from_iter_ok_inv B S stMax gamma lsize hashKey pairs mp hok
  subst hmp
  rcases mphf_get_bound B S stMax gamma lsize hashKey (dedupValues pairs).1 m0 hlsize hfs
      key with hnone | ⟨idx, hidx, hlt⟩
  · exact Or.inl hnone
  · right
    obtain ⟨cl1, cl2, cm1, cm2⟩ :=
      cycleSort_inv B m0 hashKey (dedupValues pairs).1 (dedupValues pairs).2.1
    obtain ⟨hd1, hd2⟩ := dedupValues_inv pairs
    have hlen21 : (dedupValues pairs).2.1.length = pairs.length := by
      rw [hd2.length_eq]
      simp
    have hlen1 : (dedupValues pairs).1.length = pairs.length := by
      rw [hd1]
      simp
    have hidx2 : idx < (cycleSort B m0 hashKey (dedupValues pairs).1
        (dedupValues pairs).2.1).2.length := by
      rw [cl2]
      omega
    refine ⟨idx, hidx, by rw [cl1]; exact hlt, hidx2, ?_⟩
    have hmemx := getD_mem_of_lt _ idx 0 hidx2
    have hmemd := cm2 _ hmemx
    exact dedupValues_offsets_lt pairs _ hmemd

theorem C5_get_in_bounds_witness :
    (∀ n : Nat, 0 < n → 0 < 2 * n) ∧
    ((∀ (keys : List Nat) (m : Mphf),
      from_slice 32 1 (2 ^ 16 - 1) (2 : ℚ) (fun m => 2 * m) (fun k : Nat => k) keys =
        .ok m →
      ∀ key : Nat, Mphf.get 32 m (fun k : Nat => k) key = none ∨
        ∃ idx, Mphf.get 32 m (fun k : Nat => k) key = some idx ∧ idx < keys.length) ∧
    (∀ (pairs : List (Nat × Nat)) (mp : MapWithDict Nat Nat),
      MapWithDict.from_iter_with_params 32 1 (2 ^ 16 - 1) (2 : ℚ) (fun m => 2 * m)
        (fun k : Nat => k) pairs = .ok mp →
      ∀ key : Nat, Mphf.get 32 mp.mphf (fun k : Nat => k) key = none ∨
        ∃ idx, Mphf.get 32 mp.mphf (fun k : Nat => k) key = some idx ∧
          idx < mp.keys.length ∧ idx < mp.values_index.length ∧
          mp.values_index.getD idx 0 < mp.values_dict.length)) :=
  ⟨fun n hn => by omega,
    @C5_get_in_bounds Nat Nat _ _ 32 1 (2 ^ 16 - 1) (2 : ℚ) (fun m => 2 * m)
      (fun k : Nat => k) (fun n hn => by show 0 < 2 * n; omega)⟩

/-! ### C4: correctness of the in-place cycle sort -/

theorem count_set_off {α : Type} [DecidableEq α] (l : List α) (n : Nat) (a : α)
    (h : n < l.length) (x : α) :
    (l.set n a).count x + (if l.get ⟨n, h⟩ == x then 1 else 0) =
      l.count x + (if a == x then 1 else 0) := by
  have hdecomp : l = l.take n ++ l.get ⟨n, h⟩ :: l.drop (n + 1) := by
    rw [List.get_eq_getElem, ← List.drop_eq_getElem_cons h, List.take_append_drop]
  have hset : l.set n a = l.take n ++ a :: l.drop (n + 1) := by
    rw [List.set_eq_take_append_cons_drop, if_pos h]
  rw [hset, List.count_append, List.count_cons]
  conv_rhs => rw [hdecomp]
  rw [List.count_append, List.count_cons]
  omega

theorem listSwap_perm {α : Type} [DecidableEq α] (l : List α) (i j : Nat) :
    (listSwap l i j).Perm l := by
  rw [List.perm_iff_count]
  intro x
  unfold listSwap
  cases hi : l[i]? with
  | none => rfl
  | some a =>
    cases hj : l[j]? with
    | none => rfl
    | some b =>
      show ((l.set i b).set j a).count x = l.count x
      obtain ⟨hi', hia⟩ := List.getElem?_eq_some_iff.mp hi
      obtain ⟨hj', hjb⟩ := List.getElem?_eq_some_iff.mp hj
      have hjl : j < (l.set i b).length := by
        rw [List.length_set]
        exact hj'
      have c2 := count_set_off (l.set i b) j a hjl x
      have c1 := count_set_off l i b hi' x
      have hia' : l.get ⟨i, hi'⟩ = a := by
        rw [List.get_eq_getElem]
        exact hia
      by_cases hij : i = j
      · subst hij
        have hgb : (l.set i b).get ⟨i, hjl⟩ = b := by
          rw [List.get_eq_getElem]
          exact List.getElem_set_self hjl
        have hab : a = b := by
          rw [hi] at hj
          exact Option.some.inj hj
        rw [hgb] at c2
        rw [hia'] at c1
        subst hab
        omega
      · have hgb : (l.set i b).get ⟨j, hjl⟩ = b := by
          rw [List.get_eq_getElem, List.getElem_set_ne hij hjl]
          exact hjb
        rw [hgb] at c2
        rw [hia'] at c1
        omega

theorem listSwap_getElem? {α : Type} (l : List α) (i j t : Nat) (hi : i < l.length)
    (hj : j < l.length) :
    (listSwap l i j)[t]? = if t = j then l[i]? else if t = i then l[j]? else l[t]? := by
  unfold listSwap
  rw [List.getElem?_eq_getElem hi, List.getElem?_eq_getElem hj]
  show ((l.set i (l.get ⟨j, hj⟩)).set j (l.get ⟨i, hi⟩))[t]? = _
  by_cases htj : t = j
  · subst htj
    simp [List.getElem?_set, hi, hj, List.getElem?_eq_getElem]
  · by_cases hti : t = i
    · subst hti
      simp [List.getElem?_set, hi, hj, htj, Ne.symm htj, List.getElem?_eq_getElem]
    · simp [List.getElem?_set, htj, hti, Ne.symm htj, Ne.symm hti]

theorem getElem?_zip_eq {α β : Type} (l1 : List α) (l2 : List β) (t : Nat) :
    (l1.zip l2)[t]? = match l1[t]?, l2[t]? with
      | some a, some b => some (a, b)
      | _, _ => none := List.getElem?_zipWith

theorem zip_listSwap {α β : Type} (l1 : List α) (l2 : List β) (i j : Nat)
    (hlen : l1.length = l2.length) (hi : i < l1.length) (hj : j < l1.length) :
    (listSwap l1 i j).zip (listSwap l2 i j) = listSwap (l1.zip l2) i j := by
  have hzl : (l1.zip l2).length = l1.length := by
    rw [List.length_zip, hlen, Nat.min_self]
  apply List.ext_getElem?
  intro t
  rw [getElem?_zip_eq,
    listSwap_getElem? l1 i j t hi hj,
    listSwap_getElem? l2 i j t (hlen ▸ hi) (hlen ▸ hj),
    listSwap_getElem? (l1.zip l2) i j t (hzl ▸ hi) (hzl ▸ hj)]
  by_cases htj : t = j
  · rw [if_pos htj, if_pos htj, if_pos htj, getElem?_zip_eq]
  · rw [if_neg htj, if_neg htj, if_neg htj]
    by_cases hti : t = i
    · rw [if_pos hti, if_pos hti, if_pos hti, getElem?_zip_eq]
    · rw [if_neg hti, if_neg hti, if_neg hti, getElem?_zip_eq]

theorem countP_lt_of_witness {α : Type} [DecidableEq α] (l : List α) (p q : α → Bool)
    (a : α) (ha : a ∈ l) (hpa : p a = true) (hqa : q a = false)
    (himp : ∀ x ∈ l, q x = true → p x = true) :
    l.countP q < l.countP p := by
  have hperm := List.perm_cons_erase ha
  rw [hperm.countP_eq q, hperm.countP_eq p, List.countP_cons, List.countP_cons, hpa, hqa]
  have hmono : (l.erase a).countP q ≤ (l.erase a).countP p :=
    List.countP_mono_left (fun x hx hqx => himp x (List.mem_of_mem_erase hx) hqx)
  have h0 : (if false = true then 1 else 0) = 0 := rfl
  have h1 : (if true = true then 1 else 0) = 1 := rfl
  rw [h0, h1]
  omega

theorem posFixed_iff {K : Type} (B : Nat) (m : Mphf) (hashKey : K → Nat) (ks : List K)
    (t : Nat) :
    posFixed B m hashKey ks t = true ↔
      ∃ k, ks[t]? = some k ∧ Mphf.get B m hashKey k = some t := by
  unfold posFixed
  cases hk : ks[t]? with
  | none => simp
  | some k => simp

theorem cycleInner_of_posFixed {K : Type} (B : Nat) (m : Mphf) (hashKey : K → Nat)
    (i : Nat) (st : List K × List Nat) (hfix : posFixed B m hashKey st.1 i = true) :
    ∀ fuel, cycleInner B m hashKey i fuel st = st := by
  intro fuel
  cases fuel with
  | zero => rfl
  | succ f =>
    obtain ⟨k, hk, hg⟩ := (posFixed_iff B m hashKey st.1 i).mp hfix
    exact cycleInner_eq_fix B m hashKey i f st k hk hg

theorem mphf_total_inj {K : Type} (B S stMax : Nat) (gamma : ℚ) (lsize : Nat → Nat)
    (hashKey : K → Nat) (keys : List K) (m : Mphf)
    (hlsize : ∀ n, 0 < n → 0 < lsize n)
    (hok : from_slice B S stMax gamma lsize hashKey keys = .ok m) :
    (∀ k ∈ keys, ∃ j, Mphf.get B m hashKey k = some j ∧ j < keys.length) ∧
    (∀ k1 ∈ keys, ∀ k2 ∈ keys,
      Mphf.get B m hashKey k1 = Mphf.get B m hashKey k2 → k1 = k2) := by
  have hperm := mphf_perm B S stMax gamma lsize hashKey keys m hlsize hok
  constructor
  · intro k hk
    have hmem : Mphf.get B m hashKey k ∈
        keys.map (fun k => Mphf.get B m hashKey k) :=
      List.mem_map.mpr ⟨k, hk, rfl⟩
    have hmem2 := hperm.mem_iff.mp hmem
    obtain ⟨j, hj, hje⟩ := List.mem_map.mp hmem2
    exact ⟨j, hje.symm, List.mem_range.mp hj⟩
  · have hnd2 : ((List.range keys.length).map some : List (Option Nat)).Nodup :=
      List.Nodup.map (Option.some_injective Nat) (List.nodup_range keys.length)
    have hnd1 : (keys.map (fun k => Mphf.get B m hashKey k)).Nodup :=
      (List.Perm.nodup_iff hperm).mpr hnd2
    exact fun k1 h1 k2 h2 he => List.inj_on_of_nodup_map hnd1 h1 h2 he

theorem forall₂_getElem? {α β : Type} (R : α → β → Prop) (l1 : List α) (l2 : List β)
    (h : List.Forall₂ R l1 l2) :
    ∀ (t : Nat) (a : α) (b : β), l1[t]? = some a → l2[t]? = some b → R a b := by
  induction h with
  | nil => intro t a b ha _; simp at ha
  | cons hr hrest ih =>
    intro t a b ha hb
    cases t with
    | zero =>
      rw [List.getElem?_cons_zero] at ha hb
      exact Option.some.inj ha ▸ Option.some.inj hb ▸ hr
    | succ t =>
      rw [List.getElem?_cons_succ] at ha hb
      exact ih t a b ha hb

theorem cycleInner_correct {K : Type} (B : Nat) (m : Mphf) (hashKey : K → Nat)
    (keys0 : List K) (vi0 : List Nat) (hnd : keys0.Nodup)
    (hnv : vi0.length = keys0.length)
    (htot : ∀ k ∈ keys0, ∃ j, Mphf.get B m hashKey k = some j ∧ j < keys0.length)
    (hinj : ∀ k1 ∈ keys0, ∀ k2 ∈ keys0,
      Mphf.get B m hashKey k1 = Mphf.get B m hashKey k2 → k1 = k2)
    (i : Nat) (hi : i < keys0.length) :
    ∀ (fuel : Nat) (st : List K × List Nat),
      st.1.length = keys0.length → st.2.length = vi0.length →
      (st.1.zip st.2).Perm (keys0.zip vi0) →
      (∀ t, t < i → posFixed B m hashKey st.1 t = true) →
      unfixedCount B m hashKey st.1 keys0.length < fuel →
      (cycleInner B m hashKey i fuel st).1.length = keys0.length ∧
      (cycleInner B m hashKey i fuel st).2.length = vi0.length ∧
      ((cycleInner B m hashKey i fuel st).1.zip
        (cycleInner B m hashKey i fuel st).2).Perm (keys0.zip vi0) ∧
      (∀ t, t ≤ i →
        posFixed B m hashKey (cycleInner B m hashKey i fuel st).1 t = true) := by
  classical
  intro fuel
  induction fuel with
  | zero =>
    intro st _ _ _ _ hfuel
    exact absurd hfuel (Nat.not_lt_zero _)
  | succ f ih =>
    intro st hl1 hl2 hperm hpre hfuel
    have hfst : st.1.Perm keys0 := by
      have h1 : (st.1.zip st.2).map Prod.fst = st.1 :=
        List.map_fst_zip st.1 st.2 (by omega)
      have h2 : (keys0.zip vi0).map Prod.fst = keys0 :=
        List.map_fst_zip keys0 vi0 (by omega)
      have h3 := hperm.map Prod.fst
      rw [h1, h2] at h3
      exact h3
    have hnd1 : st.1.Nodup := (List.Perm.nodup_iff hfst).mpr hnd
    have hilt : i < st.1.length := by omega
    have hk : st.1[i]? = some (st.1[i]) := List.getElem?_eq_getElem hilt
    set k := st.1[i] with hkdef
    have hmemk : k ∈ keys0 := hfst.mem_iff.mp (List.getElem?_mem hk)
    obtain ⟨j, hg, hjlt⟩ := htot k hmemk
    by_cases hji : j = i
    · subst hji
      rw [cycleInner_eq_fix B m hashKey j f st k hk hg]
      refine ⟨hl1, hl2, hperm, ?_⟩
      intro t ht
      rcases Nat.lt_or_ge t j with ht' | ht'
      · exact hpre t ht'
      · have htj : t = j := by omega
        subst htj
        exact (posFixed_iff B m hashKey st.1 t).mpr ⟨k, hk, hg⟩
    · have hjunfix : posFixed B m hashKey st.1 j = false := by
        cases hx : posFixed B m hashKey st.1 j
        · rfl
        · exfalso
          obtain ⟨kj, hkj, hgj⟩ := (posFixed_iff B m hashKey st.1 j).mp hx
          have hmemkj : kj ∈ keys0 := hfst.mem_iff.mp (List.getElem?_mem hkj)
          have hkk : kj = k := hinj kj hmemkj k hmemk (by rw [hgj, hg])
          subst hkk
          exact hji (List.getElem?_inj (by omega) hnd1 (by rw [hkj, hk]))
      have hij : i < j := by
        rcases Nat.lt_trichotomy j i with h1 | h1 | h1
        · have h2 := hpre j h1
          rw [hjunfix] at h2
          exact absurd h2 (by simp)
        · exact absurd h1 hji
        · exact h1
      have hjlt1 : j < st.1.length := by omega
      have hzeq : (listSwap st.1 i j).zip (listSwap st.2 i j) =
          listSwap (st.1.zip st.2) i j :=
        zip_listSwap st.1 st.2 i j (by omega) hilt hjlt1
      have hperm1 : ((listSwap st.1 i j).zip (listSwap st.2 i j)).Perm
          (keys0.zip vi0) := by
        rw [hzeq]
        exact (listSwap_perm (st.1.zip st.2) i j).trans hperm
      have hswapget : ∀ t, (listSwap st.1 i j)[t]? =
          if t = j then st.1[i]? else if t = i then st.1[j]? else st.1[t]? :=
        fun t => listSwap_getElem? st.1 i j t hilt hjlt1
      have hpre1 : ∀ t, t < i → posFixed B m hashKey (listSwap st.1 i j) t = true := by
        intro t ht
        have hgt : (listSwap st.1 i j)[t]? = st.1[t]? := by
          rw [hswapget t, if_neg (by omega), if_neg (by omega)]
        obtain ⟨kt, hkt, hgt'⟩ := (posFixed_iff B m hashKey st.1 t).mp (hpre t ht)
        exact (posFixed_iff B m hashKey (listSwap st.1 i j) t).mpr
          ⟨kt, by rw [hgt]; exact hkt, hgt'⟩
      have hjfix1 : posFixed B m hashKey (listSwap st.1 i j) j = true := by
        apply (posFixed_iff B m hashKey (listSwap st.1 i j) j).mpr
        refine ⟨k, ?_, hg⟩
        rw [hswapget j, if_pos rfl]
        exact hk
      have hdec : unfixedCount B m hashKey (listSwap st.1 i j) keys0.length <
          unfixedCount B m hashKey st.1 keys0.length := by
        unfold unfixedCount
        apply countP_lt_of_witness (List.range keys0.length)
          (fun t => ! posFixed B m hashKey st.1 t)
          (fun t => ! posFixed B m hashKey (listSwap st.1 i j) t) j
          (List.mem_range.mpr hjlt)
        · show (! posFixed B m hashKey st.1 j) = true
          rw [hjunfix]
          rfl
        · show (! posFixed B m hashKey (listSwap st.1 i j) j) = false
          rw [hjfix1]
          rfl
        · intro t htmem hqt
          show (! posFixed B m hashKey st.1 t) = true
          have hqt' : posFixed B m hashKey (listSwap st.1 i j) t = false := by
            cases hx : posFixed B m hashKey (listSwap st.1 i j) t
            · rfl
            · rw [hx] at hqt
              exact absurd hqt (by simp)
          by_cases htj : t = j
          · subst htj
            rw [hjfix1] at hqt'
            exact absurd hqt' (by simp)
          · by_cases hti : t = i
            · subst hti
              have hx : posFixed B m hashKey st.1 t = false := by
                cases hx : posFixed B m hashKey st.1 t
                · rfl
                · exfalso
                  obtain ⟨kt, hkt, hgt'⟩ := (posFixed_iff B m hashKey st.1 t).mp hx
                  rw [hk] at hkt
                  have hkk : kt = k := (Option.some.inj hkt).symm
                  subst hkk
                  rw [hg] at hgt'
                  exact absurd (Option.some.inj hgt') (by omega)
              rw [hx]
              rfl
            · have hgt : (listSwap st.1 i j)[t]? = st.1[t]? := by
                rw [hswapget t, if_neg htj, if_neg hti]
              have hx : posFixed B m hashKey st.1 t = false := by
                cases hx : posFixed B m hashKey st.1 t
                · rfl
                · exfalso
                  obtain ⟨kt, hkt, hgt'⟩ := (posFixed_iff B m hashKey st.1 t).mp hx
                  have hfix2 : posFixed B m hashKey (listSwap st.1 i j) t = true :=
                    (posFixed_iff B m hashKey (listSwap st.1 i j) t).mpr
                      ⟨kt, by rw [hgt]; exact hkt, hgt'⟩
                  rw [hfix2] at hqt'
                  exact absurd hqt' (by simp)
              rw [hx]
              rfl
      rw [cycleInner_eq_step B m hashKey i f st k j hk hg hji]
      apply ih (listSwap st.1 i j, listSwap st.2 i j)
      · show (listSwap st.1 i j).length = keys0.length
        rw [listSwap_length]
        omega
      · show (listSwap st.2 i j).length = vi0.length
        rw [listSwap_length]
        omega
      · exact hperm1
      · exact hpre1
      · show unfixedCount B m hashKey (listSwap st.1 i j) keys0.length < f
        omega

theorem cycleFold_correct {K : Type} (B : Nat) (m : Mphf) (hashKey : K → Nat)
    (keys0 : List K) (vi0 : List Nat) (hnd : keys0.Nodup)
    (hnv : vi0.length = keys0.length)
    (htot : ∀ k ∈ keys0, ∃ j, Mphf.get B m hashKey k = some j ∧ j < keys0.length)
    (hinj : ∀ k1 ∈ keys0, ∀ k2 ∈ keys0,
      Mphf.get B m hashKey k1 = Mphf.get B m hashKey k2 → k1 = k2) :
    ∀ i, i ≤ keys0.length →
      ((List.range i).foldl
        (fun st t => cycleInner B m hashKey t (keys0.length + 1) st)
        (keys0, vi0)).1.length = keys0.length ∧
      ((List.range i).foldl
        (fun st t => cycleInner B m hashKey t (keys0.length + 1) st)
        (keys0, vi0)).2.length = vi0.length ∧
      (((List.range i).foldl
        (fun st t => cycleInner B m hashKey t (keys0.length + 1) st)
        (keys0, vi0)).1.zip
       ((List.range i).foldl
        (fun st t => cycleInner B m hashKey t (keys0.length + 1) st)
        (keys0, vi0)).2).Perm (keys0.zip vi0) ∧
      (∀ t, t < i → posFixed B m hashKey
        ((List.range i).foldl
          (fun st t => cycleInner B m hashKey t (keys0.length + 1) st)
          (keys0, vi0)).1 t = true) := by
  intro i
  induction i with
  | zero =>
    intro _
    exact ⟨rfl, rfl, List.Perm.refl _, fun t ht => absurd ht (Nat.not_lt_zero _)⟩
  | succ i ih =>
    intro hle
    obtain ⟨c1, c2, c3, c4⟩ := ih (by omega)
    rw [List.range_succ, List.foldl_append, List.foldl_cons, List.foldl_nil]
    set prev := (List.range i).foldl
      (fun st t => cycleInner B m hashKey t (keys0.length + 1) st) (keys0, vi0)
      with hprev
    have hm : unfixedCount B m hashKey prev.1 keys0.length < keys0.length + 1 := by
      unfold unfixedCount
      have h1 : (List.range keys0.length).countP
          (fun t => ! posFixed B m hashKey prev.1 t) ≤
          (List.range keys0.length).length :=
        List.countP_le_length (fun t => ! posFixed B m hashKey prev.1 t)
      rw [List.length_range] at h1
      omega
    obtain ⟨d1, d2, d3, d4⟩ := cycleInner_correct B m hashKey keys0 vi0 hnd hnv htot
      hinj i (by omega) (keys0.length + 1) prev c1 c2 c3 c4 hm
    exact ⟨d1, d2, d3, fun t ht => d4 t (by omega)⟩

theorem cycleSort_correct {K : Type} (B : Nat) (m : Mphf) (hashKey : K → Nat)
    (keys0 : List K) (vi0 : List Nat) (hnd : keys0.Nodup)
    (hnv : vi0.length = keys0.length)
    (htot : ∀ k ∈ keys0, ∃ j, Mphf.get B m hashKey k = some j ∧ j < keys0.length)
    (hinj : ∀ k1 ∈ keys0, ∀ k2 ∈ keys0,
      Mphf.get B m hashKey k1 = Mphf.get B m hashKey k2 → k1 = k2) :
    (cycleSort B m hashKey keys0 vi0).1.length = keys0.length ∧
    (cycleSort B m hashKey keys0 vi0).2.length = vi0.length ∧
    ((cycleSort B m hashKey keys0 vi0).1.zip
      (cycleSort B m hashKey keys0 vi0).2).Perm (keys0.zip vi0) ∧
    ∀ t, t < keys0.length →
      posFixed B m hashKey (cycleSort B m hashKey keys0 vi0).1 t = true := by
  have h := cycleFold_correct B m hashKey keys0 vi0 hnd hnv htot hinj
    keys0.length (Nat.le_refl _)
  unfold cycleSort
  exact h

theorem from_iter_correct {K V : Type} [DecidableEq V] (B S stMax : Nat) (gamma : ℚ)
    (lsize : Nat → Nat) (hashKey : K → Nat) (pairs : List (K × V))
    (mp : MapWithDict K V) (hlsize : ∀ n, 0 < n → 0 < lsize n)
    (hok : MapWithDict.from_iter_with_params B S stMax gamma lsize hashKey pairs
      = .ok mp) :
    mp.keys.length = pairs.length ∧
    mp.values_index.length = pairs.length ∧
    (pairs.map Prod.fst).Nodup ∧
    mp.keys.Perm (pairs.map Prod.fst) ∧
    (mp.keys.zip mp.values_index).Perm
      ((pairs.map Prod.fst).zip (dedupValues pairs).2.1) ∧
    (∀ k ∈ pairs.map Prod.fst, ∃ idx, Mphf.get B mp.mphf hashKey k = some idx ∧
      idx < pairs.length ∧ mp.keys[idx]? = some k) ∧
    (∀ t, t < pairs.length → posFixed B mp.mphf hashKey mp.keys t = true) := by
  obtain ⟨mphf0, hfs, hmp⟩ := from_iter_ok_inv B S stMax gamma lsize hashKey pairs mp hok
  obtain ⟨hd1, hd2⟩ := dedupValues_inv pairs
  obtain ⟨hB1, hB64, levels, hbl, _⟩ :=
    from_slice_ok_inv B S stMax gamma lsize hashKey (dedupValues pairs).1 mphf0 hfs
  have hndh : ((dedupValues pairs).1.map hashKey).Nodup :=
    ok_nodup B S lsize (by omega) hB64 ((dedupValues pairs).1.map hashKey) levels hbl
  have hnd0 : (dedupValues pairs).1.Nodup := List.Nodup.of_map hashKey hndh
  obtain ⟨htot, hinj⟩ := mphf_total_inj B S stMax gamma lsize hashKey
    (dedupValues pairs).1 mphf0 hlsize hfs
  have hlen1 : (dedupValues pairs).1.length = pairs.length := by
    rw [hd1, List.length_map]
  have hlen2 : (dedupValues pairs).2.1.length = pairs.length := by
    rw [hd2.length_eq, List.length_map]
  obtain ⟨c1, c2, c3, c4⟩ := cycleSort_correct B mphf0 hashKey (dedupValues pairs).1
    (dedupValues pairs).2.1 hnd0 (by omega) htot hinj
  subst hmp
  have hfstp : (cycleSort B mphf0 hashKey (dedupValues pairs).1
      (dedupValues pairs).2.1).1.Perm (dedupValues pairs).1 := by
    have h1 : ((cycleSort B mphf0 hashKey (dedupValues pairs).1
        (dedupValues pairs).2.1).1.zip
        (cycleSort B mphf0 hashKey (dedupValues pairs).1
          (dedupValues pairs).2.1).2).map Prod.fst =
        (cycleSort B mphf0 hashKey (dedupValues pairs).1
          (dedupValues pairs).2.1).1 :=
      List.map_fst_zip _ _ (by omega)
    have h2 : ((dedupValues pairs).1.zip (dedupValues pairs).2.1).map Prod.fst =
        (dedupValues pairs).1 :=
      List.map_fst_zip _ _ (by omega)
    have h3 := c3.map Prod.fst
    rw [h1, h2] at h3
    exact h3
  refine ⟨by rw [c1]; omega, by rw [c2]; omega, by rw [← hd1]; exact hnd0,
    by rw [← hd1]; exact hfstp, by rw [← hd1]; exact c3, ?_, ?_⟩
  · intro k hk
    rw [← hd1] at hk
    obtain ⟨j, hg, hjlt⟩ := htot k hk
    have hfix := c4 j hjlt
    obtain ⟨kj, hkj, hgj⟩ := (posFixed_iff B mphf0 hashKey _ j).mp hfix
    have hmemkj : kj ∈ (dedupValues pairs).1 :=
      hfstp.mem_iff.mp (List.getElem?_mem hkj)
    have hkk : kj = k := hinj kj hmemkj k hk (by rw [hgj, hg])
    subst hkk
    exact ⟨j, hg, by omega, hkj⟩
  · intro t ht
    exact c4 t (by omega)

/-- C4: after a successful container construction, every inserted key `k`
satisfies `keys[mphf.get(k)] = k` on the stored key array, the parallel
`values_index` array is permuted identically (the key/offset pairs after the
cycle sort are a permutation of the key/offset pairs before it), and the
reordering loop terminates: the final state is a fixpoint of the inner swap
loop at every index `i` and for every fuel. -/
theorem C4_cycle_sort {K V : Type} [DecidableEq V] (B S stMax : Nat) (gamma : ℚ)
    (lsize : Nat → Nat) (hashKey : K → Nat) (pairs : List (K × V))
    (mp : MapWithDict K V) (hlsize : ∀ n, 0 < n → 0 < lsize n)
    (hok : MapWithDict.from_iter_with_params B S stMax gamma lsize hashKey pairs
      = .ok mp) :
    (∀ k ∈ pairs.map Prod.fst, ∃ idx, Mphf.get B mp.mphf hashKey k = some idx ∧
      mp.keys[idx]? = some k) ∧
    (mp.keys.zip mp.values_index).Perm
      ((pairs.map Prod.fst).zip (dedupValues pairs).2.1) ∧
    (∀ i fuel, cycleInner B mp.mphf hashKey i fuel (mp.keys, mp.values_index) =
      (mp.keys, mp.values_index)) := by
  obtain ⟨hkl, hvl, hknd, hA, hZ, hC, hD⟩ :=
    from_iter_correct B S stMax gamma lsize hashKey pairs mp hlsize hok
  refine ⟨fun k hk => (hC k hk).imp (fun idx h => ⟨h.1, h.2.2⟩), hZ, ?_⟩
  intro i fuel
  by_cases hi : i < pairs.length
  · exact cycleInner_of_posFixed B mp.mphf hashKey i (mp.keys, mp.values_index)
      (hD i hi) fuel
  · cases fuel with
    | zero => rfl
    | succ f =>
      have hnone : (mp.keys, mp.values_index).1[i]? = none := by
        show mp.keys[i]? = none
        exact List.getElem?_eq_none (by omega)
      exact cycleInner_eq_none B mp.mphf hashKey i f (mp.keys, mp.values_index) hnone

theorem C4_cycle_sort_witness :
    ((∀ n : Nat, 0 < n → 0 < 2 * n) ∧
      MapWithDict.from_iter_with_params 32 1 (2 ^ 16 - 1) (2 : ℚ) (fun m => 2 * m)
        (fun k : Nat => k) [((5 : Nat), (7 : Nat))] =
        .ok ⟨⟨⟨[536870912], [17592186044416]⟩, [2], [0, 0]⟩, [5], [0], [7]⟩) ∧
    ((∀ k ∈ [((5 : Nat), (7 : Nat))].map Prod.fst, ∃ idx,
        Mphf.get 32 (⟨⟨[536870912], [17592186044416]⟩, [2], [0, 0]⟩ : Mphf)
          (fun k : Nat => k) k = some idx ∧ ([(5 : Nat)])[idx]? = some k) ∧
      (([(5 : Nat)].zip [0]).Perm
        (([((5 : Nat), (7 : Nat))].map Prod.fst).zip
          (dedupValues [((5 : Nat), (7 : Nat))]).2.1)) ∧
      (∀ i fuel, cycleInner 32 (⟨⟨[536870912], [17592186044416]⟩, [2], [0, 0]⟩ : Mphf)
        (fun k : Nat => k) i fuel ([(5 : Nat)], [0]) = ([(5 : Nat)], [0]))) :=
  ⟨⟨fun n hn => by omega, by rfl⟩,
    C4_cycle_sort 32 1 (2 ^ 16 - 1) (2 : ℚ) (fun m => 2 * m) (fun k : Nat => k)
      [((5 : Nat), (7 : Nat))]
      ⟨⟨⟨[536870912], [17592186044416]⟩, [2], [0, 0]⟩, [5], [0], [7]⟩
      (fun n hn => by show 0 < 2 * n; omega) (by rfl)⟩

/-! ### C3: `MapWithDict.get` / `contains_key` correctness -/

theorem mapGet_some_eq {K V : Type} [DecidableEq K] (B : Nat) (mp : MapWithDict K V)
    (hashKey : K → Nat) (key : K) (idx : Nat)
    (hg : Mphf.get B mp.mphf hashKey key = some idx) :
    MapWithDict.get B mp hashKey key =
      match mp.keys[idx]? with
      | some k => if k = key then mp.values_dict[mp.values_index.getD idx 0]? else none
      | none => none := by
  unfold MapWithDict.get
  rw [hg]

theorem mapGet_none_eq {K V : Type} [DecidableEq K] (B : Nat) (mp : MapWithDict K V)
    (hashKey : K → Nat) (key : K)
    (hg : Mphf.get B mp.mphf hashKey key = none) :
    MapWithDict.get B mp hashKey key = none := by
  unfold MapWithDict.get
  rw [hg]

theorem containsKey_some_eq {K V : Type} [DecidableEq K] (B : Nat)
    (mp : MapWithDict K V) (hashKey : K → Nat) (key : K) (idx : Nat)
    (hg : Mphf.get B mp.mphf hashKey key = some idx) :
    MapWithDict.contains_key B mp hashKey key = decide (mp.keys[idx]? = some key) := by
  unfold MapWithDict.contains_key
  rw [hg]

theorem containsKey_none_eq {K V : Type} [DecidableEq K] (B : Nat)
    (mp : MapWithDict K V) (hashKey : K → Nat) (key : K)
    (hg : Mphf.get B mp.mphf hashKey key = none) :
    MapWithDict.contains_key B mp hashKey key = false := by
  unfold MapWithDict.contains_key
  rw [hg]

theorem zip_getElem?_some {α β : Type} (l1 : List α) (l2 : List β) (t : Nat)
    (a : α) (b : β) (h : (l1.zip l2)[t]? = some (a, b)) :
    l1[t]? = some a ∧ l2[t]? = some b := by
  rw [getElem?_zip_eq] at h
  cases h1 : l1[t]? with
  | none =>
    rw [h1] at h
    cases h2 : l2[t]? with
    | none => rw [h2] at h; exact absurd h (by simp)
    | some y => rw [h2] at h; exact absurd h (by simp)
  | some x =>
    rw [h1] at h
    cases h2 : l2[t]? with
    | none => rw [h2] at h; exact absurd h (by simp)
    | some y =>
      rw [h2] at h
      have h' : some (x, y) = some (a, b) := h
      have hp := Option.some.inj h'
      rw [Prod.mk.injEq] at hp
      exact ⟨by rw [hp.1], by rw [hp.2]⟩

/-- C3: in a successfully built dictionary map, `get` returns the originally
associated value and `contains_key` returns true on every inserted pair, while
on any key not inserted `get` returns none and `contains_key` false: the
stored-key comparison rejects every MPHF false positive. -/
theorem C3_map_get_contains {K V : Type} [DecidableEq K] [DecidableEq V]
    (B S stMax : Nat) (gamma : ℚ) (lsize : Nat → Nat) (hashKey : K → Nat)
    (pairs : List (K × V)) (mp : MapWithDict K V)
    (hlsize : ∀ n, 0 < n → 0 < lsize n)
    (hok : MapWithDict.from_iter_with_params B S stMax gamma lsize hashKey pairs
      = .ok mp) :
    (∀ kv ∈ pairs, MapWithDict.get B mp hashKey kv.1 = some kv.2 ∧
      MapWithDict.contains_key B mp hashKey kv.1 = true) ∧
    (∀ key : K, key ∉ pairs.map Prod.fst →
      MapWithDict.get B mp hashKey key = none ∧
      MapWithDict.contains_key B mp hashKey key = false) := by
  obtain ⟨hkl, hvl, hknd, hA, hZ, hC, hD⟩ :=
    from_iter_correct B S stMax gamma lsize hashKey pairs mp hlsize hok
  obtain ⟨hd1, hd2⟩ := dedupValues_inv pairs
  constructor
  · intro kv hkv
    have hkmem : kv.1 ∈ pairs.map Prod.fst := List.mem_map.mpr ⟨kv, hkv, rfl⟩
    obtain ⟨idx, hg, hlt, hkidx⟩ := hC kv.1 hkmem
    have hvi : idx < mp.values_index.length := by omega
    have hvio : mp.values_index[idx]? = some (mp.values_index[idx]) :=
      List.getElem?_eq_getElem hvi
    set o := mp.values_index[idx] with hodef
    have hzidx : (mp.keys.zip mp.values_index)[idx]? = some (kv.1, o) := by
      rw [getElem?_zip_eq, hkidx, hvio]
    have hzmem : (kv.1, o) ∈ mp.keys.zip mp.values_index := List.getElem?_mem hzidx
    have hzmem2 : (kv.1, o) ∈ (pairs.map Prod.fst).zip (dedupValues pairs).2.1 :=
      hZ.mem_iff.mp hzmem
    obtain ⟨t, ht⟩ := List.getElem?_of_mem hzmem2
    obtain ⟨htk, hto⟩ := zip_getElem?_some _ _ t kv.1 o ht
    have htk' : (pairs[t]?).map Prod.fst = some kv.1 := by
      rw [← List.getElem?_map]
      exact htk
    obtain ⟨p, hp, hp1⟩ := Option.map_eq_some'.mp htk'
    have htv : (pairs.map Prod.snd)[t]? = some p.2 := by
      rw [List.getElem?_map, hp]
      rfl
    have hdict : (dedupValues pairs).2.2[o]? = some p.2 :=
      forall₂_getElem? _ _ _ hd2 t o p.2 hto htv
    have hpmem : p ∈ pairs := List.getElem?_mem hp
    have hpkv : p = kv := List.inj_on_of_nodup_map hknd hpmem hkv hp1
    have hvd : mp.values_dict = (dedupValues pairs).2.2 := by
      obtain ⟨mphf0, hfs, hmp⟩ :=
        from_iter_ok_inv B S stMax gamma lsize hashKey pairs mp hok
      rw [hmp]
    have hgetD : mp.values_index.getD idx 0 = o := by
      rw [List.getD_eq_getElem?_getD, hvio]
      rfl
    constructor
    · rw [mapGet_some_eq B mp hashKey kv.1 idx hg, hkidx]
      show (if kv.1 = kv.1 then mp.values_dict[mp.values_index.getD idx 0]? else none)
        = some kv.2
      rw [if_pos rfl, hgetD, hvd, hdict, hpkv]
    · rw [containsKey_some_eq B mp hashKey kv.1 idx hg, hkidx]
      simp
  · intro key hkey
    cases hg : Mphf.get B mp.mphf hashKey key with
    | none =>
      exact ⟨mapGet_none_eq B mp hashKey key hg,
        containsKey_none_eq B mp hashKey key hg⟩
    | some idx =>
      cases hk2 : mp.keys[idx]? with
      | none =>
        constructor
        · rw [mapGet_some_eq B mp hashKey key idx hg, hk2]
        · rw [containsKey_some_eq B mp hashKey key idx hg, hk2]
          simp
      | some k2 =>
        have hk2mem : k2 ∈ pairs.map Prod.fst := hA.mem_iff.mp (List.getElem?_mem hk2)
        have hne : k2 ≠ key := fun he => hkey (he ▸ hk2mem)
        constructor
        · rw [mapGet_some_eq B mp hashKey key idx hg, hk2]
          show (if k2 = key then mp.values_dict[mp.values_index.getD idx 0]? else none)
            = none
          rw [if_neg hne]
        · rw [containsKey_some_eq B mp hashKey key idx hg, hk2]
          simp [hne]

theorem C3_map_get_contains_witness :
    ((∀ n : Nat, 0 < n → 0 < 2 * n) ∧
      MapWithDict.from_iter_with_params 32 1 (2 ^ 16 - 1) (2 : ℚ) (fun m => 2 * m)
        (fun k : Nat => k) [((5 : Nat), (7 : Nat))] =
        .ok ⟨⟨⟨[536870912], [17592186044416]⟩, [2], [0, 0]⟩, [5], [0], [7]⟩) ∧
    ((∀ kv ∈ [((5 : Nat), (7 : Nat))],
        MapWithDict.get 32
          (⟨⟨⟨[536870912], [17592186044416]⟩, [2], [0, 0]⟩, [5], [0], [7]⟩ :
            MapWithDict Nat Nat) (fun k : Nat => k) kv.1 = some kv.2 ∧
        MapWithDict.contains_key 32
          (⟨⟨⟨[536870912], [17592186044416]⟩, [2], [0, 0]⟩, [5], [0], [7]⟩ :
            MapWithDict Nat Nat) (fun k : Nat => k) kv.1 = true) ∧
      (∀ key : Nat, key ∉ [((5 : Nat), (7 : Nat))].map Prod.fst →
        MapWithDict.get 32
          (⟨⟨⟨[536870912], [17592186044416]⟩, [2], [0, 0]⟩, [5], [0], [7]⟩ :
            MapWithDict Nat Nat) (fun k : Nat => k) key = none ∧
        MapWithDict.contains_key 32
          (⟨⟨⟨[536870912], [17592186044416]⟩, [2], [0, 0]⟩, [5], [0], [7]⟩ :
            MapWithDict Nat Nat) (fun k : Nat => k) key = false)) :=
  ⟨⟨fun n hn => by omega, by rfl⟩,
    C3_map_get_contains 32 1 (2 ^ 16 - 1) (2 : ℚ) (fun m => 2 * m) (fun k : Nat => k)
      [((5 : Nat), (7 : Nat))]
      ⟨⟨⟨[536870912], [17592186044416]⟩, [2], [0, 0]⟩, [5], [0], [7]⟩
      (fun n hn => by show 0 < 2 * n; omega) (by rfl)⟩

end EntropyMap
